import Mathlib

/-!
Verification of the core numerical and symbolic machinery of the heyoka
Taylor-integration library (sources: src/taylor.cpp, src/math_functions.cpp,
src/function.cpp, src/binary_operator.cpp, include/heyoka/expression.hpp).

The C++ scalar type `T` (an IEEE floating-point type) is embedded as the type
`FP` below: exact rational values plus the special values +inf, -inf and NaN.
Arithmetic on finite values is exact rational arithmetic (rounding is not
modelled); the propagation rules for the special values follow IEEE 754
(0 * inf = NaN, inf - inf = NaN, NaN propagates, comparisons with NaN are
false).  Signed zeros are not modelled.  Transcendental routines used by the
source (detail::pow, detail::log) are abstracted as oracle parameters, and the
JIT-compiled jet routines (produced by llvm_state, outside the core) are
abstracted as oracle functions as well.
-/

namespace Heyoka

/-- Embedding of the IEEE floating-point scalar type `T`: finite values are
exact rationals; `inf`, `ninf` and `nan` are the special values. -/
inductive FP where
  | fin : ℚ → FP
  | inf : FP
  | ninf : FP
  | nan : FP
deriving DecidableEq, Repr

namespace FP

/-- detail::isfinite. -/
def isfinite : FP → Bool
  | fin _ => true
  | _ => false

/-- detail::isnan. -/
def isnan : FP → Bool
  | nan => true
  | _ => false

/-- IEEE negation. -/
def fpNeg : FP → FP
  | fin q => fin (-q)
  | inf => ninf
  | ninf => inf
  | nan => nan

/-- detail::abs (IEEE fabs). -/
def fpAbs : FP → FP
  | fin q => fin |q|
  | inf => inf
  | ninf => inf
  | nan => nan

/-- IEEE addition (exact on finite values; inf + ninf = NaN; NaN propagates). -/
def fpAdd : FP → FP → FP
  | nan, _ => nan
  | _, nan => nan
  | fin a, fin b => fin (a + b)
  | inf, ninf => nan
  | ninf, inf => nan
  | inf, _ => inf
  | _, inf => inf
  | ninf, _ => ninf
  | _, ninf => ninf

/-- IEEE subtraction, defined as in the source via the binary minus. -/
def fpSub (a b : FP) : FP := fpAdd a (fpNeg b)

/-- IEEE multiplication (exact on finite values; 0 * inf = NaN; NaN
propagates; the sign of an infinite product follows the operand signs). -/
def fpMul : FP → FP → FP
  | nan, _ => nan
  | _, nan => nan
  | fin a, fin b => fin (a * b)
  | fin a, inf => if a = 0 then nan else if 0 < a then inf else ninf
  | fin a, ninf => if a = 0 then nan else if 0 < a then ninf else inf
  | inf, fin b => if b = 0 then nan else if 0 < b then inf else ninf
  | ninf, fin b => if b = 0 then nan else if 0 < b then ninf else inf
  | inf, inf => inf
  | inf, ninf => ninf
  | ninf, inf => ninf
  | ninf, ninf => inf

/-- IEEE division (0/0 = NaN, inf/inf = NaN, x/0 = signed infinity for
nonzero finite x, x/inf = 0; signed zeros are not modelled). -/
def fpDiv : FP → FP → FP
  | nan, _ => nan
  | _, nan => nan
  | fin a, fin b =>
      if b = 0 then (if a = 0 then nan else if 0 < a then inf else ninf)
      else fin (a / b)
  | fin _, inf => fin 0
  | fin _, ninf => fin 0
  | inf, fin b => if 0 ≤ b then inf else ninf
  | ninf, fin b => if 0 ≤ b then ninf else inf
  | inf, inf => nan
  | inf, ninf => nan
  | ninf, inf => nan
  | ninf, ninf => nan

/-- IEEE strict less-than: any comparison with NaN is false. -/
def fpLt : FP → FP → Bool
  | nan, _ => false
  | _, nan => false
  | fin a, fin b => a < b
  | fin _, inf => true
  | inf, _ => false
  | ninf, fin _ => true
  | ninf, inf => true
  | ninf, ninf => false
  | fin _, ninf => false

/-- IEEE less-or-equal: any comparison with NaN is false. -/
def fpLe : FP → FP → Bool
  | nan, _ => false
  | _, nan => false
  | fin a, fin b => a ≤ b
  | fin _, inf => true
  | fin _, ninf => false
  | inf, inf => true
  | inf, fin _ => false
  | inf, ninf => false
  | ninf, _ => true

/-- IEEE greater-than, as used by the source (a > b iff b < a). -/
def fpGt (a b : FP) : Bool := fpLt b a

/-- IEEE equality: NaN compares unequal to everything (including itself). -/
def fpEq : FP → FP → Bool
  | nan, _ => false
  | _, nan => false
  | fin a, fin b => a = b
  | inf, inf => true
  | ninf, ninf => true
  | _, _ => false

/-- std::max(a, b) = (a < b) ? b : a, with the C++ comparison semantics
(so the first argument is returned when NaN is involved). -/
def stdMax (a b : FP) : FP := if fpLt a b then b else a

/-- std::min(a, b) = (b < a) ? b : a. -/
def stdMin (a b : FP) : FP := if fpLt b a then b else a

/-- detail::ceil (IEEE ceil is exact on finite values). -/
def fpCeil : FP → FP
  | fin q => fin ((⌈q⌉ : ℤ) : ℚ)
  | inf => inf
  | ninf => ninf
  | nan => nan

/-- static_cast<std::uint32_t>: truncation toward zero of a finite value.
The source applies it only after confirming 0 < value <= u32 max. -/
def toU32 : FP → ℕ
  | fin q => (⌊q⌋).toNat
  | _ => 0

end FP

/-- taylor_outcome (defined in heyoka/taylor.hpp; the variant list is taken
from the spec's Outcome data model and the uses in src/taylor.cpp). -/
inductive Outcome where
  | success : Outcome
  | time_limit : Outcome
  | step_limit : Outcome
  | err_nf_state : Outcome
  | err_nf_derivative : Outcome
  | err_nan_rho : Outcome
deriving DecidableEq, Repr

/-- Whether an outcome is one of the Err* variants. -/
def Outcome.isErr : Outcome → Bool
  | .err_nf_state => true
  | .err_nf_derivative => true
  | .err_nan_rho => true
  | _ => false

/-- One pair-reduction round of Estrin's scheme: the body of the for-loop in
run_estrin (src/taylor.cpp): each pair c_i, c_i+1 becomes c_i + c_i+1 * h,
and an odd tail element is passed through unchanged.  The arithmetic
operations are parameters because the source emits them as LLVM FAdd/FMul
instructions over an arbitrary scalar type. -/
def estrin_round {α : Type} (add mul : α → α → α) (h : α) : List α → List α
  | [] => []
  | [c] => [c]
  | c0 :: c1 :: rest => add c0 (mul c1 h) :: estrin_round add mul h rest

/-- The body of the while-loop of run_estrin (src/taylor.cpp), with an
explicit fuel argument to make the recursion structural (each round shortens
the vector, so fuel = initial length is always enough; run_estrin below
supplies it and the correctness theorem shows the fuel is never exhausted).
The source skips the final h update when one value remains; that h is never
used, so the update is performed unconditionally here. -/
def run_estrin_fuel {α : Type} (add mul : α → α → α) : ℕ → List α → α → Option α
  | _, [], _ => none
  | _, [c], _ => some c
  | 0, _ :: _ :: _, _ => none
  | fuel + 1, c0 :: c1 :: rest, h =>
      run_estrin_fuel add mul fuel (estrin_round add mul h (c0 :: c1 :: rest)) (mul h h)

/-- The while-loop of run_estrin (src/taylor.cpp): repeatedly pair-reduce the
coefficient vector, squaring h after each round, until a single value remains.
The source asserts the vector is non-empty; an empty vector yields none here. -/
def run_estrin {α : Type} (add mul : α → α → α) (cf : List α) (h : α) : Option α :=
  run_estrin_fuel add mul cf.length cf h

/-- Evaluation of a polynomial given by its coefficient list, in Horner form
(used as the reference semantics for Estrin's scheme). -/
def polyHorner : List ℚ → ℚ → ℚ
  | [], _ => 0
  | c :: cs, h => c + h * polyHorner cs h

/-- Norm-infinity accumulation over a list of scalars, as in the max_abs_*
folds of step_impl (src/taylor.cpp): fold of std::max over absolute values,
starting from 0. -/
def max_abs (xs : List FP) : FP :=
  xs.foldl (fun m x => FP.stdMax m (FP.fpAbs x)) (FP.fin 0)

/-- Reading entry (order o, variable i, lane b) of the flat jet buffer with
the source layout jet[o * nvars * batch_size + i * batch_size + b]. -/
def jetAtB (jet : List FP) (nvars batch_size o i b : ℕ) : FP :=
  jet.getD (o * nvars * batch_size + i * batch_size + b) FP.nan

/-- The state update performed by the function emitted by taylor_add_estrin
(src/taylor.cpp): for each variable and batch lane, evaluate the Taylor
polynomial of that lane's jet coefficients (orders 0..order) at the lane's
timestep via run_estrin, over IEEE arithmetic.  Output layout:
out[var * batch_size + lane].  The scalar integrator is the batch_size = 1
instantiation, exactly as in the source template. -/
def estrin_update (nvars order batch_size : ℕ) (jet : List FP) (hs : List FP) :
    List FP :=
  (List.range (nvars * batch_size)).map (fun k =>
    let var_idx := k / batch_size
    let batch_idx := k % batch_size
    (run_estrin FP.fpAdd FP.fpMul
        ((List.range (order + 1)).map (fun o => jetAtB jet nvars batch_size o var_idx batch_idx))
        (hs.getD batch_idx FP.nan)).getD FP.nan)

/-- The data members of taylor_adaptive_impl read and written by step_impl
(src/taylor.cpp). -/
structure TaylorAdaptive where
  m_state : List FP
  m_time : FP
  m_rtol : FP
  m_atol : FP
  m_order_r : ℕ
  m_order_a : ℕ
  m_inv_order : List FP
  m_rhofac_r : FP
  m_rhofac_a : FP
deriving Repr, DecidableEq

/-- taylor_adaptive_impl::step_impl (src/taylor.cpp).  The compiled routine
m_jet_f_r/m_jet_f_a writes the normalised derivatives of orders >= 1 into the
jet buffer (order 0 holds the copied state, per the jet layout guaranteed by
the codegen); it is abstracted as the oracle jet_f mapping the order-0 state
to the concatenated higher-order coefficients.  detail::pow is abstracted as
the oracle powO.  The source's norm-infinity loop returns err_nf_state upon
the first non-finite entry, discarding the partial maximum, so the check and
the fold are written separately here.  Returns the (outcome, h, order) triple
and the updated integrator. -/
def step_impl (jet_f : List FP → List FP) (powO : FP → FP → FP)
    (ta : TaylorAdaptive) (max_delta_t : FP) :
    (Outcome × FP × ℕ) × TaylorAdaptive :=
  let abs_max_delta_t := FP.fpAbs max_delta_t
  let backwards := FP.fpLt max_delta_t (FP.fin 0)
  let nvars := ta.m_state.length
  if ta.m_state.any (fun x => !x.isfinite) then
    ((.err_nf_state, FP.fin 0, 0), ta)
  else
    let max_abs_state := max_abs ta.m_state
    let use_abs_tol := FP.fpLe (FP.fpMul ta.m_rtol max_abs_state) ta.m_atol
    let order := if use_abs_tol then ta.m_order_a else ta.m_order_r
    let jet := ta.m_state ++ jet_f ta.m_state
    if (List.range nvars).any (fun i =>
        !(jetAtB jet nvars 1 (order - 1) i 0).isfinite
          || !(jetAtB jet nvars 1 order i 0).isfinite) then
      ((.err_nf_derivative, FP.fin 0, 0), ta)
    else
      let max_abs_diff_om1 :=
        max_abs ((List.range nvars).map (fun i => jetAtB jet nvars 1 (order - 1) i 0))
      let max_abs_diff_o :=
        max_abs ((List.range nvars).map (fun i => jetAtB jet nvars 1 order i 0))
      let rho_om1 :=
        if use_abs_tol then
          powO (FP.fpDiv (FP.fin 1) max_abs_diff_om1) (ta.m_inv_order.getD (order - 1) FP.nan)
        else
          powO (FP.fpDiv max_abs_state max_abs_diff_om1) (ta.m_inv_order.getD (order - 1) FP.nan)
      let rho_o :=
        if use_abs_tol then
          powO (FP.fpDiv (FP.fin 1) max_abs_diff_o) (ta.m_inv_order.getD order FP.nan)
        else
          powO (FP.fpDiv max_abs_state max_abs_diff_o) (ta.m_inv_order.getD order FP.nan)
      if rho_om1.isnan || rho_o.isnan then
        ((.err_nan_rho, FP.fin 0, 0), ta)
      else
        let rho_m := FP.stdMin rho_o rho_om1
        let h0 := FP.fpMul rho_m (if use_abs_tol then ta.m_rhofac_a else ta.m_rhofac_r)
        let oc := if FP.fpGt h0 abs_max_delta_t then Outcome.time_limit else Outcome.success
        let h1 := if FP.fpGt h0 abs_max_delta_t then abs_max_delta_t else h0
        let h := if backwards then FP.fpNeg h1 else h1
        let new_state := estrin_update nvars order 1 jet [h]
        ((oc, h, order), { ta with m_state := new_state, m_time := FP.fpAdd ta.m_time h })

/-- The data members of taylor_adaptive_batch_impl read and written by its
step_impl (src/taylor.cpp), including the preallocated per-lane scratch
vector m_h. -/
structure TaylorAdaptiveBatch where
  m_batch_size : ℕ
  m_states : List FP
  m_times : List FP
  m_rtol : FP
  m_atol : FP
  m_order_r : ℕ
  m_order_a : ℕ
  m_inv_order : List FP
  m_rhofac_r : FP
  m_rhofac_a : FP
  m_h : List FP
deriving Repr, DecidableEq

/-- Number of variables of the batch integrator (m_states.size() / m_batch_size). -/
def TaylorAdaptiveBatch.nvars (ta : TaylorAdaptiveBatch) : ℕ :=
  ta.m_states.length / ta.m_batch_size

/-- State entry of variable i in lane b (layout m_states[i * batch_size + b]). -/
def TaylorAdaptiveBatch.laneState (ta : TaylorAdaptiveBatch) (i b : ℕ) : FP :=
  ta.m_states.getD (i * ta.m_batch_size + b) FP.nan

/-- First loop of taylor_adaptive_batch_impl::step_impl: lane b is marked
err_nf_state when any of its state entries is non-finite. -/
def batch_res0 (ta : TaylorAdaptiveBatch) (b : ℕ) : Outcome :=
  if (List.range ta.nvars).any (fun i => !(ta.laneState i b).isfinite) then
    Outcome.err_nf_state
  else Outcome.success

/-- First loop of taylor_adaptive_batch_impl::step_impl: norm infinity of lane
b's state, accumulated over the finite entries only (non-finite entries mark
the lane and are skipped in the max). -/
def batch_max_abs_state (ta : TaylorAdaptiveBatch) (b : ℕ) : FP :=
  (List.range ta.nvars).foldl
    (fun m i =>
      if (ta.laneState i b).isfinite then FP.stdMax m (FP.fpAbs (ta.laneState i b)) else m)
    (FP.fin 0)

/-- Per-lane tolerance regime: m_rtol * max_abs_state <= m_atol. -/
def batch_use_abs_tol (ta : TaylorAdaptiveBatch) (b : ℕ) : Bool :=
  FP.fpLe (FP.fpMul ta.m_rtol (batch_max_abs_state ta b)) ta.m_atol

/-- Per-lane Taylor order (m_order_a in the absolute regime, m_order_r otherwise). -/
def batch_cur_order (ta : TaylorAdaptiveBatch) (b : ℕ) : ℕ :=
  if batch_use_abs_tol ta b then ta.m_order_a else ta.m_order_r

/-- Second loop of taylor_adaptive_batch_impl::step_impl: the max of the
per-lane orders, taken over the lanes not marked err_nf_state. -/
def batch_max_order (ta : TaylorAdaptiveBatch) : ℕ :=
  ((List.range ta.m_batch_size).filter (fun b => batch_res0 ta b = Outcome.success)).foldl
    (fun m b => max m (batch_cur_order ta b)) 0

/-- Derivative-check loop of taylor_adaptive_batch_impl::step_impl for lane b:
sequential scan over the variables accumulating the norm infinity of the
derivatives at orders cur_order - 1 and cur_order, stopping the accumulation
once a non-finite derivative is found (the source then marks the lane and
skips it for the remaining variables).  Returns (still-ok flag,
max_abs_diff_om1, max_abs_diff_o). -/
def batch_scan (ta : TaylorAdaptiveBatch) (jet : List FP) (b : ℕ) : Bool × FP × FP :=
  (List.range ta.nvars).foldl
    (fun (acc : Bool × FP × FP) i =>
      if !acc.1 then acc
      else
        let diff_om1 := jetAtB jet ta.nvars ta.m_batch_size (batch_cur_order ta b - 1) i b
        let diff_o := jetAtB jet ta.nvars ta.m_batch_size (batch_cur_order ta b) i b
        if !diff_om1.isfinite || !diff_o.isfinite then (false, acc.2.1, acc.2.2)
        else (true, FP.stdMax acc.2.1 (FP.fpAbs diff_om1), FP.stdMax acc.2.2 (FP.fpAbs diff_o)))
    (true, FP.fin 0, FP.fin 0)

/-- Lane outcome after the derivative-check loop. -/
def batch_res1 (ta : TaylorAdaptiveBatch) (jet : List FP) (b : ℕ) : Outcome :=
  if batch_res0 ta b ≠ Outcome.success then batch_res0 ta b
  else if (batch_scan ta jet b).1 then Outcome.success else Outcome.err_nf_derivative

/-- rho/timestep loop of taylor_adaptive_batch_impl::step_impl for lane b:
returns the lane outcome after this phase together with the value stored into
m_h[b] (0 for every lane in an error state). -/
def batch_rhoh (powO : FP → FP → FP) (ta : TaylorAdaptiveBatch) (jet : List FP)
    (max_delta_ts : List FP) (b : ℕ) : Outcome × FP :=
  if batch_res1 ta jet b ≠ Outcome.success then (batch_res1 ta jet b, FP.fin 0)
  else
    let rho_om1 :=
      if batch_use_abs_tol ta b then
        powO (FP.fpDiv (FP.fin 1) (batch_scan ta jet b).2.1)
          (ta.m_inv_order.getD (batch_cur_order ta b - 1) FP.nan)
      else
        powO (FP.fpDiv (batch_max_abs_state ta b) (batch_scan ta jet b).2.1)
          (ta.m_inv_order.getD (batch_cur_order ta b - 1) FP.nan)
    let rho_o :=
      if batch_use_abs_tol ta b then
        powO (FP.fpDiv (FP.fin 1) (batch_scan ta jet b).2.2)
          (ta.m_inv_order.getD (batch_cur_order ta b) FP.nan)
      else
        powO (FP.fpDiv (batch_max_abs_state ta b) (batch_scan ta jet b).2.2)
          (ta.m_inv_order.getD (batch_cur_order ta b) FP.nan)
    if rho_om1.isnan || rho_o.isnan then (Outcome.err_nan_rho, FP.fin 0)
    else
      let rho_m := FP.stdMin rho_o rho_om1
      let h0 := FP.fpMul rho_m (if batch_use_abs_tol ta b then ta.m_rhofac_a else ta.m_rhofac_r)
      let abs_delta_t := FP.fpAbs (max_delta_ts.getD b FP.nan)
      let oc := if FP.fpGt h0 abs_delta_t then Outcome.time_limit else Outcome.success
      let h1 := if FP.fpGt h0 abs_delta_t then abs_delta_t else h0
      let h := if FP.fpLt (max_delta_ts.getD b FP.nan) (FP.fin 0) then FP.fpNeg h1 else h1
      (oc, h)

/-- taylor_adaptive_batch_impl::step_impl (src/taylor.cpp).  The nested
variable/lane loops of the source are decomposed into the per-lane helper
functions above (the loop bodies only touch per-lane data, so the interchange
is behaviour-preserving).  The jet routine and detail::pow are abstracted as
oracles as in the scalar stepper.  Lanes whose final outcome is not success
keep (h, order) = (0, 0) in res (from the initial fill) and do not get their
time updated; every lane, error or not, is fed through the single
estrin_update call once at least one lane is healthy.  Returns the res vector
and the updated integrator. -/
def step_impl_batch (jet_f : List FP → List FP) (powO : FP → FP → FP)
    (ta : TaylorAdaptiveBatch) (max_delta_ts : List FP) :
    List (Outcome × FP × ℕ) × TaylorAdaptiveBatch :=
  let B := ta.m_batch_size
  if batch_max_order ta = 0 then
    ((List.range B).map (fun b => (batch_res0 ta b, FP.fin 0, 0)), ta)
  else
    let jet := ta.m_states ++ jet_f ta.m_states
    let rhoh := batch_rhoh powO ta jet max_delta_ts
    let new_h := (List.range B).map (fun b => (rhoh b).2)
    let upd_order := if batch_max_order ta = ta.m_order_a then ta.m_order_a else ta.m_order_r
    let new_states := estrin_update ta.nvars upd_order B jet new_h
    let res := (List.range B).map (fun b =>
      if (rhoh b).1 ≠ Outcome.success then ((rhoh b).1, FP.fin 0, 0)
      else ((rhoh b).1, (rhoh b).2, batch_cur_order ta b))
    let new_times := (List.range B).map (fun b =>
      if (rhoh b).1 ≠ Outcome.success then ta.m_times.getD b FP.nan
      else FP.fpAdd (ta.m_times.getD b FP.nan) ((rhoh b).2))
    (res, { ta with m_states := new_states, m_times := new_times, m_h := new_h })

/-- The exceptions thrown by propagate_until (std::invalid_argument and
std::overflow_error in the source). -/
inductive PropagateError where
  | invalid_argument : PropagateError
  | overflow_error : PropagateError
deriving DecidableEq, Repr

/-- The break condition of the propagate_until stepping loop: m_time >= t in
the forward loop, m_time <= t in the backward loop. -/
def crossed_target (forward : Bool) (t time : FP) : Bool :=
  if forward then FP.fpLe t time else FP.fpLe time t

/-- The step magnitude recorded into min_h/max_h: h in the forward loop, -h
in the backward loop. -/
def recorded_h (forward : Bool) (h : FP) : FP :=
  if forward then h else FP.fpNeg h

/-- The stepping loop of taylor_adaptive_impl::propagate_until
(src/taylor.cpp).  The source has two textually identical while-loops for
forward and backward propagation, differing only in the comparison direction
at the break and in the sign of the step recorded into min_h/max_h; the
direction is the forward flag here.  The loop runs until the target time is
crossed, a step reports a non-success/non-time_limit outcome, or the step
budget is hit; the fuel argument bounds the number of iterations modelled
(the source loop is unbounded) and none means the fuel ran out with the loop
still running.  The result tuple is (outcome, min_h, max_h, min_order,
max_order, step_counter) as in the source. -/
def propagate_until_loop (jet_f : List FP → List FP) (powO : FP → FP → FP)
    (forward : Bool) (t : FP) (max_steps : ℕ) :
    ℕ → TaylorAdaptive → ℕ → FP → FP → ℕ → ℕ →
      Option ((Outcome × FP × FP × ℕ × ℕ × ℕ) × TaylorAdaptive)
  | 0, _, _, _, _, _, _ => none
  | fuel + 1, ta, step_counter, min_h, max_h, min_order, max_order =>
      let r := step_impl jet_f powO ta (FP.fpSub t ta.m_time)
      let res := r.1.1
      let h := r.1.2.1
      let t_order := r.1.2.2
      let ta1 := r.2
      if res ≠ Outcome.success ∧ res ≠ Outcome.time_limit then
        some ((res, min_h, max_h, min_order, max_order, step_counter), ta1)
      else
        let step_counter1 := step_counter + 1
        let min_order1 := min min_order t_order
        let max_order1 := max max_order t_order
        if crossed_target forward t ta1.m_time then
          some ((Outcome.time_limit, min_h, max_h, min_order1, max_order1, step_counter1), ta1)
        else
          let min_h1 := FP.stdMin min_h (recorded_h forward h)
          let max_h1 := FP.stdMax max_h (recorded_h forward h)
          if max_steps ≠ 0 ∧ step_counter1 = max_steps then
            some ((Outcome.step_limit, min_h1, max_h1, min_order1, max_order1, step_counter1), ta1)
          else
            propagate_until_loop jet_f powO forward t max_steps fuel ta1 step_counter1
              min_h1 max_h1 min_order1 max_order1

/-- taylor_adaptive_impl::propagate_until (src/taylor.cpp): validation of t,
the zero-step early return at t == m_time with the sentinel statistics, the
overflow check on t - m_time, then the forward or backward stepping loop. -/
def propagate_until (jet_f : List FP → List FP) (powO : FP → FP → FP)
    (ta : TaylorAdaptive) (t : FP) (max_steps : ℕ) (fuel : ℕ) :
    Except PropagateError (Option ((Outcome × FP × FP × ℕ × ℕ × ℕ) × TaylorAdaptive)) :=
  if !t.isfinite then .error .invalid_argument
  else if FP.fpEq t ta.m_time then
    .ok (some ((Outcome.time_limit, FP.inf, FP.fin 0, 4294967295, 0, 0), ta))
  else if (FP.fpLt ta.m_time t && !(FP.fpSub t ta.m_time).isfinite)
      || (FP.fpLt t ta.m_time && !(FP.fpSub ta.m_time t).isfinite) then
    .error .overflow_error
  else if FP.fpLt ta.m_time t then
    .ok (propagate_until_loop jet_f powO true t max_steps fuel ta 0
      FP.inf (FP.fin 0) 4294967295 0)
  else
    .ok (propagate_until_loop jet_f powO false t max_steps fuel ta 0
      FP.inf (FP.fin 0) 4294967295 0)

/-- taylor_adaptive_impl::propagate_for (src/taylor.cpp):
propagate_until(m_time + delta_t, max_steps). -/
def propagate_for (jet_f : List FP → List FP) (powO : FP → FP → FP)
    (ta : TaylorAdaptive) (delta_t : FP) (max_steps : ℕ) (fuel : ℕ) :
    Except PropagateError (Option ((Outcome × FP × FP × ℕ × ℕ × ℕ) × TaylorAdaptive)) :=
  propagate_until jet_f powO ta (FP.fpAdd ta.m_time delta_t) max_steps fuel

/-- Concrete jet oracle for the C1 counterexample and witnesses: with
tab_w below it reproduces the actual jet of the system x' = x at a state
that has overflowed to infinity in lane 1. -/
def jet_f_w : List FP → List FP := fun _ => [FP.fin 1, FP.inf, FP.fin 1, FP.fin 1]

/-- Concrete detail::pow oracle returning 1 everywhere. -/
def pow_w : FP → FP → FP := fun _ _ => FP.fin 1

/-- Concrete detail::pow oracle mapping an infinite base to NaN (as the real
pow does for pow(inf, y) only when y = 0; here it stands for any oracle
producing a NaN rho). -/
def pow2_w : FP → FP → FP := fun a _ => if a = FP.inf then FP.nan else FP.fin 1

/-- Jet oracle with all-finite coefficients (for the C1 witness). -/
def jet2_w : List FP → List FP := fun _ => [FP.fin 0, FP.fin 1, FP.fin 0, FP.fin 1]

/-- A scalar integrator whose state has gone non-finite (reachable after a
successful step overflows the state). -/
def ta_w : TaylorAdaptive :=
  { m_state := [FP.nan], m_time := FP.fin 0, m_rtol := FP.fin 1, m_atol := FP.fin 1,
    m_order_r := 2, m_order_a := 2, m_inv_order := [FP.nan, FP.fin 1, FP.fin (1/2)],
    m_rhofac_r := FP.fin 1, m_rhofac_a := FP.fin 1 }

/-- A batch integrator (two lanes, one variable) whose lane 1 state has gone
infinite. -/
def tab_w : TaylorAdaptiveBatch :=
  { m_batch_size := 2, m_states := [FP.fin 1, FP.inf], m_times := [FP.fin 0, FP.fin 0],
    m_rtol := FP.fin 1, m_atol := FP.fin 1, m_order_r := 2, m_order_a := 2,
    m_inv_order := [FP.nan, FP.fin 1, FP.fin (1/2)],
    m_rhofac_r := FP.fin 1, m_rhofac_a := FP.fin 1, m_h := [FP.fin 0, FP.fin 0] }

/-- A batch integrator (two lanes, one variable) whose lane 0 runs into a NaN
rho (state identically zero in the relative-regime formula's spirit), with
finite jet coefficients. -/
def tab2_w : TaylorAdaptiveBatch :=
  { m_batch_size := 2, m_states := [FP.fin 0, FP.fin 1], m_times := [FP.fin 0, FP.fin 0],
    m_rtol := FP.fin 1, m_atol := FP.fin 1, m_order_r := 2, m_order_a := 2,
    m_inv_order := [FP.nan, FP.fin 1, FP.fin (1/2)],
    m_rhofac_r := FP.fin 1, m_rhofac_a := FP.fin 1, m_h := [FP.fin 9, FP.fin 9] }

/-- The order formula of the adaptive integrator constructors
(src/taylor.cpp): std::max(T(2), ceil(-log(tol) / 2 + 1)), with detail::log
supplied as an oracle. -/
def taylor_order_f (logO : FP → FP) (tol : FP) : FP :=
  FP.stdMax (FP.fin 2)
    (FP.fpCeil (FP.fpAdd (FP.fpDiv (FP.fpNeg (logO tol)) (FP.fin 2)) (FP.fin 1)))

/-- The Taylor-order computation shared by the scalar and batch constructors
(the lines are textually identical in the two constructors in src/taylor.cpp):
compute the two orders, require them finite, fail with an overflow error if
either exceeds the u32 maximum, then truncate to uint32_t. -/
def taylor_ctor_order_check (logO : FP → FP) (rtol atol : FP) :
    Except PropagateError (ℕ × ℕ) :=
  let order_r_f := taylor_order_f logO rtol
  let order_a_f := taylor_order_f logO atol
  if !order_r_f.isfinite || !order_a_f.isfinite then .error .invalid_argument
  else if FP.fpGt order_r_f (FP.fin 4294967295) || FP.fpGt order_a_f (FP.fin 4294967295) then
    .error .overflow_error
  else .ok (FP.toU32 order_r_f, FP.toU32 order_a_f)

/-- The input-validation and Taylor-order-selection prefix of the
taylor_adaptive_impl constructor (src/taylor.cpp).  The remainder of the
constructor builds and compiles the LLVM jet and Estrin functions, which are
external codegen.  Returns (m_order_r, m_order_a). -/
def taylor_adaptive_ctor_orders (logO : FP → FP) (state : List FP) (sys_size : ℕ)
    (time rtol atol : FP) : Except PropagateError (ℕ × ℕ) :=
  if state.any (fun x => !x.isfinite) then .error .invalid_argument
  else if state.length ≠ sys_size then .error .invalid_argument
  else if !time.isfinite then .error .invalid_argument
  else if !rtol.isfinite || FP.fpLe rtol (FP.fin 0) then .error .invalid_argument
  else if !atol.isfinite || FP.fpLe atol (FP.fin 0) then .error .invalid_argument
  else taylor_ctor_order_check logO rtol atol

/-- The input-validation and Taylor-order-selection prefix of the
taylor_adaptive_batch_impl constructor (src/taylor.cpp). -/
def taylor_adaptive_batch_ctor_orders (logO : FP → FP) (states times : List FP)
    (sys_size batch_size : ℕ) (rtol atol : FP) : Except PropagateError (ℕ × ℕ) :=
  if batch_size = 0 then .error .invalid_argument
  else if states.any (fun x => !x.isfinite) then .error .invalid_argument
  else if states.length % batch_size ≠ 0 then .error .invalid_argument
  else if states.length / batch_size ≠ sys_size then .error .invalid_argument
  else if times.any (fun x => !x.isfinite) then .error .invalid_argument
  else if !rtol.isfinite || FP.fpLe rtol (FP.fin 0) then .error .invalid_argument
  else if !atol.isfinite || FP.fpLe atol (FP.fin 0) then .error .invalid_argument
  else taylor_ctor_order_check logO rtol atol

/-- The order formula exactly as the spec states it:
order = max(2, ceil(-log(tol)/2 + 1)), over exact rationals, with the value
of log(tol) supplied. -/
def spec_taylor_order (lq : ℚ) : ℤ := max 2 ⌈-lq / 2 + 1⌉

/-- detail::log oracle returning -8 (for the C5 witness; the value of
log(tol) for tol about 3.35e-4). -/
def log8_w : FP → FP := fun _ => FP.fin (-8)

/-- detail::log oracle returning -1e10, driving the computed order past the
u32 maximum (for the C5 witness). -/
def logbig_w : FP → FP := fun _ => FP.fin (-10000000000)

/-- A one-variable scalar integrator at a benign state (for the C9/C10
witnesses). -/
def ta0_w : TaylorAdaptive :=
  { m_state := [FP.fin 1], m_time := FP.fin 0, m_rtol := FP.fin 1, m_atol := FP.fin 1,
    m_order_r := 2, m_order_a := 2, m_inv_order := [FP.nan, FP.fin 1, FP.fin 1],
    m_rhofac_r := FP.fin 1, m_rhofac_a := FP.fin 1 }

/-- Jet oracle with unit coefficients (for the C9/C10 witnesses). -/
def jet1_w : List FP → List FP := fun _ => [FP.fin 1, FP.fin 1]

/-- The integrator ta0_w after one unit step (for the C9 witness). -/
def ta0_after : TaylorAdaptive :=
  { m_state := [FP.fin 3], m_time := FP.fin 1, m_rtol := FP.fin 1, m_atol := FP.fin 1,
    m_order_r := 2, m_order_a := 2, m_inv_order := [FP.nan, FP.fin 1, FP.fin 1],
    m_rhofac_r := FP.fin 1, m_rhofac_a := FP.fin 1 }

/-! ## Expression layer

Shallow embedding of heyoka's expression algebra: `number`, `variable`,
`binary_operator` and `function` nodes (src/include/heyoka/expression.hpp).
A `function`'s comparison-relevant data (src/src/function.cpp, operator==)
is the three names, the argument list, the attributes, the type tag and the
*presence* of each of the ten std::function callbacks; `FnData` holds
exactly those fields (minus the args, which live in the `Expr.func` node),
so Lean equality of `func` nodes coincides with the C++ operator==.
Callback behaviour is dispatched on the factory-built `FnData` records
(sin/cos/log/pow below), mirroring how the factories install the lambdas. -/

/-- Comparison-relevant data of a heyoka `function` node: the fields read
by operator== in src/src/function.cpp (except the argument vector, stored
in the `Expr.func` node). The `has_*` Booleans model
`static_cast<bool>(f.xxx_f())`, i.e. whether the callback is installed. -/
structure FnData where
  dbl_name : String
  ldbl_name : String
  display_name : String
  attributes : List ℕ
  ty : ℕ
  has_diff_f : Bool
  has_eval_dbl_f : Bool
  has_eval_batch_dbl_f : Bool
  has_eval_num_dbl_f : Bool
  has_deval_num_dbl_f : Bool
  has_taylor_decompose_f : Bool
  has_taylor_init_dbl_f : Bool
  has_taylor_init_ldbl_f : Bool
  has_taylor_diff_dbl_f : Bool
  has_taylor_diff_ldbl_f : Bool
deriving DecidableEq

/-- binary_operator::type (src/src/binary_operator.cpp). -/
inductive BinOp where
  | add : BinOp
  | sub : BinOp
  | mul : BinOp
  | div : BinOp
deriving DecidableEq

/-- heyoka::expression: a variant of number, variable, binary_operator and
function (src/include/heyoka/expression.hpp). Numbers are idealized as
exact rationals. -/
inductive Expr where
  | num : ℚ → Expr
  | var : String → Expr
  | binop : BinOp → Expr → Expr → Expr
  | func : FnData → List Expr → Expr

mutual

/-- Structural equality on expressions, node by node: numbers by value,
variables by name, binary operators by (op, lhs, rhs)
(src/src/binary_operator.cpp operator==), functions by the FnData fields
plus the argument list (src/src/function.cpp operator==). -/
def beqE : Expr → Expr → Bool
  | .num a, .num b => a == b
  | .var a, .var b => a == b
  | .binop t1 l1 r1, .binop t2 l2 r2 => t1 == t2 && beqE l1 l2 && beqE r1 r2
  | .func d1 a1, .func d2 a2 => d1 == d2 && beqL a1 a2
  | _, _ => false

/-- Elementwise `beqE` on argument lists. -/
def beqL : List Expr → List Expr → Bool
  | [], [] => true
  | e :: es, f :: fs => beqE e f && beqL es fs
  | _, _ => false

end

mutual

/-- Decidability of structural equality on expressions (the derive handler
does not support the nested inductive, so the instance is spelled out). -/
def decEqE : (a b : Expr) → Decidable (a = b)
  | .num a, .num b =>
      match decEq a b with
      | isTrue h => isTrue (by rw [h])
      | isFalse h => isFalse (by intro hh; cases hh; exact h rfl)
  | .var a, .var b =>
      match decEq a b with
      | isTrue h => isTrue (by rw [h])
      | isFalse h => isFalse (by intro hh; cases hh; exact h rfl)
  | .binop t1 l1 r1, .binop t2 l2 r2 =>
      match decEq t1 t2, decEqE l1 l2, decEqE r1 r2 with
      | isTrue h1, isTrue h2, isTrue h3 => isTrue (by rw [h1, h2, h3])
      | isFalse h1, _, _ => isFalse (by intro hh; cases hh; exact h1 rfl)
      | _, isFalse h2, _ => isFalse (by intro hh; cases hh; exact h2 rfl)
      | _, _, isFalse h3 => isFalse (by intro hh; cases hh; exact h3 rfl)
  | .func d1 a1, .func d2 a2 =>
      match decEq d1 d2, decEqL a1 a2 with
      | isTrue h1, isTrue h2 => isTrue (by rw [h1, h2])
      | isFalse h1, _ => isFalse (by intro hh; cases hh; exact h1 rfl)
      | _, isFalse h2 => isFalse (by intro hh; cases hh; exact h2 rfl)
  | .num _, .var _ => isFalse (fun h => Expr.noConfusion h)
  | .num _, .binop _ _ _ => isFalse (fun h => Expr.noConfusion h)
  | .num _, .func _ _ => isFalse (fun h => Expr.noConfusion h)
  | .var _, .num _ => isFalse (fun h => Expr.noConfusion h)
  | .var _, .binop _ _ _ => isFalse (fun h => Expr.noConfusion h)
  | .var _, .func _ _ => isFalse (fun h => Expr.noConfusion h)
  | .binop _ _ _, .num _ => isFalse (fun h => Expr.noConfusion h)
  | .binop _ _ _, .var _ => isFalse (fun h => Expr.noConfusion h)
  | .binop _ _ _, .func _ _ => isFalse (fun h => Expr.noConfusion h)
  | .func _ _, .num _ => isFalse (fun h => Expr.noConfusion h)
  | .func _ _, .var _ => isFalse (fun h => Expr.noConfusion h)
  | .func _ _, .binop _ _ _ => isFalse (fun h => Expr.noConfusion h)

/-- Decidability of equality of expression lists, elementwise. -/
def decEqL : (a b : List Expr) → Decidable (a = b)
  | [], [] => isTrue rfl
  | [], _ :: _ => isFalse (fun h => List.noConfusion h)
  | _ :: _, [] => isFalse (fun h => List.noConfusion h)
  | e :: es, f :: fs =>
      match decEqE e f, decEqL es fs with
      | isTrue h1, isTrue h2 => isTrue (by rw [h1, h2])
      | isFalse h1, _ => isFalse (by intro hh; cases hh; exact h1 rfl)
      | _, isFalse h2 => isFalse (by intro hh; cases hh; exact h2 rfl)

end

instance : DecidableEq Expr := decEqE

/-- `function::type::builtin`, modelled as a bare tag; only its equality
with itself matters (all four factories use `builtin`). -/
def function_type_builtin : ℕ := 2

/-- The FnData installed by the `sin` factory
(src/src/math_functions.cpp, `expression sin(expression)`): all ten
callbacks are set. -/
def sin_data : FnData :=
  { dbl_name := "llvm.sin", ldbl_name := "llvm.sin", display_name := "sin",
    attributes := [], ty := function_type_builtin,
    has_diff_f := true, has_eval_dbl_f := true, has_eval_batch_dbl_f := true,
    has_eval_num_dbl_f := true, has_deval_num_dbl_f := true,
    has_taylor_decompose_f := true, has_taylor_init_dbl_f := true,
    has_taylor_init_ldbl_f := true, has_taylor_diff_dbl_f := true,
    has_taylor_diff_ldbl_f := true }

/-- The FnData installed by the `cos` factory
(src/src/math_functions.cpp, `expression cos(expression)`): all ten
callbacks are set. -/
def cos_data : FnData :=
  { dbl_name := "llvm.cos", ldbl_name := "llvm.cos", display_name := "cos",
    attributes := [], ty := function_type_builtin,
    has_diff_f := true, has_eval_dbl_f := true, has_eval_batch_dbl_f := true,
    has_eval_num_dbl_f := true, has_deval_num_dbl_f := true,
    has_taylor_decompose_f := true, has_taylor_init_dbl_f := true,
    has_taylor_init_ldbl_f := true, has_taylor_diff_dbl_f := true,
    has_taylor_diff_ldbl_f := true }

/-- The FnData installed by the `log` factory
(src/src/math_functions.cpp, `expression log(expression)`): diff and the
four eval callbacks are set explicitly, taylor_decompose_f is the default
installed by the function constructor (src/src/function.cpp), and the four
taylor init/diff callbacks are absent. -/
def log_data : FnData :=
  { dbl_name := "llvm.log", ldbl_name := "llvm.log", display_name := "log",
    attributes := [], ty := function_type_builtin,
    has_diff_f := true, has_eval_dbl_f := true, has_eval_batch_dbl_f := true,
    has_eval_num_dbl_f := true, has_deval_num_dbl_f := true,
    has_taylor_decompose_f := true, has_taylor_init_dbl_f := false,
    has_taylor_init_ldbl_f := false, has_taylor_diff_dbl_f := false,
    has_taylor_diff_ldbl_f := false }

/-- The FnData installed by the `pow` factory
(src/src/math_functions.cpp, `expression pow(expression, expression)`):
same callback pattern as `log`. -/
def pow_data : FnData :=
  { dbl_name := "llvm.pow", ldbl_name := "llvm.pow", display_name := "pow",
    attributes := [], ty := function_type_builtin,
    has_diff_f := true, has_eval_dbl_f := true, has_eval_batch_dbl_f := true,
    has_eval_num_dbl_f := true, has_deval_num_dbl_f := true,
    has_taylor_decompose_f := true, has_taylor_init_dbl_f := false,
    has_taylor_init_ldbl_f := false, has_taylor_diff_dbl_f := false,
    has_taylor_diff_ldbl_f := false }

/-- `sin(e)` as built by the factory. -/
def sinE (e : Expr) : Expr := .func sin_data [e]

/-- `cos(e)` as built by the factory. -/
def cosE (e : Expr) : Expr := .func cos_data [e]

/-- `log(e)` as built by the factory. -/
def logE (e : Expr) : Expr := .func log_data [e]

/-- `pow(b, e)` as built by the factory. -/
def powE (b e : Expr) : Expr := .func pow_data [b, e]

/-- `e1 + e2` (binary_operator add). -/
def eadd (a b : Expr) : Expr := .binop .add a b

/-- `e1 - e2` (binary_operator sub). -/
def esub (a b : Expr) : Expr := .binop .sub a b

/-- `e1 * e2` (binary_operator mul). -/
def emul (a b : Expr) : Expr := .binop .mul a b

/-- `e1 / e2` (binary_operator div). -/
def ediv (a b : Expr) : Expr := .binop .div a b

/-- Unary minus. Modelled from the spec (expression.cpp is not in src/):
`-e` builds the product of the literal -1 with `e`. -/
def eneg (e : Expr) : Expr := emul (.num (-1)) e

/-- The canonical internal variable name `u_i`:
`"u_" + detail::li_to_string(i)` with decimal formatting. -/
def uname (i : ℕ) : String := "u_" ++ Nat.repr i

mutual

/-- The plain occurrence list of variable names in an expression, in
left-to-right order (proof helper; `get_variables` below is the source's
sorted-unique version). -/
def varsB : Expr → List String
  | .num _ => []
  | .var s => [s]
  | .binop _ l r => varsB l ++ varsB r
  | .func _ args => varsL args

/-- `varsB` over an argument list. -/
def varsL : List Expr → List String
  | [] => []
  | e :: es => varsB e ++ varsL es

end

mutual

/-- rename_variables: replaces each variable name by its image under the
replacement map, leaving unmapped names, numbers and parameters alone
(src/src/function.cpp and src/src/binary_operator.cpp recurse on children;
the variable case is modelled from the spec, variable.cpp not in src/). -/
def rename_variables (m : List (String × String)) : Expr → Expr
  | .num q => .num q
  | .var s => .var ((m.lookup s).getD s)
  | .binop t l r => .binop t (rename_variables m l) (rename_variables m r)
  | .func d args => .func d (renameL m args)

/-- `rename_variables` over an argument list. -/
def renameL (m : List (String × String)) : List Expr → List Expr
  | [] => []
  | e :: es => rename_variables m e :: renameL m es

end

mutual

/-- subs: structural substitution of variables by expressions; a variable
present in the map becomes its image, anything else is rebuilt with
substituted children. Modelled from the spec (expression.cpp/variable.cpp
not in src/; §4.A: "structural substitution. Substitutes variables
only"). -/
def subsE (m : List (String × Expr)) : Expr → Expr
  | .num q => .num q
  | .var s => (m.lookup s).getD (.var s)
  | .binop t l r => .binop t (subsE m l) (subsE m r)
  | .func d args => .func d (subsL m args)

/-- `subsE` over an argument list. -/
def subsL (m : List (String × Expr)) : List Expr → List Expr
  | [] => []
  | e :: es => subsE m e :: subsL m es

end

/-- Lexicographic comparison of character lists by code point, the order
std::sort applies to std::string (byte-wise lexicographic; the two agree
on the names compared here). -/
def charListLt : List Char → List Char → Bool
  | [], [] => false
  | [], _ :: _ => true
  | _ :: _, [] => false
  | a :: as, b :: bs =>
      if a.toNat < b.toNat then true
      else if b.toNat < a.toNat then false
      else charListLt as bs

/-- The `≤` relation `std::sort` needs, as a Prop: not strictly greater. -/
def strLeP (a b : String) : Prop := charListLt b.data a.data = false

instance : DecidableRel strLeP := fun a b => by
  unfold strLeP; infer_instance

/-- Remove consecutive duplicates, as std::unique does on the sorted
vector. -/
def dedupAdj : List String → List String
  | [] => []
  | [a] => [a]
  | a :: b :: rest => if a = b then dedupAdj (b :: rest) else a :: dedupAdj (b :: rest)

/-- `std::sort` followed by `std::unique`/erase on a vector of names. -/
def sortDedup (l : List String) : List String :=
  dedupAdj (l.insertionSort strLeP)

mutual

/-- get_variables: the sorted, duplicate-free list of variable names of an
expression (src/src/binary_operator.cpp and src/src/function.cpp; the
number/variable cases are modelled from the spec). -/
def get_variables : Expr → List String
  | .num _ => []
  | .var s => [s]
  | .binop _ l r => sortDedup (get_variables l ++ get_variables r)
  | .func _ args => getVarsL args

/-- get_variables over a function's argument list: fold each argument's
variables into the accumulator, sorting and deduplicating at each step
(src/src/function.cpp). -/
def getVarsL : List Expr → List String
  | [] => []
  | e :: es => getVarsFold (sortDedup ([] ++ get_variables e)) es

/-- The tail of the get_variables fold, carrying the accumulator. -/
def getVarsFold (acc : List String) : List Expr → List String
  | [] => acc
  | e :: es => getVarsFold (sortDedup (acc ++ get_variables e)) es

end

/-- diff: symbolic differentiation with respect to a variable name.
Number and Variable cases are per the spec (their .cpp files are not in
src/): a number differentiates to 0, a variable to 1 or 0. The
binary_operator case follows src/src/binary_operator.cpp (sum/difference
linear, Leibniz product, quotient rule). A function dispatches to its
installed diff callback, modelled for the four factory records of
src/src/math_functions.cpp; a missing or unmodelled callback yields
`none` (the C++ throws). -/
def diffE (s : String) : Expr → Option Expr
  | .num _ => some (.num 0)
  | .var v => some (if v = s then .num 1 else .num 0)
  | .binop t l r =>
      match diffE s l, diffE s r with
      | some dl, some dr =>
          match t with
          | .add => some (eadd dl dr)
          | .sub => some (esub dl dr)
          | .mul => some (eadd (emul dl r) (emul l dr))
          | .div => some (ediv (esub (emul dl r) (emul l dr)) (emul r r))
      | _, _ => none
  | .func d args =>
      if d = sin_data then
        match args with
        | [a] =>
            match diffE s a with
            | some da => some (emul (cosE a) da)
            | none => none
        | _ => none
      else if d = cos_data then
        match args with
        | [a] =>
            match diffE s a with
            | some da => some (emul (eneg (sinE a)) da)
            | none => none
        | _ => none
      else if d = log_data then
        match args with
        | [a] =>
            match diffE s a with
            | some da => some (emul (ediv (.num 1) a) da)
            | none => none
        | _ => none
      else if d = pow_data then
        match args with
        | [a, b] =>
            match diffE s a, diffE s b with
            | some da, some db =>
                some (eadd (emul (emul b (powE a (esub b (.num 1)))) da)
                           (emul (emul (powE a b) (logE a)) db))
            | _, _ => none
        | _ => none
      else none

/-- operator== on function nodes (src/src/function.cpp): compares the
three names, the argument vectors, the attributes, the type tag, and for
each of the ten std::function callbacks only whether it is installed
(static_cast<bool>), never its identity. -/
def function_eq (d1 : FnData) (args1 : List Expr) (d2 : FnData) (args2 : List Expr) : Bool :=
  d1.dbl_name == d2.dbl_name && d1.ldbl_name == d2.ldbl_name
    && d1.display_name == d2.display_name
    && beqL args1 args2 && d1.attributes == d2.attributes
    && d1.ty == d2.ty
    && (d1.has_diff_f == d2.has_diff_f)
    && (d1.has_eval_dbl_f == d2.has_eval_dbl_f)
    && (d1.has_eval_batch_dbl_f == d2.has_eval_batch_dbl_f)
    && (d1.has_eval_num_dbl_f == d2.has_eval_num_dbl_f)
    && (d1.has_deval_num_dbl_f == d2.has_deval_num_dbl_f)
    && (d1.has_taylor_decompose_f == d2.has_taylor_decompose_f)
    && (d1.has_taylor_init_dbl_f == d2.has_taylor_init_dbl_f)
    && (d1.has_taylor_init_ldbl_f == d2.has_taylor_init_ldbl_f)
    && (d1.has_taylor_diff_dbl_f == d2.has_taylor_diff_dbl_f)
    && (d1.has_taylor_diff_ldbl_f == d2.has_taylor_diff_ldbl_f)

mutual

/-- taylor_decompose_in_place: a number or a variable is left alone and
signalled with 0; a binary operator decomposes both children, replaces a
decomposed child with the variable `u_<index>`, appends itself and returns
its index (modelled from the spec, binary_operator.cpp's overload is not
in src/); a function dispatches on its installed taylor_decompose_f:
the sin rule appends `sin` then its companion `cos` and returns the sin
index, the cos rule appends companion `sin` then `cos` and returns the cos
index (src/src/math_functions.cpp), any other installed callback is the
constructor default which decomposes every argument and appends the node
(src/src/function.cpp function_default_td); an absent callback throws,
modelled as `none`. -/
def tdip : Expr → List Expr → Option (List Expr × ℕ)
  | .num _, U => some (U, 0)
  | .var _, U => some (U, 0)
  | .binop t l r, U =>
      match tdip l U with
      | none => none
      | some (U1, dl) =>
        match tdip r U1 with
        | none => none
        | some (U2, dr) =>
          let l2 := if dl = 0 then l else .var (uname dl)
          let r2 := if dr = 0 then r else .var (uname dr)
          some (U2 ++ [.binop t l2 r2], U2.length)
  | .func d args, U =>
      if d = sin_data then
        match args with
        | [a] =>
            match tdip a U with
            | none => none
            | some (U1, da) =>
              let a2 := if da = 0 then a else .var (uname da)
              some (U1 ++ [.func d [a2], cosE a2], U1.length)
        | _ => none
      else if d = cos_data then
        match args with
        | [a] =>
            match tdip a U with
            | none => none
            | some (U1, da) =>
              let a2 := if da = 0 then a else .var (uname da)
              some (U1 ++ [sinE a2, .func d [a2]], U1.length + 1)
        | _ => none
      else if d.has_taylor_decompose_f then
        match tdipArgs args U with
        | none => none
        | some (U1, args2) => some (U1 ++ [.func d args2], U1.length)
      else none

/-- The argument loop of function_default_td: decompose each argument in
order, replacing decomposed arguments with their `u_<index>` variable. -/
def tdipArgs : List Expr → List Expr → Option (List Expr × List Expr)
  | [], U => some (U, [])
  | a :: as, U =>
      match tdip a U with
      | none => none
      | some (U1, da) =>
        let a2 := if da = 0 then a else .var (uname da)
        match tdipArgs as U1 with
        | none => none
        | some (U2, as2) => some (U2, a2 :: as2)

end

/-- The per-equation loop of taylor_decompose (src/src/taylor.cpp): run
taylor_decompose_in_place on each renamed right-hand side, and record in
the copies the equation itself if untouched, else the variable pointing
at its decomposed index. -/
def decompose_eqs : List Expr → List Expr → Option (List Expr × List Expr)
  | [], U => some (U, [])
  | e :: es, U =>
      match tdip e U with
      | none => none
      | some (U1, r) =>
        match decompose_eqs es U1 with
        | none => none
        | some (U2, cs) => some (U2, (if r = 0 then e else .var (uname r)) :: cs)

/-- The deduced-variable list of taylor_decompose (src/src/taylor.cpp):
fold each equation's get_variables into the accumulator, sorting and
erasing duplicates at every round. -/
def deduce_vars (v_ex : List Expr) : List String :=
  v_ex.foldl (fun acc ex => sortDedup (acc ++ get_variables ex)) []

/-- The canonical renaming map: vars[i] -> u_i, built in order. -/
def mkReplMap : ℕ → List String → List (String × String)
  | _, [] => []
  | i, v :: vs => (v, uname i) :: mkReplMap (i + 1) vs

/-- taylor_decompose before the CSE pass (src/src/taylor.cpp, the
automatic-deduction overload): validate, canonically rename, seed the
decomposition with the state variables, decompose each equation and append
the (possibly replaced) right-hand sides. Exceptions are `none`. -/
def taylor_decompose_pre (v_ex : List Expr) : Option (List Expr) :=
  if v_ex.isEmpty then none
  else
    let vars := deduce_vars v_ex
    if vars.length ≠ v_ex.length then none
    else
      let repl := mkReplMap 0 vars
      let vexr := v_ex.map (rename_variables repl)
      let seeds := vars.map Expr.var
      match decompose_eqs vexr seeds with
      | none => none
      | some (U, cs) => some (U ++ cs)

/-- One iteration of the CSE middle loop (src/src/taylor.cpp
taylor_decompose_cse): rename the entry through the accumulated
u-variable renaming; on a fresh expression keep it and record its new
index, on a duplicate drop it and remap `u_i` to the earlier index. -/
def cse_step (st : List Expr × List (Expr × ℕ) × List (String × String))
    (i : ℕ) (ex : Expr) :
    List Expr × List (Expr × ℕ) × List (String × String) :=
  let retval := st.1
  let exmap := st.2.1
  let ren := st.2.2
  let ex2 := rename_variables ren ex
  match exmap.lookup ex2 with
  | some j => (retval, exmap, ren ++ [(uname i, uname j)])
  | none =>
      (retval ++ [ex2], exmap ++ [(ex2, retval.length)],
       ren ++ [(uname i, uname retval.length)])

/-- The CSE middle loop, processing entries with their original absolute
indices. -/
def cse_loop : List Expr → ℕ →
    (List Expr × List (Expr × ℕ) × List (String × String)) →
    (List Expr × List (Expr × ℕ) × List (String × String))
  | [], _, st => st
  | e :: es, i, st => cse_loop es (i + 1) (cse_step st i e)

/-- taylor_decompose_cse (src/src/taylor.cpp): keep the first n_eq seed
entries, deduplicate the middle region while accumulating the u-variable
renaming, and rewrite the final n_eq entries through that renaming. -/
def taylor_decompose_cse (v_ex : List Expr) (n_eq : ℕ) : List Expr :=
  let middle := (v_ex.take (v_ex.length - n_eq)).drop n_eq
  let tails := v_ex.drop (v_ex.length - n_eq)
  let st := cse_loop middle n_eq (v_ex.take n_eq, [], [])
  st.1 ++ tails.map (rename_variables st.2.2)

/-- The full taylor_decompose pipeline: decomposition followed by the CSE
pass (src/src/taylor.cpp). -/
def taylor_decompose (v_ex : List Expr) : Option (List Expr) :=
  match taylor_decompose_pre v_ex with
  | none => none
  | some dc => some (taylor_decompose_cse dc v_ex.length)

/-- The substitution map verify_taylor_dec builds (src/src/taylor.cpp):
for each index below the tail region, map `u_k` to the entry's definition
with all earlier u-variables already expanded. -/
def subs_map_upto (dc : List Expr) : ℕ → List (String × Expr)
  | 0 => []
  | k + 1 =>
      subs_map_upto dc k
        ++ [(uname k, subsE (subs_map_upto dc k) (dc.getD k (.num 0)))]

/-- Reading the flat jet array by (order, u-index), the layout the Taylor
recurrences address: cell `o * n_uvars + i`. -/
def jetRC (n_uvars : ℕ) (jet : ℕ → ℚ) (o i : ℕ) : ℚ := jet (o * n_uvars + i)

/-- The Taylor recurrence emitted for sin(variable) at decomposition slot
idx (src/src/math_functions.cpp taylor_diff_sin_impl): accumulate
j * jet[(order-j)*n_uvars + idx + 1] * jet[j*n_uvars + u_idx] for
j = 1..order and divide by the order. The `idx + 1` reads the cosine
companion's column. -/
def taylor_diff_sin_var (idx u_idx n_uvars order : ℕ) (jet : ℕ → ℚ) : ℚ :=
  (∑ j ∈ Finset.Icc 1 order,
      (j : ℚ) * jet ((order - j) * n_uvars + (idx + 1)) * jet (j * n_uvars + u_idx))
    / (order : ℚ)

/-- The Taylor recurrence emitted for cos(variable) at decomposition slot
idx (src/src/math_functions.cpp taylor_diff_cos_impl): same accumulation
but reading column `idx - 1` (the sine companion) and negating the
result. -/
def taylor_diff_cos_var (idx u_idx n_uvars order : ℕ) (jet : ℕ → ℚ) : ℚ :=
  -((∑ j ∈ Finset.Icc 1 order,
      (j : ℚ) * jet ((order - j) * n_uvars + (idx - 1)) * jet (j * n_uvars + u_idx))
    / (order : ℚ))

/-- The action of a substitution map on one variable name: its image if
present, itself otherwise (the variable case of `subsE`). -/
def applySub (m : List (String × Expr)) (x : String) : Expr :=
  (m.lookup x).getD (.var x)

/-- All variables of an expression are internal names with index below k
(the middle-region invariant verify_taylor_dec asserts). -/
def PvarsBelow (k : ℕ) (e : Expr) : Prop :=
  ∀ x ∈ varsB e, ∃ j, j < k ∧ x = uname j

/-- Every entry of the decomposition from index n on only references
earlier u-variables (the `uname_to_index(var) < i` invariant of
verify_taylor_dec). -/
def WFfrom (n : ℕ) (U : List Expr) : Prop :=
  ∀ k, n ≤ k → k < U.length → PvarsBelow k (U.getD k (.num 0))

/-- What one taylor_decompose_in_place call guarantees: the decomposition
grows by appended entries only, every new entry references only earlier
entries, a 0 return means the (number or variable) expression was left
untouched and nothing was appended, a nonzero return indexes a new entry,
and expanding all u-variables through the result equals expanding the
original expression through the original decomposition. -/
def TdipOut (e : Expr) (U U' : List Expr) (r : ℕ) : Prop :=
  (∃ V, U' = U ++ V)
  ∧ WFfrom U.length U'
  ∧ (r = 0 → U' = U ∧ ((∃ q, e = .num q) ∨ (∃ s, e = .var s)))
  ∧ (r ≠ 0 → U.length ≤ r ∧ r < U'.length)
  ∧ subsE (subs_map_upto U' U'.length) (if r = 0 then e else .var (uname r))
      = subsE (subs_map_upto U U.length) e

/-- What the argument loop of the default decomposition guarantees,
analogously for the replaced argument list. -/
def TdipArgsOut (as : List Expr) (U U' : List Expr) (as2 : List Expr) : Prop :=
  (∃ V, U' = U ++ V)
  ∧ WFfrom U.length U'
  ∧ (∀ x ∈ varsL as2, ∃ j, j < U'.length ∧ x = uname j)
  ∧ subsL (subs_map_upto U' U'.length) as2 = subsL (subs_map_upto U U.length) as

/-- The semantic invariant of the CSE middle loop over decomposition dc,
at absolute index i with state (retval, ex_map, uvars_rename): the kept
list still starts with the n seeds and is well-formed; every already
processed internal name u_j is renamed to a kept index whose expanded
value matches u_j's expanded value in the original decomposition; the
rename map holds nothing else; and ex_map records kept middle entries
faithfully. -/
def CseInv (dc : List Expr) (n i : ℕ)
    (st : List Expr × List (Expr × ℕ) × List (String × String)) : Prop :=
  n ≤ st.1.length
  ∧ st.1.take n = dc.take n
  ∧ WFfrom n st.1
  ∧ (∀ j, n ≤ j → j < i → ∃ k, n ≤ k ∧ k < st.1.length ∧
      st.2.2.lookup (uname j) = some (uname k) ∧
      (subs_map_upto st.1 st.1.length).lookup (uname k)
        = (subs_map_upto dc dc.length).lookup (uname j))
  ∧ (∀ x, (∀ j, n ≤ j → j < i → x ≠ uname j) → st.2.2.lookup x = none)
  ∧ (∀ p ∈ st.2.1, n ≤ p.2 ∧ p.2 < st.1.length ∧ st.1.getD p.2 (.num 0) = p.1)

/-- An expression that is neither a sin nor a cos call. -/
def NotSinCos (e : Expr) : Prop :=
  (∀ a, e ≠ sinE a) ∧ (∀ a, e ≠ cosE a)

/-- The sin/cos companion layout of a decomposition: every sin(v) entry is
immediately followed by cos(v), and every cos(v) entry immediately
preceded by sin(v). -/
def SinCosAdj (U : List Expr) : Prop :=
  (∀ k a, k < U.length → U.getD k (.num 0) = sinE a →
    k + 1 < U.length ∧ U.getD (k + 1) (.num 0) = cosE a)
  ∧ (∀ k a, k < U.length → U.getD k (.num 0) = cosE a →
      ∃ k', k = k' + 1 ∧ U.getD k' (.num 0) = sinE a)

/-- A list made of sin/cos companion pairs and other single entries (the
shape of the decomposition's middle region, used to walk the CSE loop two
entries at a time over a pair). -/
inductive Blocky : List Expr → Prop where
  | nil : Blocky []
  | single : ∀ e es, NotSinCos e → Blocky es → Blocky (e :: es)
  | pair : ∀ a es, Blocky es → Blocky (sinE a :: cosE a :: es)

/-- The adjacency invariant of the CSE middle loop: the kept list keeps
sin/cos companions adjacent, its seed region holds no sin/cos entry,
ex_map records kept middle entries faithfully, and every kept middle entry
can be found in ex_map. -/
def CseAdjInv (n : ℕ)
    (st : List Expr × List (Expr × ℕ) × List (String × String)) : Prop :=
  n ≤ st.1.length
  ∧ SinCosAdj st.1
  ∧ (∀ k, k < n → NotSinCos (st.1.getD k (.num 0)))
  ∧ (∀ p ∈ st.2.1, n ≤ p.2 ∧ p.2 < st.1.length ∧ st.1.getD p.2 (.num 0) = p.1)
  ∧ (∀ k, n ≤ k → k < st.1.length →
      (st.2.1.lookup (st.1.getD k (.num 0))).isSome)

/-- Whether a name starts with the internal prefix "u_"
(`var.rfind("u_", 0) == 0` in verify_taylor_dec). -/
def uPrefixed (s : String) : Bool :=
  match s.data with
  | 'u' :: '_' :: _ => true
  | _ => false

/-- A function record that agrees with the sin factory's record on the
display name but differs in dbl_name (for the C7 counterexample). -/
def fnrec_w : FnData := { sin_data with dbl_name := "other" }

/-- A function record that agrees with the sin factory's record except
that the double-precision taylor_init callback is absent (for the C7
counterexample). -/
def fnrec2_w : FnData := { sin_data with has_taylor_init_dbl_f := false }

/-! ## Theorems -/

/-- C8: Whenever the scalar stepper's step_impl returns an outcome other than
success or time_limit, the returned timestep h and the returned Taylor order
are both exactly 0 (every error return in taylor_adaptive_impl::step_impl is
the tuple (outcome, T(0), uint32_t(0))). -/
theorem step_impl_err_returns_zero_h_order (jet_f : List FP → List FP)
    (powO : FP → FP → FP) (ta : TaylorAdaptive) (mdt : FP)
    (h1 : (step_impl jet_f powO ta mdt).1.1 ≠ Outcome.success)
    (h2 : (step_impl jet_f powO ta mdt).1.1 ≠ Outcome.time_limit) :
    (step_impl jet_f powO ta mdt).1.2.1 = FP.fin 0 ∧
      (step_impl jet_f powO ta mdt).1.2.2 = 0 := by
  revert h1 h2
  unfold step_impl
  dsimp only
  repeat' split
  all_goals
    first
      | exact fun _ _ => ⟨rfl, rfl⟩
      | (intro h1 h2; exact absurd rfl h2)
      | (intro h1 h2; exact absurd rfl h1)

theorem fpAdd_fin_zero (x : FP) : FP.fpAdd x (FP.fin 0) = x := by
  cases x <;> simp [FP.fpAdd]

theorem fpMul_fin_fin_zero (q : ℚ) : FP.fpMul (FP.fin q) (FP.fin 0) = FP.fin 0 := by
  simp [FP.fpMul]

theorem isfinite_iff (x : FP) : x.isfinite = true ↔ ∃ q, x = FP.fin q := by
  cases x <;> simp [FP.isfinite]

theorem estrin_round_length_le {α : Type} (add mul : α → α → α) (h : α) :
    (l : List α) → (estrin_round add mul h l).length ≤ l.length
  | [] => by simp [estrin_round]
  | [c] => by simp [estrin_round]
  | c0 :: c1 :: rest => by
      have := estrin_round_length_le add mul h rest
      simp only [estrin_round, List.length_cons]
      omega

theorem estrin_round_finite_zero :
    ∀ (l : List FP), (∀ c ∈ l, c.isfinite = true) →
      ∀ c ∈ estrin_round FP.fpAdd FP.fpMul (FP.fin 0) l, c.isfinite = true
  | [] => by simp [estrin_round]
  | [c] => by simp [estrin_round]
  | c0 :: c1 :: rest => by
      intro hfin
      obtain ⟨a, ha⟩ := (isfinite_iff c0).1 (hfin c0 (by simp))
      obtain ⟨b, hb⟩ := (isfinite_iff c1).1 (hfin c1 (by simp))
      have ih := estrin_round_finite_zero rest (fun c hc => hfin c (by simp [hc]))
      intro c hc
      rw [show estrin_round FP.fpAdd FP.fpMul (FP.fin 0) (c0 :: c1 :: rest)
            = FP.fpAdd c0 (FP.fpMul c1 (FP.fin 0))
                :: estrin_round FP.fpAdd FP.fpMul (FP.fin 0) rest from rfl] at hc
      rcases List.mem_cons.mp hc with hc1 | hc1
      · rw [hc1, hb, fpMul_fin_fin_zero, fpAdd_fin_zero, ha]
        rfl
      · exact ih c hc1

theorem run_estrin_fuel_zero_fin :
    ∀ (fuel : ℕ) (c0 : FP) (cs : List FP), cs.length ≤ fuel →
      (∀ c ∈ cs, c.isfinite = true) →
      run_estrin_fuel FP.fpAdd FP.fpMul fuel (c0 :: cs) (FP.fin 0) = some c0
  | fuel, _, [], _, _ => by cases fuel <;> simp [run_estrin_fuel]
  | 0, _, c1 :: rest, hlen, _ => by simp at hlen
  | fuel + 1, c0, c1 :: rest, hlen, hfin => by
      obtain ⟨b, hb⟩ := (isfinite_iff c1).1 (hfin c1 (by simp))
      rw [run_estrin_fuel]
      have hround : estrin_round FP.fpAdd FP.fpMul (FP.fin 0) (c0 :: c1 :: rest)
          = c0 :: estrin_round FP.fpAdd FP.fpMul (FP.fin 0) rest := by
        simp [estrin_round, hb, fpMul_fin_fin_zero, fpAdd_fin_zero]
      rw [hround, fpMul_fin_fin_zero]
      have hr : rest.length ≤ fuel := by
        simp only [List.length_cons] at hlen
        omega
      exact run_estrin_fuel_zero_fin fuel c0 _
        (le_trans (estrin_round_length_le _ _ _ rest) hr)
        (estrin_round_finite_zero rest (fun c hc => hfin c (by simp [hc])))

/-- Estrin evaluation at h = 0 returns the constant coefficient when all the
higher coefficients are finite (0 * c is 0 only for finite c in IEEE
arithmetic). -/
theorem run_estrin_zero_fin (c0 : FP) (cs : List FP)
    (hfin : ∀ c ∈ cs, c.isfinite = true) :
    run_estrin FP.fpAdd FP.fpMul (c0 :: cs) (FP.fin 0) = some c0 := by
  unfold run_estrin
  exact run_estrin_fuel_zero_fin _ _ _ (by simp) hfin

theorem getD_map_range {α : Type} (f : ℕ → α) (B b : ℕ) (d : α) (hb : b < B) :
    ((List.range B).map f).getD b d = f b := by
  simp [List.getD_eq_getElem?_getD, List.getElem?_map, List.getElem?_range, hb]

theorem estrin_update_getD (nvars order B : ℕ) (jet hs : List FP) (i b : ℕ)
    (hi : i < nvars) (hb : b < B) :
    (estrin_update nvars order B jet hs).getD (i * B + b) FP.nan
      = (run_estrin FP.fpAdd FP.fpMul
          ((List.range (order + 1)).map (fun o => jetAtB jet nvars B o i b))
          (hs.getD b FP.nan)).getD FP.nan := by
  have hk : i * B + b < nvars * B := by
    have h1 : (i + 1) * B = i * B + B := by ring
    have h2 : (i + 1) * B ≤ nvars * B := Nat.mul_le_mul_right _ (by omega)
    omega
  have hB : 0 < B := by omega
  have hdiv : (i * B + b) / B = i := by
    rw [mul_comm, Nat.mul_add_div hB, Nat.div_eq_of_lt hb, Nat.add_zero]
  have hmod : (i * B + b) % B = b := by
    rw [mul_comm i B, Nat.mul_add_mod, Nat.mod_eq_of_lt hb]
  unfold estrin_update
  rw [getD_map_range _ _ _ _ hk]
  dsimp only
  rw [hdiv, hmod]

theorem jetAtB_zero (states tail : List FP) (nvars B i b : ℕ)
    (hlen : i * B + b < states.length) :
    jetAtB (states ++ tail) nvars B 0 i b = states.getD (i * B + b) FP.nan := by
  unfold jetAtB
  simp only [Nat.zero_mul, Nat.zero_add]
  exact List.getD_append _ _ _ _ hlen

theorem batch_rhoh_err_h (powO : FP → FP → FP) (ta : TaylorAdaptiveBatch)
    (jet : List FP) (mdts : List FP) (b : ℕ)
    (he : ((batch_rhoh powO ta jet mdts b).1).isErr = true) :
    (batch_rhoh powO ta jet mdts b).2 = FP.fin 0 := by
  revert he
  unfold batch_rhoh
  dsimp only
  repeat' split
  all_goals
    first
      | exact fun _ => rfl
      | (intro he; simp [Outcome.isErr] at he)

/-- C1 (amended): Whenever the scalar stepper's step_impl returns an Err*
outcome, the integrator (state vector and time included) is left exactly as
before the call.  In the batch stepper, an error lane gets h = 0 and
(h, order) = (0, 0) in its res entry and its time is left unchanged; either
every lane is in error (and the state update call is skipped, leaving the
whole integrator unchanged) or m_h[lane] = 0 and the lane is fed through the
state update call; that h = 0 update leaves the lane's state unchanged
PROVIDED the lane's jet coefficients at orders >= 1 are all finite.  (The
unamended claim is refuted by batch_err_lane_state_changed_cex: with IEEE
arithmetic, 0 * inf = NaN, so an error lane with a non-finite jet coefficient
is overwritten.) -/
theorem step_err_leaves_integrator_unchanged :
    (∀ (jet_f : List FP → List FP) (powO : FP → FP → FP) (ta : TaylorAdaptive) (mdt : FP),
        ((step_impl jet_f powO ta mdt).1.1).isErr = true →
        (step_impl jet_f powO ta mdt).2 = ta)
    ∧ (∀ (jet_f : List FP → List FP) (powO : FP → FP → FP) (ta : TaylorAdaptiveBatch)
          (mdts : List FP) (b : ℕ), b < ta.m_batch_size →
        (((step_impl_batch jet_f powO ta mdts).1.getD b (Outcome.success, FP.fin 0, 0)).1).isErr
            = true →
        (((step_impl_batch jet_f powO ta mdts).1.getD b (Outcome.success, FP.fin 0, 0)).2
            = (FP.fin 0, 0))
          ∧ (step_impl_batch jet_f powO ta mdts).2.m_times.getD b FP.nan
              = ta.m_times.getD b FP.nan
          ∧ ((step_impl_batch jet_f powO ta mdts).2 = ta
              ∨ (step_impl_batch jet_f powO ta mdts).2.m_h.getD b FP.nan = FP.fin 0)
          ∧ ((∀ o ∈ Finset.Icc 1 (max ta.m_order_r ta.m_order_a),
                ∀ i ∈ Finset.range ta.nvars,
                  (jetAtB (ta.m_states ++ jet_f ta.m_states) ta.nvars ta.m_batch_size o i b).isfinite
                    = true) →
              ∀ i < ta.nvars,
                (step_impl_batch jet_f powO ta mdts).2.m_states.getD
                    (i * ta.m_batch_size + b) FP.nan
                  = ta.m_states.getD (i * ta.m_batch_size + b) FP.nan)) := by
  constructor
  · intro jet_f powO ta mdt he
    revert he
    unfold step_impl
    dsimp only
    repeat' split
    all_goals
      first
        | exact fun _ => rfl
        | (intro he; simp [Outcome.isErr] at he)
  · intro jet_f powO ta mdts b hb he
    revert he
    unfold step_impl_batch
    dsimp only
    split
    · intro _
      refine ⟨?_, rfl, Or.inl rfl, fun _ i _ => rfl⟩
      rw [getD_map_range _ _ _ _ hb]
    · intro he
      rw [getD_map_range _ _ _ _ hb] at he
      by_cases hsc :
        (batch_rhoh powO ta (ta.m_states ++ jet_f ta.m_states) mdts b).1 = Outcome.success
      · rw [if_neg (by simpa using hsc)] at he
        rw [hsc] at he
        simp [Outcome.isErr] at he
      · rw [if_pos hsc] at he
        have hh0 : (batch_rhoh powO ta (ta.m_states ++ jet_f ta.m_states) mdts b).2 = FP.fin 0 :=
          batch_rhoh_err_h _ _ _ _ _ he

        refine ⟨?_, ?_, Or.inr ?_, ?_⟩
        · rw [getD_map_range _ _ _ _ hb, if_pos hsc]
        · rw [getD_map_range _ _ _ _ hb, if_pos hsc]
        · rw [getD_map_range _ _ _ _ hb, hh0]
        · intro hfin i hi
          rw [estrin_update_getD _ _ _ _ _ _ _ hi hb]
          rw [getD_map_range _ _ _ _ hb, hh0]
          rw [List.range_succ_eq_map, List.map_cons, List.map_map]
          have hupd :
              (if batch_max_order ta = ta.m_order_a then ta.m_order_a else ta.m_order_r)
                ≤ max ta.m_order_r ta.m_order_a := by
            split
            · exact le_max_right _ _
            · exact le_max_left _ _
          rw [run_estrin_zero_fin _ _
              (by
                intro c hc
                rw [List.mem_map] at hc
                obtain ⟨o, ho, rfl⟩ := hc
                rw [List.mem_range] at ho
                exact hfin (o + 1)
                  (Finset.mem_Icc.mpr ⟨by omega, by omega⟩)
                  i (Finset.mem_range.mpr hi))]
          have hib : i * ta.m_batch_size + b < ta.m_states.length := by
            have h1 : (i + 1) * ta.m_batch_size ≤ ta.nvars * ta.m_batch_size :=
              Nat.mul_le_mul_right _ (by omega)
            have h2 : ta.nvars * ta.m_batch_size ≤ ta.m_states.length :=
              Nat.div_mul_le_self _ _
            have h3 : (i + 1) * ta.m_batch_size = i * ta.m_batch_size + ta.m_batch_size := by
              ring
            omega
          rw [Option.getD_some]
          exact jetAtB_zero _ _ _ _ _ _ hib

section NumericEval

/- The Batteries rational arithmetic operations are irreducible by default,
which blocks their evaluation inside decide; they are made transparent for
the concrete-input theorems of this section. -/
attribute [local semireducible] Rat.add Rat.mul Rat.sub Rat.inv

/-- Counterexample for C1 as stated: a batch integrator whose lane 1 state
has gone infinite (jet oracle matching the real jet of x' = x there).  The
lane is marked err_nf_state and fed through the h = 0 update, but IEEE
arithmetic turns inf + 0 * inf into NaN: the lane's state is NOT left
unchanged. -/
theorem batch_err_lane_state_changed_cex :
    ((step_impl_batch jet_f_w pow_w tab_w [FP.fin 1, FP.fin 1]).1.getD 1
        (Outcome.success, FP.fin 0, 0)).1 = Outcome.err_nf_state
      ∧ (step_impl_batch jet_f_w pow_w tab_w [FP.fin 1, FP.fin 1]).2.m_states.getD 1 FP.nan
          ≠ tab_w.m_states.getD 1 FP.nan := by
  decide

/-- Witness for C1: the scalar part at a NaN state, and the batch part at a
lane with a NaN rho whose jet coefficients are all finite. -/
theorem step_err_leaves_integrator_unchanged_witness :
    (((step_impl jet_f_w pow_w ta_w (FP.fin 1)).1.1).isErr = true
      ∧ (step_impl jet_f_w pow_w ta_w (FP.fin 1)).2 = ta_w)
    ∧ ((step_impl_batch jet2_w pow2_w tab2_w [FP.fin 5, FP.fin 5]).2.m_states.getD 0 FP.nan
        = tab2_w.m_states.getD 0 FP.nan) := by
  constructor
  · exact ⟨by decide, step_err_leaves_integrator_unchanged.1 jet_f_w pow_w ta_w (FP.fin 1) (by decide)⟩
  · exact (step_err_leaves_integrator_unchanged.2 jet2_w pow2_w tab2_w [FP.fin 5, FP.fin 5] 0
      (by decide) (by decide)).2.2.2 (by decide) 0 (by decide)

/-- Witness for C8 at a concrete input (non-finite state, hence err_nf_state). -/
theorem step_impl_err_returns_zero_h_order_witness :
    ((step_impl jet_f_w pow_w ta_w (FP.fin 1)).1.1 ≠ Outcome.success) ∧
      ((step_impl jet_f_w pow_w ta_w (FP.fin 1)).1.1 ≠ Outcome.time_limit) ∧
      ((step_impl jet_f_w pow_w ta_w (FP.fin 1)).1.2.1 = FP.fin 0 ∧
        (step_impl jet_f_w pow_w ta_w (FP.fin 1)).1.2.2 = 0) :=
  ⟨by decide, by decide,
    step_impl_err_returns_zero_h_order jet_f_w pow_w ta_w (FP.fin 1) (by decide) (by decide)⟩

end NumericEval

theorem step_impl_ne_step_limit (jet_f : List FP → List FP) (powO : FP → FP → FP)
    (ta : TaylorAdaptive) (mdt : FP) :
    (step_impl jet_f powO ta mdt).1.1 ≠ Outcome.step_limit := by
  unfold step_impl
  dsimp only
  repeat' split
  all_goals simp

theorem outcome_isErr_of_ne (oc : Outcome) (h1 : oc ≠ Outcome.success)
    (h2 : oc ≠ Outcome.time_limit) (h3 : oc ≠ Outcome.step_limit) :
    oc.isErr = true := by
  cases oc <;> simp_all [Outcome.isErr]

theorem propagate_loop_no_step_limit (jet_f : List FP → List FP) (powO : FP → FP → FP)
    (forward : Bool) (t : FP) :
    ∀ (fuel : ℕ) (ta : TaylorAdaptive) (c : ℕ) (mh Mh : FP) (mo Mo : ℕ)
      (st : Outcome × FP × FP × ℕ × ℕ × ℕ) (ta1 : TaylorAdaptive),
      propagate_until_loop jet_f powO forward t 0 fuel ta c mh Mh mo Mo = some (st, ta1) →
      st.1 ≠ Outcome.step_limit ∧ (st.1 = Outcome.time_limit ∨ st.1.isErr = true)
  | 0, ta, c, mh, Mh, mo, Mo, st, ta1 => by
      intro hres
      simp [propagate_until_loop] at hres
  | fuel + 1, ta, c, mh, Mh, mo, Mo, st, ta1 => by
      intro hres
      rw [propagate_until_loop] at hres
      dsimp only at hres
      split at hres
      · rename_i hcond
        simp only [Option.some.injEq, Prod.mk.injEq] at hres
        obtain ⟨h1, _⟩ := hres
        subst h1
        refine ⟨step_impl_ne_step_limit _ _ _ _, Or.inr ?_⟩
        exact outcome_isErr_of_ne _ hcond.1 hcond.2 (step_impl_ne_step_limit _ _ _ _)
      · split at hres
        · simp only [Option.some.injEq, Prod.mk.injEq] at hres
          obtain ⟨h1, _⟩ := hres
          subst h1
          simp
        · split at hres
          · rename_i hcond
            exact absurd rfl hcond.1
          · exact propagate_loop_no_step_limit jet_f powO forward t fuel _ _ _ _ _ _ _ _ hres

theorem propagate_loop_counter_le (jet_f : List FP → List FP) (powO : FP → FP → FP)
    (forward : Bool) (t : FP) (ms : ℕ) :
    ∀ (fuel : ℕ) (ta : TaylorAdaptive) (c : ℕ) (mh Mh : FP) (mo Mo : ℕ)
      (st : Outcome × FP × FP × ℕ × ℕ × ℕ) (ta1 : TaylorAdaptive),
      propagate_until_loop jet_f powO forward t ms fuel ta c mh Mh mo Mo = some (st, ta1) →
      c ≤ st.2.2.2.2.2
  | 0, ta, c, mh, Mh, mo, Mo, st, ta1 => by
      intro hres
      simp [propagate_until_loop] at hres
  | fuel + 1, ta, c, mh, Mh, mo, Mo, st, ta1 => by
      intro hres
      rw [propagate_until_loop] at hres
      dsimp only at hres
      split at hres
      · simp only [Option.some.injEq, Prod.mk.injEq] at hres
        obtain ⟨h1, _⟩ := hres
        subst h1
        simp
      · split at hres
        · simp only [Option.some.injEq, Prod.mk.injEq] at hres
          obtain ⟨h1, _⟩ := hres
          subst h1
          simp
        · split at hres
          · simp only [Option.some.injEq, Prod.mk.injEq] at hres
            obtain ⟨h1, _⟩ := hres
            subst h1
            simp
          · have := propagate_loop_counter_le jet_f powO forward t ms fuel _ _ _ _ _ _ _ _ hres
            omega

theorem propagate_loop_zero_steps_stats (jet_f : List FP → List FP) (powO : FP → FP → FP)
    (forward : Bool) (t : FP) (ms : ℕ) :
    ∀ (fuel : ℕ) (ta : TaylorAdaptive) (c : ℕ) (mh Mh : FP) (mo Mo : ℕ)
      (st : Outcome × FP × FP × ℕ × ℕ × ℕ) (ta1 : TaylorAdaptive),
      propagate_until_loop jet_f powO forward t ms fuel ta c mh Mh mo Mo = some (st, ta1) →
      st.2.2.2.2.2 = c →
      st.2.1 = mh ∧ st.2.2.1 = Mh ∧ st.2.2.2.1 = mo ∧ st.2.2.2.2.1 = Mo
  | 0, ta, c, mh, Mh, mo, Mo, st, ta1 => by
      intro hres
      simp [propagate_until_loop] at hres
  | fuel + 1, ta, c, mh, Mh, mo, Mo, st, ta1 => by
      intro hres hc
      rw [propagate_until_loop] at hres
      dsimp only at hres
      split at hres
      · simp only [Option.some.injEq, Prod.mk.injEq] at hres
        obtain ⟨h1, _⟩ := hres
        subst h1
        simp
      · split at hres
        · simp only [Option.some.injEq, Prod.mk.injEq] at hres
          obtain ⟨h1, _⟩ := hres
          subst h1
          simp at hc
        · split at hres
          · simp only [Option.some.injEq, Prod.mk.injEq] at hres
            obtain ⟨h1, _⟩ := hres
            subst h1
            simp at hc
          · have := propagate_loop_counter_le jet_f powO forward t ms fuel _ _ _ _ _ _ _ _ hres
            omega

/-- C9: For every call to propagate_until or propagate_for with max_steps
equal to 0, the step budget is unlimited: the step_limit outcome is never
returned (the budget check requires max_steps != 0), and whenever the loop
does return the outcome is either time_limit (the target time was crossed) or
an Err* outcome reported by a step.  The fuel argument only bounds the number
of modelled iterations: running out of fuel corresponds to the source loop
still running, not to a return. -/
theorem propagate_zero_max_steps_unlimited :
    (∀ (jet_f : List FP → List FP) (powO : FP → FP → FP) (ta : TaylorAdaptive)
        (t : FP) (fuel : ℕ) (st : Outcome × FP × FP × ℕ × ℕ × ℕ) (ta1 : TaylorAdaptive),
        propagate_until jet_f powO ta t 0 fuel = .ok (some (st, ta1)) →
        st.1 ≠ Outcome.step_limit ∧ (st.1 = Outcome.time_limit ∨ st.1.isErr = true))
    ∧ (∀ (jet_f : List FP → List FP) (powO : FP → FP → FP) (ta : TaylorAdaptive)
        (dt : FP) (fuel : ℕ) (st : Outcome × FP × FP × ℕ × ℕ × ℕ) (ta1 : TaylorAdaptive),
        propagate_for jet_f powO ta dt 0 fuel = .ok (some (st, ta1)) →
        st.1 ≠ Outcome.step_limit ∧ (st.1 = Outcome.time_limit ∨ st.1.isErr = true)) := by
  have main : ∀ (jet_f : List FP → List FP) (powO : FP → FP → FP) (ta : TaylorAdaptive)
      (t : FP) (fuel : ℕ) (st : Outcome × FP × FP × ℕ × ℕ × ℕ) (ta1 : TaylorAdaptive),
      propagate_until jet_f powO ta t 0 fuel = .ok (some (st, ta1)) →
      st.1 ≠ Outcome.step_limit ∧ (st.1 = Outcome.time_limit ∨ st.1.isErr = true) := by
    intro jet_f powO ta t fuel st ta1 hres
    unfold propagate_until at hres
    split at hres
    · exact absurd hres (by simp)
    · split at hres
      · simp only [Except.ok.injEq, Option.some.injEq, Prod.mk.injEq] at hres
        obtain ⟨h1, _⟩ := hres
        subst h1
        simp
      · split at hres
        · exact absurd hres (by simp)
        · split at hres
          · simp only [Except.ok.injEq] at hres
            exact propagate_loop_no_step_limit _ _ _ _ _ _ _ _ _ _ _ _ _ hres
          · simp only [Except.ok.injEq] at hres
            exact propagate_loop_no_step_limit _ _ _ _ _ _ _ _ _ _ _ _ _ hres
  exact ⟨main, fun jet_f powO ta dt fuel st ta1 h => main jet_f powO ta _ fuel st ta1 h⟩

/-- C10: Whenever propagate_until returns after completing zero steps (in
particular when t equals the current time), the returned statistics hold
their initial sentinel values: min_h = +inf, max_h = 0,
min_order = 2^32 - 1 and max_order = 0. -/
theorem propagate_zero_steps_sentinel_stats
    (jet_f : List FP → List FP) (powO : FP → FP → FP) (ta : TaylorAdaptive)
    (t : FP) (ms fuel : ℕ) (st : Outcome × FP × FP × ℕ × ℕ × ℕ) (ta1 : TaylorAdaptive)
    (hres : propagate_until jet_f powO ta t ms fuel = .ok (some (st, ta1)))
    (hzero : st.2.2.2.2.2 = 0) :
    st.2.1 = FP.inf ∧ st.2.2.1 = FP.fin 0 ∧ st.2.2.2.1 = 4294967295
      ∧ st.2.2.2.2.1 = 0 := by
  unfold propagate_until at hres
  split at hres
  · exact absurd hres (by simp)
  · split at hres
    · simp only [Except.ok.injEq, Option.some.injEq, Prod.mk.injEq] at hres
      obtain ⟨h1, _⟩ := hres
      subst h1
      simp
    · split at hres
      · exact absurd hres (by simp)
      · split at hres
        · simp only [Except.ok.injEq] at hres
          exact propagate_loop_zero_steps_stats _ _ _ _ _ _ _ _ _ _ _ _ _ _ hres hzero
        · simp only [Except.ok.injEq] at hres
          exact propagate_loop_zero_steps_stats _ _ _ _ _ _ _ _ _ _ _ _ _ _ hres hzero

theorem taylor_order_f_fin (logO : FP → FP) (tol : FP) (l : ℚ)
    (hl : logO tol = FP.fin l) :
    taylor_order_f logO tol = FP.fin ((spec_taylor_order l : ℤ) : ℚ) := by
  unfold taylor_order_f spec_taylor_order
  rw [hl]
  rw [show FP.fpNeg (FP.fin l) = FP.fin (-l) from rfl]
  rw [show FP.fpDiv (FP.fin (-l)) (FP.fin 2) = FP.fin (-l / 2) by
    simp [FP.fpDiv]]
  rw [show FP.fpAdd (FP.fin (-l / 2)) (FP.fin 1) = FP.fin (-l / 2 + 1) from rfl]
  rw [show FP.fpCeil (FP.fin (-l / 2 + 1)) = FP.fin ((⌈-l / 2 + 1⌉ : ℤ) : ℚ) from rfl]
  unfold FP.stdMax
  split
  · rename_i hlt
    simp only [FP.fpLt, decide_eq_true_eq] at hlt
    have h2c : (2 : ℤ) < ⌈-l / 2 + 1⌉ := by exact_mod_cast hlt
    rw [max_eq_right h2c.le]
  · rename_i hlt
    simp only [FP.fpLt, decide_eq_true_eq, not_lt] at hlt
    have h2c : ⌈-l / 2 + 1⌉ ≤ (2 : ℤ) := by exact_mod_cast hlt
    rw [max_eq_left h2c]
    norm_num

theorem taylor_ctor_order_check_spec (logO : FP → FP) (rtol atol : FP) (lr la : ℚ)
    (hr : logO rtol = FP.fin lr) (ha : logO atol = FP.fin la) :
    ∀ o_r o_a, taylor_ctor_order_check logO rtol atol = .ok (o_r, o_a) →
      (o_r : ℤ) = spec_taylor_order lr ∧ (o_a : ℤ) = spec_taylor_order la := by
  intro o_r o_a hres
  unfold taylor_ctor_order_check at hres
  rw [taylor_order_f_fin logO rtol lr hr, taylor_order_f_fin logO atol la ha] at hres
  dsimp only at hres
  split at hres
  · exact absurd hres (by simp)
  · split at hres
    · exact absurd hres (by simp)
    · simp only [Except.ok.injEq, Prod.mk.injEq] at hres
      obtain ⟨h1, h2⟩ := hres
      have hval : ∀ z : ℤ, 2 ≤ z → ((FP.toU32 (FP.fin (z : ℚ)) : ℤ)) = z := by
        intro z hz
        simp only [FP.toU32, Int.floor_intCast]
        omega
      have h2r : (2 : ℤ) ≤ spec_taylor_order lr := le_max_left _ _
      have h2a : (2 : ℤ) ≤ spec_taylor_order la := le_max_left _ _
      constructor
      · rw [← h1]
        exact hval _ h2r
      · rw [← h2]
        exact hval _ h2a

theorem taylor_ctor_order_check_overflow (logO : FP → FP) (rtol atol : FP) (lr la : ℚ)
    (hr : logO rtol = FP.fin lr) (ha : logO atol = FP.fin la)
    (hov : 4294967295 < spec_taylor_order lr ∨ 4294967295 < spec_taylor_order la) :
    taylor_ctor_order_check logO rtol atol = .error .overflow_error := by
  unfold taylor_ctor_order_check
  rw [taylor_order_f_fin logO rtol lr hr, taylor_order_f_fin logO atol la ha]
  dsimp only
  rw [if_neg (by simp [FP.isfinite])]
  rw [if_pos]
  simp only [FP.fpGt, FP.fpLt, Bool.or_eq_true, decide_eq_true_eq]
  rcases hov with hov | hov
  · exact Or.inl (by exact_mod_cast hov)
  · exact Or.inr (by exact_mod_cast hov)

/-- C5: When a scalar or batch adaptive integrator is constructed, the two
Taylor orders are computed as order = max(2, ceil(-log(tol)/2 + 1)) for rtol
and atol respectively (spec_taylor_order), and construction fails with an
overflow error if either computed order exceeds the maximum value of u32. -/
theorem taylor_orders_from_tolerances :
    (∀ (logO : FP → FP) (state : List FP) (n : ℕ) (time rtol atol : FP) (lr la : ℚ)
        (o_r o_a : ℕ),
        logO rtol = FP.fin lr → logO atol = FP.fin la →
        taylor_adaptive_ctor_orders logO state n time rtol atol = .ok (o_r, o_a) →
        (o_r : ℤ) = spec_taylor_order lr ∧ (o_a : ℤ) = spec_taylor_order la)
    ∧ (∀ (logO : FP → FP) (state : List FP) (n : ℕ) (time rtol atol : FP) (lr la : ℚ),
        logO rtol = FP.fin lr → logO atol = FP.fin la →
        state.any (fun x => !x.isfinite) = false → state.length = n →
        time.isfinite = true →
        (!rtol.isfinite || FP.fpLe rtol (FP.fin 0)) = false →
        (!atol.isfinite || FP.fpLe atol (FP.fin 0)) = false →
        (4294967295 < spec_taylor_order lr ∨ 4294967295 < spec_taylor_order la) →
        taylor_adaptive_ctor_orders logO state n time rtol atol = .error .overflow_error)
    ∧ (∀ (logO : FP → FP) (states times : List FP) (n B : ℕ) (rtol atol : FP) (lr la : ℚ)
        (o_r o_a : ℕ),
        logO rtol = FP.fin lr → logO atol = FP.fin la →
        taylor_adaptive_batch_ctor_orders logO states times n B rtol atol = .ok (o_r, o_a) →
        (o_r : ℤ) = spec_taylor_order lr ∧ (o_a : ℤ) = spec_taylor_order la)
    ∧ (∀ (logO : FP → FP) (states times : List FP) (n B : ℕ) (rtol atol : FP) (lr la : ℚ),
        logO rtol = FP.fin lr → logO atol = FP.fin la →
        B ≠ 0 → states.any (fun x => !x.isfinite) = false →
        states.length % B = 0 → states.length / B = n →
        times.any (fun x => !x.isfinite) = false →
        (!rtol.isfinite || FP.fpLe rtol (FP.fin 0)) = false →
        (!atol.isfinite || FP.fpLe atol (FP.fin 0)) = false →
        (4294967295 < spec_taylor_order lr ∨ 4294967295 < spec_taylor_order la) →
        taylor_adaptive_batch_ctor_orders logO states times n B rtol atol
          = .error .overflow_error) := by
  refine ⟨?_, ?_, ?_, ?_⟩
  · intro logO state n time rtol atol lr la o_r o_a hr ha hres
    unfold taylor_adaptive_ctor_orders at hres
    split at hres
    · exact absurd hres (by simp)
    · split at hres
      · exact absurd hres (by simp)
      · split at hres
        · exact absurd hres (by simp)
        · split at hres
          · exact absurd hres (by simp)
          · split at hres
            · exact absurd hres (by simp)
            · exact taylor_ctor_order_check_spec logO rtol atol lr la hr ha o_r o_a hres
  · intro logO state n time rtol atol lr la hr ha h1 h2 h3 h4 h5 hov
    unfold taylor_adaptive_ctor_orders
    rw [if_neg (by simp [h1]), if_neg (by simp [h2]), if_neg (by simp [h3]),
      if_neg (by simp [h4]), if_neg (by simp [h5])]
    exact taylor_ctor_order_check_overflow logO rtol atol lr la hr ha hov
  · intro logO states times n B rtol atol lr la o_r o_a hr ha hres
    unfold taylor_adaptive_batch_ctor_orders at hres
    split at hres
    · exact absurd hres (by simp)
    · split at hres
      · exact absurd hres (by simp)
      · split at hres
        · exact absurd hres (by simp)
        · split at hres
          · exact absurd hres (by simp)
          · split at hres
            · exact absurd hres (by simp)
            · split at hres
              · exact absurd hres (by simp)
              · split at hres
                · exact absurd hres (by simp)
                · exact taylor_ctor_order_check_spec logO rtol atol lr la hr ha o_r o_a hres
  · intro logO states times n B rtol atol lr la hr ha h0 h1 h2 h3 h4 h5 h6 hov
    unfold taylor_adaptive_batch_ctor_orders
    rw [if_neg h0, if_neg (by simp [h1]), if_neg (by simp [h2]), if_neg (by simp [h3]),
      if_neg (by simp [h4]), if_neg (by simp [h5]), if_neg (by simp [h6])]
    exact taylor_ctor_order_check_overflow logO rtol atol lr la hr ha hov

section NumericEval2

attribute [local semireducible] Rat.add Rat.mul Rat.sub Rat.inv

/-- Witness for C5: a successful construction at log(tol) = -8 (order 5 on
both the scalar and batch constructors) and an overflowing construction at
log(tol) = -1e10 on both constructors. -/
theorem taylor_orders_from_tolerances_witness :
    (((5 : ℕ) : ℤ) = spec_taylor_order (-8) ∧ ((5 : ℕ) : ℤ) = spec_taylor_order (-8))
    ∧ taylor_adaptive_ctor_orders logbig_w [FP.fin 1] 1 (FP.fin 0) (FP.fin 1) (FP.fin 1)
        = .error .overflow_error
    ∧ (((5 : ℕ) : ℤ) = spec_taylor_order (-8) ∧ ((5 : ℕ) : ℤ) = spec_taylor_order (-8))
    ∧ taylor_adaptive_batch_ctor_orders logbig_w [FP.fin 1] [FP.fin 0] 1 1 (FP.fin 1)
        (FP.fin 1) = .error .overflow_error :=
  ⟨taylor_orders_from_tolerances.1 log8_w [FP.fin 1] 1 (FP.fin 0) (FP.fin 1) (FP.fin 1)
      (-8) (-8) 5 5 rfl rfl (by rfl),
    taylor_orders_from_tolerances.2.1 logbig_w [FP.fin 1] 1 (FP.fin 0) (FP.fin 1) (FP.fin 1)
      (-10000000000) (-10000000000) rfl rfl (by decide) (by decide) (by decide)
      (by decide) (by decide) (Or.inl (by decide)),
    taylor_orders_from_tolerances.2.2.1 log8_w [FP.fin 1] [FP.fin 0] 1 1 (FP.fin 1)
      (FP.fin 1) (-8) (-8) 5 5 rfl rfl (by rfl),
    taylor_orders_from_tolerances.2.2.2 logbig_w [FP.fin 1] [FP.fin 0] 1 1 (FP.fin 1)
      (FP.fin 1) (-10000000000) (-10000000000) rfl rfl (by decide) (by decide)
      (by decide) (by decide) (by decide) (by decide) (by decide)
      (Or.inl (by decide))⟩

/-- Witness for C9: a concrete propagation with max_steps = 0 that reaches
the target in one step; the outcome is time_limit, not step_limit. -/
theorem propagate_zero_max_steps_unlimited_witness :
    (propagate_until jet1_w pow_w ta0_w (FP.fin 1) 0 5
        = .ok (some ((Outcome.time_limit, FP.inf, FP.fin 0, 2, 2, 1), ta0_after)))
    ∧ (Outcome.time_limit ≠ Outcome.step_limit
        ∧ (Outcome.time_limit = Outcome.time_limit
            ∨ Outcome.isErr Outcome.time_limit = true)) :=
  ⟨by rfl,
    propagate_zero_max_steps_unlimited.1 jet1_w pow_w ta0_w (FP.fin 1) 5
      (Outcome.time_limit, FP.inf, FP.fin 0, 2, 2, 1) ta0_after (by rfl)⟩

/-- Witness for C10: a concrete call with t equal to the current time
returns after zero steps with the sentinel statistics. -/
theorem propagate_zero_steps_sentinel_stats_witness :
    (propagate_until jet1_w pow_w ta0_w (FP.fin 0) 7 3
        = .ok (some ((Outcome.time_limit, FP.inf, FP.fin 0, 4294967295, 0, 0), ta0_w)))
    ∧ (FP.inf = FP.inf ∧ FP.fin 0 = FP.fin 0 ∧ (4294967295 : ℕ) = 4294967295
        ∧ (0 : ℕ) = 0) :=
  ⟨by rfl,
    propagate_zero_steps_sentinel_stats jet1_w pow_w ta0_w (FP.fin 0) 7 3
      (Outcome.time_limit, FP.inf, FP.fin 0, 4294967295, 0, 0) ta0_w (by rfl) (by decide)⟩

end NumericEval2

theorem estrin_round_poly (h : ℚ) :
    (cs : List ℚ) → polyHorner (estrin_round (· + ·) (· * ·) h cs) (h * h) = polyHorner cs h
  | [] => by simp [estrin_round, polyHorner]
  | [c] => by simp [estrin_round, polyHorner]
  | c0 :: c1 :: rest => by
      have ih := estrin_round_poly h rest
      simp only [estrin_round, polyHorner, ih]
      ring

theorem run_estrin_fuel_poly :
    ∀ (fuel : ℕ) (cs : List ℚ) (h : ℚ), cs ≠ [] → cs.length ≤ fuel + 1 →
      run_estrin_fuel (· + ·) (· * ·) fuel cs h = some (polyHorner cs h)
  | _, [], _, hne, _ => absurd rfl hne
  | fuel, [c], h, _, _ => by
      cases fuel <;> simp [run_estrin_fuel, polyHorner]
  | 0, c0 :: c1 :: rest, h, _, hlen => by
      simp at hlen
  | fuel + 1, c0 :: c1 :: rest, h, _, hlen => by
      rw [run_estrin_fuel]
      have hne2 : estrin_round (· + ·) (· * ·) h (c0 :: c1 :: rest) ≠ [] := by
        simp [estrin_round]
      have hlen2 : (estrin_round (· + ·) (· * ·) h (c0 :: c1 :: rest)).length ≤ fuel + 1 := by
        have h1 := estrin_round_length_le (α := ℚ) (· + ·) (· * ·) h rest
        simp only [estrin_round, List.length_cons] at *
        omega
      rw [run_estrin_fuel_poly fuel _ _ hne2 hlen2, estrin_round_poly]

theorem run_estrin_poly (cs : List ℚ) (h : ℚ) (hne : cs ≠ []) :
    run_estrin (· + ·) (· * ·) cs h = some (polyHorner cs h) := by
  unfold run_estrin
  cases cs with
  | nil => exact absurd rfl hne
  | cons c cs => exact run_estrin_fuel_poly _ _ _ (by simp) (by simp)

theorem polyHorner_eq_sum (cs : List ℚ) (h : ℚ) :
    polyHorner cs h = ∑ i ∈ Finset.range cs.length, cs.getD i 0 * h ^ i := by
  induction cs generalizing h with
  | nil => simp [polyHorner]
  | cons c cs ih =>
      rw [polyHorner, List.length_cons, Finset.sum_range_succ', ih h]
      simp only [List.getD_cons_succ, List.getD_cons_zero, pow_zero, mul_one]
      rw [Finset.mul_sum, add_comm]
      congr 1
      refine Finset.sum_congr rfl fun i _ => ?_
      ring

/-- C4: For every coefficient list c_0..c_N and every step value h, the Estrin
pair-reduction scheme of run_estrin (src/taylor.cpp) terminates (it is a total
function here, with a termination proof) and returns the polynomial value
sum over i of c_i * h^i. -/
theorem run_estrin_correct (cs : List ℚ) (h : ℚ) (hne : cs ≠ []) :
    run_estrin (· + ·) (· * ·) cs h
      = some (∑ i ∈ Finset.range cs.length, cs.getD i 0 * h ^ i) := by
  rw [run_estrin_poly cs h hne, polyHorner_eq_sum]

/-- Witness for C4 at a concrete input: the degree-3 polynomial
2 + 3h + 5h^2 + 7h^3 at h = 2. -/
theorem run_estrin_correct_witness :
    ([(2 : ℚ), 3, 5, 7] ≠ []) ∧
      run_estrin (· + ·) (· * ·) [(2 : ℚ), 3, 5, 7] 2
        = some (∑ i ∈ Finset.range 4, [(2 : ℚ), 3, 5, 7].getD i 0 * 2 ^ i) :=
  ⟨by decide, run_estrin_correct [(2 : ℚ), 3, 5, 7] 2 (by decide)⟩

mutual

/-- `beqE` decides structural equality. -/
theorem beqE_eq : ∀ a b : Expr, beqE a b = true ↔ a = b
  | .num a, .num b => by simp [beqE]
  | .var a, .var b => by simp [beqE]
  | .binop t1 l1 r1, .binop t2 l2 r2 => by
      simp [beqE, beqE_eq l1 l2, beqE_eq r1 r2]
      tauto
  | .func d1 a1, .func d2 a2 => by
      simp [beqE, beqL_eq a1 a2]
  | .num _, .var _ => by simp [beqE]
  | .num _, .binop _ _ _ => by simp [beqE]
  | .num _, .func _ _ => by simp [beqE]
  | .var _, .num _ => by simp [beqE]
  | .var _, .binop _ _ _ => by simp [beqE]
  | .var _, .func _ _ => by simp [beqE]
  | .binop _ _ _, .num _ => by simp [beqE]
  | .binop _ _ _, .var _ => by simp [beqE]
  | .binop _ _ _, .func _ _ => by simp [beqE]
  | .func _ _, .num _ => by simp [beqE]
  | .func _ _, .var _ => by simp [beqE]
  | .func _ _, .binop _ _ _ => by simp [beqE]

/-- `beqL` decides equality of expression lists. -/
theorem beqL_eq : ∀ a b : List Expr, beqL a b = true ↔ a = b
  | [], [] => by simp [beqL]
  | e :: es, f :: fs => by simp [beqL, beqE_eq e f, beqL_eq es fs]
  | [], _ :: _ => by simp [beqL]
  | _ :: _, [] => by simp [beqL]

end

/-- C6: the registered symbolic derivatives of the four elementary
functions, as structural equalities: diff of sin(u) is cos(u) * u', diff
of cos(u) is (-sin(u)) * u' (unary minus building the product with the
literal -1), diff of log(u) is (1/u) * u' — not u'/u as claimed — and
diff of pow(u,v) is v*pow(u,v-1)*u' + pow(u,v)*log(u)*v'. -/
theorem function_diff_classical_shapes (s : String) (u v du dv : Expr)
    (hu : diffE s u = some du) (hv : diffE s v = some dv) :
    diffE s (sinE u) = some (emul (cosE u) du) ∧
    diffE s (cosE u) = some (emul (eneg (sinE u)) du) ∧
    diffE s (logE u) = some (emul (ediv (.num 1) u) du) ∧
    diffE s (powE u v) =
      some (eadd (emul (emul v (powE u (esub v (.num 1)))) du)
                 (emul (emul (powE u v) (logE u)) dv)) := by
  refine ⟨?_, ?_, ?_, ?_⟩
  · show (if sin_data = sin_data then _ else _) = _
    rw [if_pos rfl]
    rw [hu]
  · show (if cos_data = sin_data then _ else _) = _
    rw [if_neg (by decide), if_pos rfl]
    rw [hu]
  · show (if log_data = sin_data then _ else _) = _
    rw [if_neg (by decide), if_neg (by decide), if_pos rfl]
    rw [hu]
  · show (if pow_data = sin_data then _ else _) = _
    rw [if_neg (by decide), if_neg (by decide), if_neg (by decide), if_pos rfl]
    rw [hu, hv]

/-- Witness for C6 at u = x, v = y, differentiating with respect to x. -/
theorem function_diff_classical_shapes_witness :
    diffE "x" (sinE (.var "x")) = some (emul (cosE (.var "x")) (.num 1)) :=
  (function_diff_classical_shapes "x" (.var "x") (.var "y") (.num 1) (.num 0)
    (by decide) (by decide)).1

/-- Counterexample for C6 as stated: the log factory's derivative of
log(x) with respect to x is (1/x) * x', not the claimed x'/x. -/
theorem function_diff_log_shape_cex :
    diffE "x" (logE (.var "x")) = some (emul (ediv (.num 1) (.var "x")) (.num 1))
      ∧ diffE "x" (logE (.var "x")) ≠ some (ediv (.num 1) (.var "x")) := by
  constructor
  · decide
  · decide

/-- C7: two function nodes compare equal under operator== if and only if
all the compared fields agree: the three names (dbl, ldbl, display), the
argument tuples, the attributes, the type tag, and the presence of each of
the ten callbacks — that is, exactly when the comparison-relevant records
and the argument lists coincide. Display name and arguments alone do not
suffice, and callback presence does influence the result (only callback
identity beyond presence is ignored). -/
theorem function_equality_fields (d1 d2 : FnData) (a1 a2 : List Expr) :
    function_eq d1 a1 d2 a2 = true ↔ (d1 = d2 ∧ a1 = a2) := by
  cases d1
  cases d2
  simp [function_eq, beqL_eq, FnData.mk.injEq]
  tauto

/-- Counterexample for C7 as stated: a record differing from the sin
factory's only in dbl_name (same display name, same empty argument list)
compares unequal; likewise a record differing only in the presence of the
taylor_init callback. -/
theorem function_equality_name_only_cex :
    fnrec_w.display_name = sin_data.display_name
      ∧ fnrec2_w.display_name = sin_data.display_name
      ∧ function_eq fnrec_w [] sin_data [] = false
      ∧ function_eq fnrec2_w [] sin_data [] = false := by
  refine ⟨rfl, rfl, ?_, ?_⟩
  · decide
  · decide

/-- Core's decimal digit printer agrees with `Nat.digits 10` (given enough
fuel): the characters are the base-10 digits, most significant first. -/
theorem toDigitsCore_digits (f : ℕ) : ∀ (n : ℕ) (ds : List Char), 0 < n → n ≤ f →
    Nat.toDigitsCore 10 f n ds = ((Nat.digits 10 n).map Nat.digitChar).reverse ++ ds := by
  induction f with
  | zero => intro n ds hn hf; omega
  | succ f ih =>
      intro n ds hn hf
      rw [Nat.toDigitsCore]
      by_cases h10 : n / 10 = 0
      · rw [if_pos h10, Nat.digits_def' (by norm_num : 1 < 10) hn, h10]
        simp
      · rw [if_neg h10]
        have hdiv : n / 10 < n := Nat.div_lt_self hn (by norm_num)
        rw [ih (n / 10) _ (Nat.pos_of_ne_zero h10) (by omega),
          Nat.digits_def' (by norm_num : 1 < 10) hn]
        simp

/-- The characters of `Nat.repr n` for positive n are the reversed decimal
digits. -/
theorem repr_data_eq (n : ℕ) (hn : 0 < n) :
    (Nat.repr n).data = ((Nat.digits 10 n).map Nat.digitChar).reverse := by
  show (Nat.toDigitsCore 10 (n + 1) n []).asString.data = _
  rw [toDigitsCore_digits (n + 1) n [] hn (by omega)]
  simp [List.asString]

/-- digitChar is injective on digits. -/
theorem digitChar_inj_lt {a b : ℕ} (ha : a < 10) (hb : b < 10)
    (h : Nat.digitChar a = Nat.digitChar b) : a = b := by
  have key : ∀ x ∈ Finset.range 10, ∀ y ∈ Finset.range 10,
      Nat.digitChar x = Nat.digitChar y → x = y := by decide
  exact key a (Finset.mem_range.mpr ha) b (Finset.mem_range.mpr hb) h

/-- Mapping digitChar over digit lists is injective. -/
theorem map_digitChar_cancel : ∀ l1 l2 : List ℕ, (∀ x ∈ l1, x < 10) →
    (∀ x ∈ l2, x < 10) → l1.map Nat.digitChar = l2.map Nat.digitChar → l1 = l2
  | [], [], _, _, _ => rfl
  | [], _ :: _, _, _, h => by simp at h
  | _ :: _, [], _, _, h => by simp at h
  | a :: as, b :: bs, h1, h2, h => by
      simp only [List.map_cons, List.cons.injEq] at h
      have hab := digitChar_inj_lt (h1 a (by simp)) (h2 b (by simp)) h.1
      rw [hab, map_digitChar_cancel as bs (fun x hx => h1 x (by simp [hx]))
        (fun x hx => h2 x (by simp [hx])) h.2]

/-- A positive number never prints like zero. -/
theorem repr_pos_ne_zero {n : ℕ} (hn : 0 < n) : Nat.repr n ≠ Nat.repr 0 := by
  intro h
  have hd : (Nat.repr n).data = ['0'] := by rw [h]; rfl
  rw [repr_data_eq n hn] at hd
  have hmap : (Nat.digits 10 n).map Nat.digitChar = ['0'] := by
    have := congrArg List.reverse hd
    simpa using this
  cases hds : Nat.digits 10 n with
  | nil => rw [hds] at hmap; simp at hmap
  | cons d rest =>
      rw [hds] at hmap
      cases rest with
      | cons d2 rest2 => simp at hmap
      | nil =>
          simp only [List.map_cons, List.map_nil, List.cons.injEq, and_true] at hmap
          have hd10 : d < 10 :=
            Nat.digits_lt_base (by norm_num) (hds ▸ List.mem_cons_self d [])
          have hd0 : d = 0 := digitChar_inj_lt hd10 (by norm_num) (by simpa using hmap)
          have hofd := Nat.ofDigits_digits 10 n
          rw [hds, hd0] at hofd
          simp [Nat.ofDigits] at hofd
          omega

/-- Decimal printing of naturals is injective. -/
theorem nat_repr_inj {m n : ℕ} (h : Nat.repr m = Nat.repr n) : m = n := by
  rcases Nat.eq_zero_or_pos m with hm | hm
  · rcases Nat.eq_zero_or_pos n with hn | hn
    · omega
    · subst hm; exact absurd h.symm (repr_pos_ne_zero hn)
  · rcases Nat.eq_zero_or_pos n with hn | hn
    · subst hn; exact absurd h (repr_pos_ne_zero hm)
    · have hd : (Nat.repr m).data = (Nat.repr n).data := by rw [h]
      rw [repr_data_eq m hm, repr_data_eq n hn] at hd
      have hmap : (Nat.digits 10 m).map Nat.digitChar
          = (Nat.digits 10 n).map Nat.digitChar := by
        have := congrArg List.reverse hd
        simpa using this
      have hdig := map_digitChar_cancel _ _
        (fun x hx => Nat.digits_lt_base (by norm_num) hx)
        (fun x hx => Nat.digits_lt_base (by norm_num) hx) hmap
      have h1 := Nat.ofDigits_digits 10 m
      have h2 := Nat.ofDigits_digits 10 n
      rw [hdig] at h1
      rw [h2] at h1
      exact h1.symm

/-- Strings with the same characters are equal. -/
theorem string_data_ext {s t : String} (h : s.data = t.data) : s = t := by
  cases s
  cases t
  exact congrArg String.mk h

/-- The characters of `u_i`. -/
theorem uname_data (i : ℕ) : (uname i).data = 'u' :: '_' :: (Nat.repr i).data := by
  show ("u_" ++ Nat.repr i).data = _
  rw [String.data_append]
  rfl

/-- The canonical internal names are pairwise distinct. -/
theorem uname_inj {i j : ℕ} (h : uname i = uname j) : i = j := by
  have hd : (uname i).data = (uname j).data := by rw [h]
  rw [uname_data, uname_data] at hd
  simp only [List.cons.injEq, true_and] at hd
  exact nat_repr_inj (string_data_ext hd)

/-- Internal names carry the internal prefix. -/
theorem uPrefixed_uname (i : ℕ) : uPrefixed (uname i) = true := by
  unfold uPrefixed
  rw [uname_data]
  rfl

/-- A name without the internal prefix is never an internal name. -/
theorem ne_uname_of_not_uPrefixed {x : String} (hx : uPrefixed x = false) (i : ℕ) :
    x ≠ uname i := by
  intro h
  rw [h, uPrefixed_uname] at hx
  cases hx

/-- Association-list lookup on a cons cell, with propositional equality. -/
theorem lookup_cons_eqv {α β : Type} [DecidableEq α] [BEq α] [LawfulBEq α]
    (x k : α) (v : β) (es : List (α × β)) :
    List.lookup x ((k, v) :: es) = if x = k then some v else List.lookup x es := by
  simp only [List.lookup]
  split <;> rename_i h
  · simp only [beq_iff_eq] at h
    simp [h]
  · have hx : ¬x = k := by simpa using h
    simp [hx]

/-- Lookup hits in the left part of an append when the key is there. -/
theorem lookup_append_left {α β : Type} [DecidableEq α] [BEq α] [LawfulBEq α]
    (m1 m2 : List (α × β)) (x : α) (h : (m1.lookup x).isSome) :
    (m1 ++ m2).lookup x = m1.lookup x := by
  induction m1 with
  | nil => simp at h
  | cons p es ih =>
      obtain ⟨k, v⟩ := p
      simp only [List.cons_append, lookup_cons_eqv] at h ⊢
      by_cases hk : x = k
      · simp [hk]
      · simp only [if_neg hk] at h ⊢
        exact ih h

/-- Lookup falls through to the right part when the key is absent on the
left. -/
theorem lookup_append_right {α β : Type} [DecidableEq α] [BEq α] [LawfulBEq α]
    (m1 m2 : List (α × β)) (x : α) (h : m1.lookup x = none) :
    (m1 ++ m2).lookup x = m2.lookup x := by
  induction m1 with
  | nil => simp
  | cons p es ih =>
      obtain ⟨k, v⟩ := p
      simp only [lookup_cons_eqv] at h
      by_cases hk : x = k
      · rw [if_pos hk] at h
        cases h
      · rw [if_neg hk] at h
        simp only [List.cons_append, lookup_cons_eqv, if_neg hk]
        exact ih h

mutual

/-- Substitution only reads the map at the expression's variables. -/
theorem subsE_congr : ∀ (e : Expr) (m1 m2 : List (String × Expr)),
    (∀ x ∈ varsB e, m1.lookup x = m2.lookup x) → subsE m1 e = subsE m2 e
  | .num _, _, _, _ => rfl
  | .var s, m1, m2, h => by
      simp only [subsE]
      rw [h s (by simp [varsB])]
  | .binop t l r, m1, m2, h => by
      simp only [subsE]
      rw [subsE_congr l m1 m2 (fun x hx => h x (by simp [varsB, hx])),
        subsE_congr r m1 m2 (fun x hx => h x (by simp [varsB, hx]))]
  | .func d args, m1, m2, h => by
      simp only [subsE]
      rw [subsL_congr args m1 m2 (by simpa [varsB] using h)]

/-- `subsE_congr` over an argument list. -/
theorem subsL_congr : ∀ (as : List Expr) (m1 m2 : List (String × Expr)),
    (∀ x ∈ varsL as, m1.lookup x = m2.lookup x) → subsL m1 as = subsL m2 as
  | [], _, _, _ => rfl
  | e :: es, m1, m2, h => by
      simp only [subsL]
      rw [subsE_congr e m1 m2 (fun x hx => h x (by simp [varsL, hx])),
        subsL_congr es m1 m2 (fun x hx => h x (by simp [varsL, hx]))]

end

mutual

/-- Renaming only reads the map at the expression's variables. -/
theorem rename_congr : ∀ (e : Expr) (m1 m2 : List (String × String)),
    (∀ x ∈ varsB e, m1.lookup x = m2.lookup x) →
    rename_variables m1 e = rename_variables m2 e
  | .num _, _, _, _ => rfl
  | .var s, m1, m2, h => by
      simp only [rename_variables]
      rw [h s (by simp [varsB])]
  | .binop t l r, m1, m2, h => by
      simp only [rename_variables]
      rw [rename_congr l m1 m2 (fun x hx => h x (by simp [varsB, hx])),
        rename_congr r m1 m2 (fun x hx => h x (by simp [varsB, hx]))]
  | .func d args, m1, m2, h => by
      simp only [rename_variables]
      rw [renameL_congr args m1 m2 (by simpa [varsB] using h)]

/-- `rename_congr` over an argument list. -/
theorem renameL_congr : ∀ (as : List Expr) (m1 m2 : List (String × String)),
    (∀ x ∈ varsL as, m1.lookup x = m2.lookup x) → renameL m1 as = renameL m2 as
  | [], _, _, _ => rfl
  | e :: es, m1, m2, h => by
      simp only [renameL]
      rw [rename_congr e m1 m2 (fun x hx => h x (by simp [varsL, hx])),
        renameL_congr es m1 m2 (fun x hx => h x (by simp [varsL, hx]))]

end

mutual

/-- The variables of a renamed expression are the images of its
variables. -/
theorem varsB_rename : ∀ (e : Expr) (m : List (String × String)),
    varsB (rename_variables m e) = (varsB e).map (fun x => (m.lookup x).getD x)
  | .num _, _ => rfl
  | .var _, m => by simp [rename_variables, varsB]
  | .binop t l r, m => by
      simp [rename_variables, varsB, varsB_rename l m, varsB_rename r m]
  | .func d args, m => by
      simp [rename_variables, varsB, varsL_rename args m]

/-- `varsB_rename` over an argument list. -/
theorem varsL_rename : ∀ (as : List Expr) (m : List (String × String)),
    varsL (renameL m as) = (varsL as).map (fun x => (m.lookup x).getD x)
  | [], _ => rfl
  | e :: es, m => by simp [renameL, varsL, varsB_rename e m, varsL_rename es m]

end

mutual

/-- Substituting with the empty map is the identity. -/
theorem subsE_nil : ∀ e : Expr, subsE [] e = e
  | .num _ => rfl
  | .var _ => rfl
  | .binop t l r => by simp only [subsE]; rw [subsE_nil l, subsE_nil r]
  | .func d args => by simp only [subsE]; rw [subsL_nil args]

/-- `subsE_nil` over an argument list. -/
theorem subsL_nil : ∀ as : List Expr, subsL [] as = as
  | [] => rfl
  | e :: es => by simp only [subsL]; rw [subsE_nil e, subsL_nil es]

end

mutual

/-- Substituting a renamed expression agrees with substituting the
original whenever the maps agree pointwise through the renaming. -/
theorem subsE_rename : ∀ (e : Expr) (ρ : List (String × String))
    (m1 m2 : List (String × Expr)),
    (∀ x ∈ varsB e, applySub m2 ((ρ.lookup x).getD x) = applySub m1 x) →
    subsE m2 (rename_variables ρ e) = subsE m1 e
  | .num _, _, _, _, _ => rfl
  | .var s, ρ, m1, m2, h => by
      simp only [rename_variables, subsE]
      exact h s (by simp [varsB])
  | .binop t l r, ρ, m1, m2, h => by
      simp only [rename_variables, subsE]
      rw [subsE_rename l ρ m1 m2 (fun x hx => h x (by simp [varsB, hx])),
        subsE_rename r ρ m1 m2 (fun x hx => h x (by simp [varsB, hx]))]
  | .func d args, ρ, m1, m2, h => by
      simp only [rename_variables, subsE]
      rw [subsL_rename args ρ m1 m2 (by simpa [varsB] using h)]

/-- `subsE_rename` over an argument list. -/
theorem subsL_rename : ∀ (as : List Expr) (ρ : List (String × String))
    (m1 m2 : List (String × Expr)),
    (∀ x ∈ varsL as, applySub m2 ((ρ.lookup x).getD x) = applySub m1 x) →
    subsL m2 (renameL ρ as) = subsL m1 as
  | [], _, _, _, _ => rfl
  | e :: es, ρ, m1, m2, h => by
      simp only [renameL, subsL]
      rw [subsE_rename e ρ m1 m2 (fun x hx => h x (by simp [varsL, hx])),
        subsL_rename es ρ m1 m2 (fun x hx => h x (by simp [varsL, hx]))]

end

/-- Substitution is stable under extending the map when every variable is
already covered. -/
theorem subsE_covered (e : Expr) (m mext : List (String × Expr))
    (h : ∀ x ∈ varsB e, (m.lookup x).isSome) :
    subsE (m ++ mext) e = subsE m e :=
  subsE_congr e (m ++ mext) m (fun x hx => lookup_append_left m mext x (h x hx))

/-- The substitution map only depends on the first k entries of the
decomposition. -/
theorem smu_agree : ∀ (k : ℕ) (dc1 dc2 : List Expr),
    (∀ j, j < k → dc1.getD j (.num 0) = dc2.getD j (.num 0)) →
    subs_map_upto dc1 k = subs_map_upto dc2 k
  | 0, _, _, _ => rfl
  | k + 1, dc1, dc2, h => by
      simp only [subs_map_upto]
      rw [smu_agree k dc1 dc2 (fun j hj => h j (by omega)), h k (by omega)]

/-- Longer substitution maps extend shorter ones. -/
theorem smu_prefix (dc : List Expr) : ∀ (K k : ℕ), k ≤ K →
    ∃ rest, subs_map_upto dc K = subs_map_upto dc k ++ rest := by
  intro K
  induction K with
  | zero =>
      intro k hk
      have hk0 : k = 0 := Nat.le_zero.mp hk
      subst hk0
      exact ⟨[], by simp⟩
  | succ K ih =>
      intro k hk
      rcases Nat.eq_or_lt_of_le hk with h | h
      · exact ⟨[], by rw [h]; simp⟩
      · obtain ⟨rest, hrest⟩ := ih k (by omega)
        exact ⟨rest ++ [(uname K, subsE (subs_map_upto dc K) (dc.getD K (.num 0)))],
          by simp only [subs_map_upto]; rw [hrest]; simp⟩

/-- A name that is no `u_j` for j < k is absent from the substitution
map. -/
theorem smu_lookup_none : ∀ (k : ℕ) (dc : List Expr) (x : String),
    (∀ j, j < k → x ≠ uname j) → (subs_map_upto dc k).lookup x = none
  | 0, _, _, _ => rfl
  | k + 1, dc, x, h => by
      simp only [subs_map_upto]
      rw [lookup_append_right _ _ _ (smu_lookup_none k dc x (fun j hj => h j (by omega))),
        lookup_cons_eqv, if_neg (h k (by omega))]
      rfl

/-- The substitution map binds `u_k` to the k-th entry with all earlier
u-variables expanded. -/
theorem smu_lookup_self (k : ℕ) (dc : List Expr) :
    (subs_map_upto dc (k + 1)).lookup (uname k)
      = some (subsE (subs_map_upto dc k) (dc.getD k (.num 0))) := by
  simp only [subs_map_upto]
  rw [lookup_append_right _ _ _
      (smu_lookup_none k dc (uname k) (fun j hj hne => by
        have := uname_inj hne; omega)),
    lookup_cons_eqv, if_pos rfl]

/-- `smu_lookup_self` through any longer map. -/
theorem smu_lookup_lt (K k : ℕ) (dc : List Expr) (h : k < K) :
    (subs_map_upto dc K).lookup (uname k)
      = some (subsE (subs_map_upto dc k) (dc.getD k (.num 0))) := by
  obtain ⟨rest, hrest⟩ := smu_prefix dc K (k + 1) h
  rw [hrest, lookup_append_left _ _ _ (by rw [smu_lookup_self]; rfl), smu_lookup_self]

/-- PvarsBelow is monotone in the bound. -/
theorem PvarsBelow_mono {k1 k2 : ℕ} (h : k1 ≤ k2) {e : Expr}
    (hp : PvarsBelow k1 e) : PvarsBelow k2 e := by
  intro x hx
  obtain ⟨j, hj, hxe⟩ := hp x hx
  exact ⟨j, by omega, hxe⟩

/-- The substitution map of an extended decomposition agrees with the
original's on the shared prefix. -/
theorem msp_append_agree (U V : List Expr) (k : ℕ) (hk : k ≤ U.length) :
    subs_map_upto (U ++ V) k = subs_map_upto U k :=
  smu_agree k (U ++ V) U (fun j hj => List.getD_append U V _ j (by omega))

/-- Substitution through a longer prefix map is unchanged when all
variables resolve below the shorter cut. -/
theorem subsE_smu_stable (e : Expr) (X : List Expr) (K1 K2 : ℕ) (h12 : K1 ≤ K2)
    (hv : ∀ x ∈ varsB e, ∃ j, j < K1 ∧ x = uname j) :
    subsE (subs_map_upto X K2) e = subsE (subs_map_upto X K1) e := by
  obtain ⟨rest, hrest⟩ := smu_prefix X K2 K1 h12
  rw [hrest]
  apply subsE_covered
  intro x hx
  obtain ⟨j, hj, hxe⟩ := hv x hx
  subst hxe
  rw [smu_lookup_lt K1 j X hj]
  rfl

/-- `subsE_smu_stable` for argument lists. -/
theorem subsL_smu_stable (as : List Expr) (X : List Expr) (K1 K2 : ℕ)
    (h12 : K1 ≤ K2) (hv : ∀ x ∈ varsL as, ∃ j, j < K1 ∧ x = uname j) :
    subsL (subs_map_upto X K2) as = subsL (subs_map_upto X K1) as := by
  obtain ⟨rest, hrest⟩ := smu_prefix X K2 K1 h12
  rw [hrest]
  apply subsL_congr
  intro x hx
  obtain ⟨j, hj, hxe⟩ := hv x hx
  subst hxe
  rw [lookup_append_left _ _ _ (by rw [smu_lookup_lt K1 j X hj]; rfl)]

/-- Substitution through the full map of an extended decomposition equals
substitution through the original's when all variables resolve inside the
original. -/
theorem subsE_msp_append (e : Expr) (U V : List Expr)
    (hv : ∀ x ∈ varsB e, ∃ j, j < U.length ∧ x = uname j) :
    subsE (subs_map_upto (U ++ V) (U ++ V).length) e
      = subsE (subs_map_upto U U.length) e := by
  rw [subsE_smu_stable e (U ++ V) U.length (U ++ V).length (by simp) hv,
    msp_append_agree U V U.length (by omega)]

/-- `subsE_msp_append` for argument lists. -/
theorem subsL_msp_append (as : List Expr) (U V : List Expr)
    (hv : ∀ x ∈ varsL as, ∃ j, j < U.length ∧ x = uname j) :
    subsL (subs_map_upto (U ++ V) (U ++ V).length) as
      = subsL (subs_map_upto U U.length) as := by
  rw [subsL_smu_stable as (U ++ V) U.length (U ++ V).length (by simp) hv,
    msp_append_agree U V U.length (by omega)]

/-- The value of the internal variable `u_k` under the full substitution
map is the k-th entry with all earlier u-variables expanded. -/
theorem subsE_var_uname (X : List Expr) (k : ℕ) (hk : k < X.length) :
    subsE (subs_map_upto X X.length) (.var (uname k))
      = subsE (subs_map_upto X k) (X.getD k (.num 0)) := by
  simp only [subsE]
  rw [smu_lookup_lt X.length k X hk]
  rfl

/-- The replaced argument of a decomposition step only references entries
of the extended decomposition. -/
theorem replArg_pvars (a : Expr) (U U1 : List Expr) (da : ℕ)
    (hP : PvarsBelow U.length a) (hext : ∃ V, U1 = U ++ V)
    (hda : da ≠ 0 → U.length ≤ da ∧ da < U1.length) :
    PvarsBelow U1.length (if da = 0 then a else .var (uname da)) := by
  obtain ⟨V, hV⟩ := hext
  by_cases h : da = 0
  · rw [if_pos h]
    exact PvarsBelow_mono (by rw [hV]; simp) hP
  · rw [if_neg h]
    intro x hx
    simp only [varsB, List.mem_singleton] at hx
    exact ⟨da, (hda h).2, hx⟩

/-- Well-formedness from a lower cut combines with well-formedness of an
extension. -/
theorem WFfrom_compose (n : ℕ) (U U' : List Expr) (hUU : ∃ V, U' = U ++ V)
    (h1 : WFfrom n U) (h2 : WFfrom U.length U') : WFfrom n U' := by
  obtain ⟨V, hV⟩ := hUU
  intro k hk1 hk2
  by_cases hkU : k < U.length
  · rw [hV, List.getD_append U V _ k hkU]
    exact h1 k hk1 hkU
  · exact h2 k (by omega) hk2

mutual

/-- Soundness of taylor_decompose_in_place: appends only, references run
backwards, untouched means number-or-variable, and u-variable expansion
preserves the expression's meaning. -/
theorem tdip_sound : ∀ (e : Expr) (U U' : List Expr) (rr : ℕ),
    tdip e U = some (U', rr) → 0 < U.length → PvarsBelow U.length e →
    TdipOut e U U' rr
  | .num q, U, U', rr => by
      intro hres h0 hP
      simp only [tdip, Option.some.injEq, Prod.mk.injEq] at hres
      obtain ⟨hU, hr⟩ := hres
      subst hU
      subst hr
      refine ⟨⟨[], by simp⟩, ?_, fun _ => ⟨rfl, .inl ⟨q, rfl⟩⟩, fun h => absurd rfl h, rfl⟩
      intro k h1 h2
      exact absurd h1 (by omega)
  | .var s, U, U', rr => by
      intro hres h0 hP
      simp only [tdip, Option.some.injEq, Prod.mk.injEq] at hres
      obtain ⟨hU, hr⟩ := hres
      subst hU
      subst hr
      refine ⟨⟨[], by simp⟩, ?_, fun _ => ⟨rfl, .inr ⟨s, rfl⟩⟩, fun h => absurd rfl h, rfl⟩
      intro k h1 h2
      exact absurd h1 (by omega)
  | .binop t l r0, U, U', rr => by
      intro hres h0 hP
      unfold tdip at hres
      cases hl : tdip l U with
      | none => rw [hl] at hres; simp at hres
      | some p =>
          obtain ⟨U1, dl⟩ := p
          rw [hl] at hres
          dsimp only at hres
          cases hr : tdip r0 U1 with
          | none => rw [hr] at hres; simp at hres
          | some p2 =>
              obtain ⟨U2, dr⟩ := p2
              rw [hr] at hres
              dsimp only at hres
              simp only [Option.some.injEq, Prod.mk.injEq] at hres
              obtain ⟨hU, hr2⟩ := hres
              subst hU
              subst hr2
              have hPl : PvarsBelow U.length l := fun x hx => hP x (by simp [varsB, hx])
              have IHl := tdip_sound l U U1 dl hl h0 hPl
              obtain ⟨⟨V1, hV1⟩, hWF1, hz1, hnz1, hsem1⟩ := IHl
              have hU1len : U.length ≤ U1.length := by rw [hV1]; simp
              have h01 : 0 < U1.length := by omega
              have hPr : PvarsBelow U1.length r0 :=
                PvarsBelow_mono hU1len (fun x hx => hP x (by simp [varsB, hx]))
              have IHr := tdip_sound r0 U1 U2 dr hr h01 hPr
              obtain ⟨⟨V2, hV2⟩, hWF2, hz2, hnz2, hsem2⟩ := IHr
              have hU2len : U1.length ≤ U2.length := by rw [hV2]; simp
              have hl2v : PvarsBelow U1.length (if dl = 0 then l else Expr.var (uname dl)) :=
                replArg_pvars l U U1 dl hPl ⟨V1, hV1⟩ hnz1
              have hr2v : PvarsBelow U2.length (if dr = 0 then r0 else Expr.var (uname dr)) :=
                replArg_pvars r0 U1 U2 dr hPr ⟨V2, hV2⟩ hnz2
              have hne : U2.length ≠ 0 := by omega
              refine ⟨⟨V1 ++ V2 ++ [Expr.binop t (if dl = 0 then l else Expr.var (uname dl))
                  (if dr = 0 then r0 else Expr.var (uname dr))], by rw [hV2, hV1]; simp⟩, ?_,
                fun h => absurd h hne, fun _ => ⟨by omega, by simp⟩, ?_⟩
              · intro k hk1 hk2
                by_cases hkU2 : k < U2.length
                · rw [List.getD_append _ _ _ _ hkU2]
                  by_cases hkU1 : k < U1.length
                  · rw [hV2, List.getD_append _ _ _ _ hkU1]
                    exact hWF1 k hk1 hkU1
                  · exact hWF2 k (by omega) hkU2
                · have hk : k = U2.length := by
                    simp only [List.length_append, List.length_cons, List.length_nil] at hk2
                    omega
                  subst hk
                  have hgd : (U2 ++ [Expr.binop t (if dl = 0 then l else Expr.var (uname dl))
                      (if dr = 0 then r0 else Expr.var (uname dr))]).getD U2.length (.num 0)
                      = Expr.binop t (if dl = 0 then l else Expr.var (uname dl))
                        (if dr = 0 then r0 else Expr.var (uname dr)) := by simp
                  rw [hgd]
                  intro x hx
                  simp only [varsB, List.mem_append] at hx
                  cases hx with
                  | inl h =>
                      obtain ⟨j, hj, he⟩ := hl2v x h
                      exact ⟨j, by omega, he⟩
                  | inr h => exact hr2v x h
              · have hgd2 : ((U2 ++ [Expr.binop t (if dl = 0 then l else Expr.var (uname dl))
                    (if dr = 0 then r0 else Expr.var (uname dr))]).getD U2.length
                      (Expr.num 0))
                    = Expr.binop t (if dl = 0 then l else Expr.var (uname dl))
                      (if dr = 0 then r0 else Expr.var (uname dr)) := by simp
                rw [if_neg hne, subsE_var_uname _ U2.length (by simp), hgd2,
                  msp_append_agree U2 _ U2.length (le_refl _)]
                simp only [subsE]
                have hL : subsE (subs_map_upto U2 U2.length)
                    (if dl = 0 then l else Expr.var (uname dl))
                    = subsE (subs_map_upto U U.length) l := by
                  rw [hV2, subsE_msp_append _ U1 V2 hl2v]
                  exact hsem1
                have hR : subsE (subs_map_upto U2 U2.length)
                    (if dr = 0 then r0 else Expr.var (uname dr))
                    = subsE (subs_map_upto U U.length) r0 := by
                  rw [hsem2, hV1, subsE_msp_append _ U V1 (fun x hx => hP x (by simp [varsB, hx]))]
                rw [hL, hR]
  | .func d args, U, U', rr => by
      intro hres h0 hP
      unfold tdip at hres
      by_cases hd : d = sin_data
      · rw [if_pos hd] at hres
        have hargs1 : ∃ a, args = [a] := by
          cases args with
          | nil => simp at hres
          | cons a rest =>
              cases rest with
              | nil => exact ⟨a, rfl⟩
              | cons b rest2 => simp at hres
        obtain ⟨a, rfl⟩ := hargs1
        dsimp only at hres
        cases ha : tdip a U with
        | none => rw [ha] at hres; simp at hres
        | some p =>
            obtain ⟨U1, da⟩ := p
            rw [ha] at hres
            dsimp only at hres
            simp only [Option.some.injEq, Prod.mk.injEq] at hres
            obtain ⟨hU, hr2⟩ := hres
            subst hU
            subst hr2
            have hPa : PvarsBelow U.length a := fun x hx => hP x (by simp [varsB, varsL, hx])
            have IHa := tdip_sound a U U1 da ha h0 hPa
            obtain ⟨⟨V1, hV1⟩, hWF1, hz1, hnz1, hsem1⟩ := IHa
            have hU1len : U.length ≤ U1.length := by rw [hV1]; simp
            have hav : PvarsBelow U1.length (if da = 0 then a else Expr.var (uname da)) :=
              replArg_pvars a U U1 da hPa ⟨V1, hV1⟩ hnz1
            have hne : U1.length ≠ 0 := by omega
            refine ⟨⟨V1 ++ [Expr.func d [if da = 0 then a else Expr.var (uname da)],
                cosE (if da = 0 then a else Expr.var (uname da))], by rw [hV1]; simp⟩, ?_,
              fun h => absurd h hne, fun _ => ⟨by omega, by simp⟩, ?_⟩
            · intro k hk1 hk2
              by_cases hkU1 : k < U1.length
              · rw [List.getD_append _ _ _ _ hkU1]
                exact hWF1 k hk1 hkU1
              · simp only [List.length_append, List.length_cons, List.length_nil] at hk2
                intro x hx
                by_cases hk : k = U1.length
                · subst hk
                  rw [show ((U1 ++ [Expr.func d [if da = 0 then a else Expr.var (uname da)],
                      cosE (if da = 0 then a else Expr.var (uname da))]).getD U1.length (.num 0))
                      = Expr.func d [if da = 0 then a else Expr.var (uname da)] from by rw [List.getD_append_right _ _ _ _ (le_refl _)]; simp] at hx
                  simp only [varsB, varsL, List.append_nil] at hx
                  exact hav x hx
                · have hk' : k = U1.length + 1 := by omega
                  subst hk'
                  rw [List.getD_append_right _ _ _ _ (by omega),
                    show U1.length + 1 - U1.length = 1 from by omega] at hx
                  simp only [List.getD_cons_succ, List.getD_cons_zero, cosE, varsB, varsL,
                    List.append_nil] at hx
                  obtain ⟨j, hj, he⟩ := hav x hx
                  exact ⟨j, by omega, he⟩
            · rw [if_neg hne,
                subsE_var_uname _ U1.length (by simp),
                show ((U1 ++ [Expr.func d [if da = 0 then a else Expr.var (uname da)],
                  cosE (if da = 0 then a else Expr.var (uname da))]).getD U1.length (.num 0))
                  = Expr.func d [if da = 0 then a else Expr.var (uname da)] from by rw [List.getD_append_right _ _ _ _ (le_refl _)]; simp,
                msp_append_agree U1 _ U1.length (le_refl _)]
              simp only [subsE, subsL]
              rw [hsem1]
      · rw [if_neg hd] at hres
        by_cases hdc : d = cos_data
        · rw [if_pos hdc] at hres
          have hargs1 : ∃ a, args = [a] := by
            cases args with
            | nil => simp at hres
            | cons a rest =>
                cases rest with
                | nil => exact ⟨a, rfl⟩
                | cons b rest2 => simp at hres
          obtain ⟨a, rfl⟩ := hargs1
          dsimp only at hres
          cases ha : tdip a U with
          | none => rw [ha] at hres; simp at hres
          | some p =>
              obtain ⟨U1, da⟩ := p
              rw [ha] at hres
              dsimp only at hres
              simp only [Option.some.injEq, Prod.mk.injEq] at hres
              obtain ⟨hU, hr2⟩ := hres
              subst hU
              subst hr2
              have hPa : PvarsBelow U.length a := fun x hx => hP x (by simp [varsB, varsL, hx])
              have IHa := tdip_sound a U U1 da ha h0 hPa
              obtain ⟨⟨V1, hV1⟩, hWF1, hz1, hnz1, hsem1⟩ := IHa
              have hU1len : U.length ≤ U1.length := by rw [hV1]; simp
              have hav : PvarsBelow U1.length (if da = 0 then a else Expr.var (uname da)) :=
                replArg_pvars a U U1 da hPa ⟨V1, hV1⟩ hnz1
              have hne : U1.length + 1 ≠ 0 := by omega
              refine ⟨⟨V1 ++ [sinE (if da = 0 then a else Expr.var (uname da)),
                  Expr.func d [if da = 0 then a else Expr.var (uname da)]],
                  by rw [hV1]; simp⟩, ?_, fun h => absurd h hne,
                fun _ => ⟨by omega, by simp⟩, ?_⟩
              · intro k hk1 hk2
                by_cases hkU1 : k < U1.length
                · rw [List.getD_append _ _ _ _ hkU1]
                  exact hWF1 k hk1 hkU1
                · simp only [List.length_append, List.length_cons, List.length_nil] at hk2
                  intro x hx
                  by_cases hk : k = U1.length
                  · subst hk
                    rw [show ((U1 ++ [sinE (if da = 0 then a else Expr.var (uname da)),
                        Expr.func d [if da = 0 then a else Expr.var (uname da)]]).getD
                          U1.length (.num 0))
                        = sinE (if da = 0 then a else Expr.var (uname da)) from by rw [List.getD_append_right _ _ _ _ (le_refl _)]; simp] at hx
                    simp only [sinE, varsB, varsL, List.append_nil] at hx
                    exact hav x hx
                  · have hk' : k = U1.length + 1 := by omega
                    subst hk'
                    rw [List.getD_append_right _ _ _ _ (by omega),
                      show U1.length + 1 - U1.length = 1 from by omega] at hx
                    simp only [List.getD_cons_succ, List.getD_cons_zero, varsB, varsL,
                      List.append_nil] at hx
                    obtain ⟨j, hj, he⟩ := hav x hx
                    exact ⟨j, by omega, he⟩
              · rw [if_neg hne,
                  subsE_var_uname _ (U1.length + 1) (by simp),
                  show ((U1 ++ [sinE (if da = 0 then a else Expr.var (uname da)),
                    Expr.func d [if da = 0 then a else Expr.var (uname da)]]).getD
                      (U1.length + 1) (.num 0))
                    = Expr.func d [if da = 0 then a else Expr.var (uname da)] from by
                      rw [List.getD_append_right _ _ _ _ (by omega),
                        show U1.length + 1 - U1.length = 1 from by omega]
                      rfl]
                have hstab : subsE (subs_map_upto (U1 ++ [sinE (if da = 0 then a
                    else Expr.var (uname da)),
                    Expr.func d [if da = 0 then a else Expr.var (uname da)]]) (U1.length + 1))
                    (Expr.func d [if da = 0 then a else Expr.var (uname da)])
                    = subsE (subs_map_upto (U1 ++ [sinE (if da = 0 then a
                    else Expr.var (uname da)),
                    Expr.func d [if da = 0 then a else Expr.var (uname da)]]) U1.length)
                    (Expr.func d [if da = 0 then a else Expr.var (uname da)]) := by
                  apply subsE_smu_stable _ _ U1.length (U1.length + 1) (by omega)
                  intro x hx
                  simp only [varsB, varsL, List.append_nil] at hx
                  exact hav x hx
                rw [hstab, msp_append_agree U1 _ U1.length (le_refl _)]
                simp only [subsE, subsL]
                rw [hsem1]
        · rw [if_neg hdc] at hres
          by_cases htd : d.has_taylor_decompose_f = true
          · rw [if_pos htd] at hres
            cases hargs : tdipArgs args U with
            | none => rw [hargs] at hres; simp at hres
            | some p =>
                obtain ⟨U1, args2⟩ := p
                rw [hargs] at hres
                dsimp only at hres
                simp only [Option.some.injEq, Prod.mk.injEq] at hres
                obtain ⟨hU, hr2⟩ := hres
                subst hU
                subst hr2
                have hPargs : ∀ x ∈ varsL args, ∃ j, j < U.length ∧ x = uname j :=
                  fun x hx => hP x (by simp [varsB, hx])
                have IHargs := tdipArgs_sound args U U1 args2 hargs h0 hPargs
                obtain ⟨⟨V1, hV1⟩, hWF1, hvars2, hsem1⟩ := IHargs
                have hU1len : U.length ≤ U1.length := by rw [hV1]; simp
                have hne : U1.length ≠ 0 := by omega
                refine ⟨⟨V1 ++ [Expr.func d args2], by rw [hV1]; simp⟩, ?_,
                  fun h => absurd h hne,
                  fun _ => ⟨by omega, by simp⟩, ?_⟩
                · intro k hk1 hk2
                  by_cases hkU1 : k < U1.length
                  · rw [List.getD_append _ _ _ _ hkU1]
                    exact hWF1 k hk1 hkU1
                  · have hk : k = U1.length := by
                      simp only [List.length_append, List.length_cons, List.length_nil] at hk2
                      omega
                    subst hk
                    rw [show ((U1 ++ [Expr.func d args2]).getD U1.length (.num 0))
                      = Expr.func d args2 from by simp]
                    intro x hx
                    simp only [varsB] at hx
                    exact hvars2 x hx
                · rw [if_neg hne,
                    subsE_var_uname _ U1.length (by simp),
                    show ((U1 ++ [Expr.func d args2]).getD U1.length (.num 0))
                      = Expr.func d args2 from by simp,
                    msp_append_agree U1 _ U1.length (le_refl _)]
                  simp only [subsE]
                  rw [hsem1]
          · rw [if_neg htd] at hres
            simp at hres

/-- Soundness of the default decomposition's argument loop. -/
theorem tdipArgs_sound : ∀ (as : List Expr) (U U' : List Expr) (as2 : List Expr),
    tdipArgs as U = some (U', as2) → 0 < U.length →
    (∀ x ∈ varsL as, ∃ j, j < U.length ∧ x = uname j) →
    TdipArgsOut as U U' as2
  | [], U, U', as2 => by
      intro hres h0 hP
      simp only [tdipArgs, Option.some.injEq, Prod.mk.injEq] at hres
      obtain ⟨hU, hr⟩ := hres
      subst hU
      subst hr
      refine ⟨⟨[], by simp⟩, ?_, by simp [varsL], rfl⟩
      intro k h1 h2
      exact absurd h1 (by omega)
  | a :: as, U, U', as2 => by
      intro hres h0 hP
      unfold tdipArgs at hres
      cases ha : tdip a U with
      | none => rw [ha] at hres; simp at hres
      | some p =>
          obtain ⟨U1, da⟩ := p
          rw [ha] at hres
          dsimp only at hres
          cases has : tdipArgs as U1 with
          | none => rw [has] at hres; simp at hres
          | some p2 =>
              obtain ⟨U2, as2'⟩ := p2
              rw [has] at hres
              dsimp only at hres
              simp only [Option.some.injEq, Prod.mk.injEq] at hres
              obtain ⟨hU, hr2⟩ := hres
              subst hU
              subst hr2
              have hPa : PvarsBelow U.length a := fun x hx => hP x (by simp [varsL, hx])
              have IHa := tdip_sound a U U1 da ha h0 hPa
              obtain ⟨⟨V1, hV1⟩, hWF1, hz1, hnz1, hsem1⟩ := IHa
              have hU1len : U.length ≤ U1.length := by rw [hV1]; simp
              have h01 : 0 < U1.length := by omega
              have hPas : ∀ x ∈ varsL as, ∃ j, j < U1.length ∧ x = uname j := fun x hx => by
                obtain ⟨j, hj, he⟩ := hP x (by simp [varsL, hx])
                exact ⟨j, by omega, he⟩
              have IHas := tdipArgs_sound as U1 U2 as2' has h01 hPas
              obtain ⟨⟨V2, hV2⟩, hWF2, hvars2, hsem2⟩ := IHas
              have hU2len : U1.length ≤ U2.length := by rw [hV2]; simp
              have hav : PvarsBelow U1.length (if da = 0 then a else Expr.var (uname da)) :=
                replArg_pvars a U U1 da hPa ⟨V1, hV1⟩ hnz1
              refine ⟨⟨V1 ++ V2, by rw [hV2, hV1]; simp⟩,
                WFfrom_compose U.length U1 U2 ⟨V2, hV2⟩ hWF1 hWF2, ?_, ?_⟩
              · intro x hx
                simp only [varsL, List.mem_append] at hx
                cases hx with
                | inl h =>
                    obtain ⟨j, hj, he⟩ := hav x h
                    exact ⟨j, by omega, he⟩
                | inr h => exact hvars2 x h
              · simp only [subsL]
                rw [hsem2, hV1,
                  subsL_msp_append as U V1 (fun x hx => hP x (by simp [varsL, hx]))]
                rw [hV2, subsE_msp_append _ U1 V2 hav, hsem1]

end

/-- An in-range getD is a member. -/
theorem getD_mem_of_lt {α : Type} (l : List α) (n : ℕ) (d : α) (h : n < l.length) :
    l.getD n d ∈ l := by
  rw [List.getD_eq_getElem l d h]
  exact List.getElem_mem h

/-- Soundness of the per-equation decomposition loop: the decomposition
only grows, stays well-formed, and each recorded copy expands to the
original (renamed) right-hand side; every copy is a number or a
variable. -/
theorem decompose_eqs_sound : ∀ (es U U' cs : List Expr),
    decompose_eqs es U = some (U', cs) → 0 < U.length →
    (∀ e ∈ es, PvarsBelow U.length e) →
    (∃ V, U' = U ++ V)
    ∧ WFfrom U.length U'
    ∧ cs.length = es.length
    ∧ (∀ i, i < es.length →
        (subsE (subs_map_upto U' U'.length) (cs.getD i (.num 0))
          = subsE (subs_map_upto U U.length) (es.getD i (.num 0)))
        ∧ PvarsBelow U'.length (cs.getD i (.num 0))
        ∧ ((∃ q, cs.getD i (.num 0) = .num q) ∨ (∃ s, cs.getD i (.num 0) = .var s)))
  | [], U, U', cs => by
      intro hres h0 hPe
      simp only [decompose_eqs, Option.some.injEq, Prod.mk.injEq] at hres
      obtain ⟨hU, hc⟩ := hres
      subst hU
      subst hc
      refine ⟨⟨[], by simp⟩, ?_, rfl, fun i hi => absurd hi (by simp)⟩
      intro k h1 h2
      exact absurd h1 (by omega)
  | e :: es, U, U', cs => by
      intro hres h0 hPe
      unfold decompose_eqs at hres
      cases ht : tdip e U with
      | none => rw [ht] at hres; simp at hres
      | some p =>
          obtain ⟨U1, r⟩ := p
          rw [ht] at hres
          dsimp only at hres
          cases hds : decompose_eqs es U1 with
          | none => rw [hds] at hres; simp at hres
          | some p2 =>
              obtain ⟨U2, cs'⟩ := p2
              rw [hds] at hres
              dsimp only at hres
              simp only [Option.some.injEq, Prod.mk.injEq] at hres
              obtain ⟨hU, hc⟩ := hres
              subst hU
              subst hc
              have hPe0 : PvarsBelow U.length e := hPe e (by simp)
              have IHt := tdip_sound e U U1 r ht h0 hPe0
              obtain ⟨⟨V1, hV1⟩, hWF1, hz1, hnz1, hsem1⟩ := IHt
              have hU1len : U.length ≤ U1.length := by rw [hV1]; simp
              have h01 : 0 < U1.length := by omega
              have hPes : ∀ e2 ∈ es, PvarsBelow U1.length e2 := fun e2 he2 =>
                PvarsBelow_mono hU1len (hPe e2 (by simp [he2]))
              have IHes := decompose_eqs_sound es U1 U2 cs' hds h01 hPes
              obtain ⟨⟨V2, hV2⟩, hWF2, hlen, hall⟩ := IHes
              have hU2len : U1.length ≤ U2.length := by rw [hV2]; simp
              have hc0v : PvarsBelow U1.length (if r = 0 then e else Expr.var (uname r)) :=
                replArg_pvars e U U1 r hPe0 ⟨V1, hV1⟩ hnz1
              refine ⟨⟨V1 ++ V2, by rw [hV2, hV1]; simp⟩,
                WFfrom_compose U.length U1 U2 ⟨V2, hV2⟩ hWF1 hWF2, by simp [hlen], ?_⟩
              intro i hi
              cases i with
              | zero =>
                  simp only [List.getD_cons_zero]
                  refine ⟨?_, PvarsBelow_mono hU2len hc0v, ?_⟩
                  · rw [hV2, subsE_msp_append _ U1 V2 hc0v, hsem1]
                  · by_cases hr : r = 0
                    · rw [if_pos hr]
                      rcases (hz1 hr).2 with ⟨q, hq⟩ | ⟨s, hs⟩
                      · exact .inl ⟨q, hq⟩
                      · exact .inr ⟨s, hs⟩
                    · exact .inr ⟨uname r, by rw [if_neg hr]⟩
              | succ j =>
                  simp only [List.getD_cons_succ]
                  have hj : j < es.length := by simpa using hi
                  obtain ⟨hsem, hpv, hshape⟩ := hall j hj
                  refine ⟨?_, hpv, hshape⟩
                  rw [hsem, hV1,
                    subsE_msp_append _ U V1
                      (fun x hx => hPe (es.getD j (.num 0)) (List.mem_cons_of_mem e (getD_mem_of_lt es j (Expr.num 0) hj)) x hx)]

/-- mkReplMap maps each name of the list to the internal name at its first
index. -/
theorem mkReplMap_lookup : ∀ (vars : List String) (i0 : ℕ) (x : String),
    x ∈ vars → ∃ k, k < vars.length ∧ vars.getD k "" = x ∧
      (mkReplMap i0 vars).lookup x = some (uname (i0 + k))
  | [], _, _, h => absurd h (by simp)
  | v :: vs, i0, x, h => by
      by_cases hx : x = v
      · exact ⟨0, by simp, by simp [hx], by
          simp only [mkReplMap]
          rw [lookup_cons_eqv, if_pos hx]
          rfl⟩
      · have hxm : x ∈ vs := by
          cases List.mem_cons.mp h with
          | inl h2 => exact absurd h2 hx
          | inr h2 => exact h2
        obtain ⟨k, hk, hget, hlook⟩ := mkReplMap_lookup vs (i0 + 1) x hxm
        exact ⟨k + 1, by simpa using hk, by simpa using hget, by
          simp only [mkReplMap]
          rw [lookup_cons_eqv, if_neg hx, hlook]
          have harith : i0 + 1 + k = i0 + (k + 1) := by omega
          rw [harith]⟩

/-- Names outside the list are absent from the renaming map. -/
theorem mkReplMap_lookup_none : ∀ (vars : List String) (i0 : ℕ) (x : String),
    x ∉ vars → (mkReplMap i0 vars).lookup x = none
  | [], _, _, _ => rfl
  | v :: vs, i0, x, h => by
      simp only [mkReplMap]
      rw [lookup_cons_eqv, if_neg (fun hx => h (by simp [hx])),
        mkReplMap_lookup_none vs (i0 + 1) x (fun hx => h (by simp [hx]))]

/-- Removing consecutive duplicates preserves membership. -/
theorem dedupAdj_mem : ∀ (l : List String) (x : String), x ∈ dedupAdj l ↔ x ∈ l
  | [], x => by simp [dedupAdj]
  | [a], x => by simp [dedupAdj]
  | a :: b :: rest, x => by
      simp only [dedupAdj]
      by_cases hab : a = b
      · rw [if_pos hab, dedupAdj_mem (b :: rest) x]
        subst hab
        simp
      · rw [if_neg hab]
        simp [dedupAdj_mem (b :: rest) x]

/-- Sorting and deduplicating preserves membership. -/
theorem sortDedup_mem (l : List String) (x : String) : x ∈ sortDedup l ↔ x ∈ l := by
  rw [sortDedup, dedupAdj_mem]
  exact (List.perm_insertionSort strLeP l).mem_iff

mutual

/-- get_variables computes exactly the occurring variable names. -/
theorem get_variables_mem : ∀ (e : Expr) (x : String),
    x ∈ get_variables e ↔ x ∈ varsB e
  | .num _, x => by simp [get_variables, varsB]
  | .var s, x => by simp [get_variables, varsB]
  | .binop t l r, x => by
      simp only [get_variables, varsB, sortDedup_mem, List.mem_append,
        get_variables_mem l x, get_variables_mem r x]
  | .func d args, x => by
      simp only [get_variables, varsB]
      rw [getVarsL_mem args x]

/-- `get_variables_mem` for argument lists. -/
theorem getVarsL_mem : ∀ (as : List Expr) (x : String),
    x ∈ getVarsL as ↔ x ∈ varsL as
  | [], x => by simp [getVarsL, varsL]
  | e :: es, x => by
      simp only [getVarsL, varsL]
      rw [getVarsFold_mem es (sortDedup ([] ++ get_variables e)) x]
      simp [sortDedup_mem, get_variables_mem e x, List.mem_append]

/-- The get_variables fold accumulates exactly the members. -/
theorem getVarsFold_mem : ∀ (as : List Expr) (acc : List String) (x : String),
    x ∈ getVarsFold acc as ↔ x ∈ acc ∨ x ∈ varsL as
  | [], acc, x => by simp [getVarsFold, varsL]
  | e :: es, acc, x => by
      simp only [getVarsFold, varsL]
      rw [getVarsFold_mem es (sortDedup (acc ++ get_variables e)) x]
      simp [sortDedup_mem, get_variables_mem e x, List.mem_append, or_assoc]

end

/-- The deduced variable list collects exactly the names occurring in the
system. -/
theorem deduce_vars_mem (v_ex : List Expr) (x : String) :
    x ∈ deduce_vars v_ex ↔ ∃ e ∈ v_ex, x ∈ varsB e := by
  have key : ∀ (es : List Expr) (acc : List String),
      x ∈ es.foldl (fun acc ex => sortDedup (acc ++ get_variables ex)) acc
        ↔ x ∈ acc ∨ ∃ e ∈ es, x ∈ varsB e := by
    intro es
    induction es with
    | nil => intro acc; simp
    | cons e es ih =>
        intro acc
        simp only [List.foldl_cons]
        rw [ih (sortDedup (acc ++ get_variables e))]
        simp [sortDedup_mem, get_variables_mem e x, List.mem_append, or_assoc]
  rw [deduce_vars, key]
  simp

/-- In a decomposition seeded with the state variables, the substitution
map sends `u_j` back to the j-th state variable, provided no state
variable wears the internal prefix. -/
theorem seeds_lookup (vars : List String) (W : List Expr) (K j : ℕ)
    (hnames : ∀ v ∈ vars, uPrefixed v = false) (hj : j < vars.length) (hK : j < K) :
    (subs_map_upto (vars.map Expr.var ++ W) K).lookup (uname j)
      = some (.var (vars.getD j "")) := by
  rw [smu_lookup_lt K j _ hK]
  have hgd : (vars.map Expr.var ++ W).getD j (.num 0) = .var (vars.getD j "") := by
    rw [List.getD_append _ _ _ _ (by simpa using hj),
      List.getD_eq_getElem _ _ (by simpa using hj), List.getElem_map,
      List.getD_eq_getElem _ _ hj]
  rw [hgd]
  simp only [subsE]
  rw [smu_lookup_none j _ _ (fun j' hj' =>
    ne_uname_of_not_uPrefixed (hnames _ (getD_mem_of_lt vars j "" hj)) j')]
  rfl

/-- Expanding the u-variables undoes the canonical renaming: substituting
the seed definitions into a renamed expression recovers the original,
provided no original variable wears the internal prefix. -/
theorem rename_roundtrip (vars : List String) (X : List Expr) (K : ℕ) (e : Expr)
    (hnames : ∀ v ∈ vars, uPrefixed v = false)
    (hcov : ∀ x ∈ varsB e, x ∈ vars) (hK : vars.length ≤ K)
    (hX : ∃ W, X = vars.map Expr.var ++ W) :
    subsE (subs_map_upto X K)
      (rename_variables (mkReplMap 0 vars) e) = e := by
  obtain ⟨W, rfl⟩ := hX
  refine Eq.trans (subsE_rename e (mkReplMap 0 vars) []
    (subs_map_upto (vars.map Expr.var ++ W) K) ?_) (subsE_nil e)
  intro x hx
  obtain ⟨k, hk, hget, hlook⟩ := mkReplMap_lookup vars 0 x (hcov x hx)
  rw [hlook]
  show applySub _ (uname (0 + k)) = applySub [] x
  rw [Nat.zero_add]
  unfold applySub
  rw [seeds_lookup vars W K k hnames hk (by omega)]
  simp only [Option.getD_some, List.lookup]
  rw [hget]
  rfl

/-- The pre-CSE output of taylor_decompose: its seed/middle/tail shape,
well-formedness, and the fact that expanding all u-variables into each
tail entry recovers the corresponding original right-hand side. -/
theorem tdp_main (v_ex dcPre : List Expr)
    (hres : taylor_decompose_pre v_ex = some dcPre) :
    ∃ U' cs : List Expr,
      dcPre = U' ++ cs
      ∧ cs.length = v_ex.length
      ∧ v_ex.length ≤ U'.length
      ∧ (∃ W, U' = (deduce_vars v_ex).map Expr.var ++ W)
      ∧ (deduce_vars v_ex).length = v_ex.length
      ∧ WFfrom v_ex.length dcPre
      ∧ (∀ i, i < v_ex.length →
          PvarsBelow U'.length (cs.getD i (.num 0))
          ∧ ((∃ q, cs.getD i (.num 0) = .num q) ∨ (∃ s, cs.getD i (.num 0) = .var s)))
      ∧ ((∀ x, (∃ e ∈ v_ex, x ∈ varsB e) → uPrefixed x = false) →
          ∀ i, i < v_ex.length →
            subsE (subs_map_upto dcPre U'.length) (cs.getD i (.num 0))
              = v_ex.getD i (.num 0)) := by
  unfold taylor_decompose_pre at hres
  by_cases hemp : v_ex.isEmpty = true
  · rw [if_pos hemp] at hres
    simp at hres
  · rw [if_neg hemp] at hres
    by_cases hlen : (deduce_vars v_ex).length ≠ v_ex.length
    · rw [if_pos hlen] at hres
      simp at hres
    · rw [if_neg hlen] at hres
      dsimp only at hres
      push_neg at hlen
      have hn0 : 0 < v_ex.length := by
        cases v_ex with
        | nil => simp at hemp
        | cons a l => simp
      cases hdec : decompose_eqs
          (v_ex.map (rename_variables (mkReplMap 0 (deduce_vars v_ex))))
          ((deduce_vars v_ex).map Expr.var) with
      | none => rw [hdec] at hres; simp at hres
      | some p =>
          obtain ⟨U', cs⟩ := p
          rw [hdec] at hres
          dsimp only at hres
          simp only [Option.some.injEq] at hres
          subst hres
          have hseeds_len : ((deduce_vars v_ex).map Expr.var).length = v_ex.length := by
            simp [hlen]
          have h0 : 0 < ((deduce_vars v_ex).map Expr.var).length := by omega
          have hPe : ∀ e ∈ v_ex.map (rename_variables (mkReplMap 0 (deduce_vars v_ex))),
              PvarsBelow ((deduce_vars v_ex).map Expr.var).length e := by
            intro e he
            obtain ⟨e0, he0, rfl⟩ := List.mem_map.mp he
            intro x hx
            rw [varsB_rename] at hx
            obtain ⟨x0, hx0, rfl⟩ := List.mem_map.mp hx
            have hx0v : x0 ∈ deduce_vars v_ex :=
              (deduce_vars_mem v_ex x0).mpr ⟨e0, he0, hx0⟩
            obtain ⟨k, hk, hget, hlook⟩ := mkReplMap_lookup (deduce_vars v_ex) 0 x0 hx0v
            rw [hlook]
            exact ⟨k, by simpa using hk, by simp⟩
          obtain ⟨⟨V, hV⟩, hWFU, hcslen, hall⟩ :=
            decompose_eqs_sound _ _ U' cs hdec h0 hPe
          have hUlen : v_ex.length ≤ U'.length := by
            rw [hV]
            simp [hseeds_len]
          have hWFn : WFfrom v_ex.length U' := by
            refine WFfrom_compose v_ex.length ((deduce_vars v_ex).map Expr.var) U'
              ⟨V, hV⟩ ?_ hWFU
            intro k h1 h2
            rw [hseeds_len] at h2
            exact absurd h1 (by omega)
          have hcslen2 : cs.length = v_ex.length := by simpa using hcslen
          refine ⟨U', cs, rfl, hcslen2, hUlen, ⟨V, hV⟩, hlen, ?_, ?_, ?_⟩
          · intro k hk1 hk2
            by_cases hkU : k < U'.length
            · rw [List.getD_append _ _ _ _ hkU]
              exact hWFn k hk1 hkU
            · rw [List.getD_append_right _ _ _ _ (by omega)]
              have hkb : k - U'.length < v_ex.length := by
                simp only [List.length_append, hcslen2] at hk2
                omega
              obtain ⟨_, hpv, _⟩ := hall (k - U'.length) (by simpa [hseeds_len] using hkb)
              exact PvarsBelow_mono (by omega) hpv
          · intro i hi
            obtain ⟨hsem, hpv, hshape⟩ := hall i (by simpa [hseeds_len] using hi)
            exact ⟨hpv, hshape⟩
          · intro hnames i hi
            have hvnames : ∀ v ∈ deduce_vars v_ex, uPrefixed v = false := fun v hv =>
              hnames v ((deduce_vars_mem v_ex v).mp hv)
            obtain ⟨hsem, hpv, hshape⟩ := hall i (by simpa [hseeds_len] using hi)
            rw [msp_append_agree U' cs U'.length (le_refl _), hsem]
            have hmap : (v_ex.map (rename_variables (mkReplMap 0 (deduce_vars v_ex)))).getD
                i (.num 0)
                = rename_variables (mkReplMap 0 (deduce_vars v_ex)) (v_ex.getD i (.num 0)) := by
              rw [List.getD_eq_getElem _ _ (by simpa using hi), List.getElem_map,
                List.getD_eq_getElem _ _ hi]
            rw [hmap]
            exact rename_roundtrip (deduce_vars v_ex) _ _ (v_ex.getD i (.num 0)) hvnames
              (fun x hx => (deduce_vars_mem v_ex x).mpr
                ⟨v_ex.getD i (.num 0), getD_mem_of_lt v_ex i (Expr.num 0) hi, hx⟩)
              (by simp) ⟨[], by simp⟩

/-- A successful lookup exhibits its pair in the list. -/
theorem lookup_mem {α β : Type} [DecidableEq α] [BEq α] [LawfulBEq α] :
    ∀ (m : List (α × β)) (x : α) (v : β), m.lookup x = some v → (x, v) ∈ m
  | [], _, _, h => by cases h
  | (k, w) :: es, x, v, h => by
      rw [lookup_cons_eqv] at h
      by_cases hk : x = k
      · rw [if_pos hk] at h
        cases h
        simp [hk]
      · rw [if_neg hk] at h
        exact List.mem_cons_of_mem _ (lookup_mem es x v h)

/-- Entries below the seed cut agree between two lists with equal take. -/
theorem take_getD_agree (X dc : List Expr) (n j : ℕ) (ht : X.take n = dc.take n)
    (hj : j < n) (hX : n ≤ X.length) (hdc : n ≤ dc.length) :
    X.getD j (.num 0) = dc.getD j (.num 0) := by
  have h1 : X.getD j (.num 0) = (X.take n).getD j (.num 0) := by
    rw [List.getD_eq_getElem _ _ (by omega),
      List.getD_eq_getElem _ _ (by simp; omega)]
    rw [List.getElem_take]
  have h2 : dc.getD j (.num 0) = (dc.take n).getD j (.num 0) := by
    rw [List.getD_eq_getElem _ _ (by omega),
      List.getD_eq_getElem _ _ (by simp; omega)]
    rw [List.getElem_take]
  rw [h1, h2, ht]

/-- Below the seed cut, the full substitution maps of the kept list and of
the original decomposition agree. -/
theorem seed_lookup_agree (X dc : List Expr) (n j : ℕ) (ht : X.take n = dc.take n)
    (hj : j < n) (hX : n ≤ X.length) (hdc : n ≤ dc.length) :
    (subs_map_upto X X.length).lookup (uname j)
      = (subs_map_upto dc dc.length).lookup (uname j) := by
  rw [smu_lookup_lt X.length j X (by omega), smu_lookup_lt dc.length j dc (by omega)]
  rw [take_getD_agree X dc n j ht hj hX hdc,
    smu_agree j X dc (fun j' hj' => take_getD_agree X dc n j' ht (by omega) hX hdc)]

/-- Renaming a middle entry through the CSE state keeps all its variables
inside the kept list. -/
theorem cse_ren_vars (dc : List Expr) (n i : ℕ) st (hInv : CseInv dc n i st)
    (ex : Expr) (hex : PvarsBelow i ex) (hni : n ≤ i) :
    PvarsBelow st.1.length (rename_variables st.2.2 ex) := by
  obtain ⟨hA1, hA2, hWFR, hA3, hA3b, hA4⟩ := hInv
  intro x hx
  rw [varsB_rename] at hx
  obtain ⟨x0, hx0, rfl⟩ := List.mem_map.mp hx
  obtain ⟨j, hj, rfl⟩ := hex x0 hx0
  by_cases hjn : j < n
  · rw [hA3b (uname j) (fun j' h1 h2 hne => by have := uname_inj hne; omega)]
    exact ⟨j, by omega, by simp⟩
  · obtain ⟨k, hk1, hk2, hren, _⟩ := hA3 j (by omega) hj
    rw [hren]
    exact ⟨k, hk2, by simp⟩

/-- The central semantic fact of the CSE pass: substituting the kept
list's definitions into a renamed entry gives the same expression as
substituting the original decomposition's definitions into the entry. -/
theorem cse_rename_sem (dc : List Expr) (n i : ℕ) st (hInv : CseInv dc n i st)
    (ex : Expr) (hex : PvarsBelow i ex) (hni : n ≤ i) (hdc : n ≤ dc.length)
    (hidc : i ≤ dc.length) :
    subsE (subs_map_upto st.1 st.1.length) (rename_variables st.2.2 ex)
      = subsE (subs_map_upto dc dc.length) ex := by
  obtain ⟨hA1, hA2, hWFR, hA3, hA3b, hA4⟩ := hInv
  apply subsE_rename
  intro x hx
  obtain ⟨j, hj, rfl⟩ := hex x hx
  by_cases hjn : j < n
  · rw [hA3b (uname j) (fun j' h1 h2 hne => by have := uname_inj hne; omega)]
    simp only [Option.getD_none]
    unfold applySub
    rw [seed_lookup_agree st.1 dc n j hA2 hjn hA1 hdc]
  · obtain ⟨k, hk1, hk2, hren, hval⟩ := hA3 j (by omega) hj
    rw [hren]
    simp only [Option.getD_some]
    unfold applySub
    rw [hval, smu_lookup_lt dc.length j dc (by omega)]
    rfl

/-- One CSE step preserves the semantic invariant. -/
theorem cse_step_inv (dc : List Expr) (n i : ℕ) st (hInv : CseInv dc n i st)
    (hni : n ≤ i) (hi : i < dc.length) (hndc : n ≤ dc.length)
    (hWFdc : WFfrom n dc) :
    CseInv dc n (i + 1) (cse_step st i (dc.getD i (.num 0))) := by
  obtain ⟨R, exmap, ren⟩ := st
  have hex : PvarsBelow i (dc.getD i (.num 0)) := hWFdc i hni hi
  have hKEY := cse_rename_sem dc n i (R, exmap, ren) hInv (dc.getD i (.num 0)) hex hni hndc
    (by omega)
  have hvars2 := cse_ren_vars dc n i (R, exmap, ren) hInv (dc.getD i (.num 0)) hex hni
  dsimp only at hvars2
  obtain ⟨hA1, hA2, hWFR, hA3, hA3b, hA4⟩ := hInv
  dsimp only at hA1 hA2 hWFR hA3 hA3b hA4
  have hdcval : (subs_map_upto dc dc.length).lookup (uname i)
      = some (subsE (subs_map_upto dc dc.length) (dc.getD i (.num 0))) := by
    rw [smu_lookup_lt dc.length i dc hi,
      subsE_smu_stable _ dc i dc.length (by omega) hex]
  unfold cse_step
  dsimp only
  cases hfind : exmap.lookup (rename_variables ren (dc.getD i (.num 0))) with
  | some k =>
      obtain ⟨hk1, hk2, hgk⟩ := hA4 _ (lookup_mem exmap _ k hfind)
      refine ⟨hA1, hA2, hWFR, ?_, ?_, hA4⟩
      · intro j h1 h2
        by_cases hji : j < i
        · obtain ⟨k2, hk12, hk22, hren, hval⟩ := hA3 j h1 hji
          exact ⟨k2, hk12, hk22, by
            rw [lookup_append_left _ _ _ (by rw [hren]; rfl)]
            exact hren, hval⟩
        · have hj : j = i := by omega
          subst hj
          refine ⟨k, hk1, hk2, ?_, ?_⟩
          · rw [lookup_append_right _ _ _ (hA3b (uname j)
              (fun j2 hj1 hj2 hne => by have := uname_inj hne; omega)),
              lookup_cons_eqv, if_pos rfl]
          · rw [smu_lookup_lt R.length k R hk2, hdcval]
            congr 1
            rw [← subsE_smu_stable (R.getD k (.num 0)) R k R.length (by omega)
              (hWFR k hk1 hk2), hgk]
            exact hKEY
      · intro x hcond
        rw [lookup_append_right _ _ _ (hA3b x
            (fun j2 hj1 hj2 => hcond j2 hj1 (by omega))),
          lookup_cons_eqv, if_neg (hcond i hni (by omega))]
        rfl
  | none =>
      have htake : (R ++ [rename_variables ren (dc.getD i (.num 0))]).take n
          = dc.take n := by
        rw [List.take_append_of_le_length hA1, hA2]
      have hmspR2 : subs_map_upto (R ++ [rename_variables ren (dc.getD i (.num 0))]) R.length
          = subs_map_upto R R.length := msp_append_agree R _ R.length (le_refl _)
      refine ⟨by simp; omega, htake, ?_, ?_, ?_, ?_⟩
      · intro k hk1 hk2
        by_cases hkR : k < R.length
        · rw [List.getD_append _ _ _ _ hkR]
          exact hWFR k hk1 hkR
        · have hk : k = R.length := by
            simp only [List.length_append, List.length_cons, List.length_nil] at hk2
            omega
          subst hk
          rw [show ((R ++ [rename_variables ren (dc.getD i (.num 0))]).getD
            R.length (.num 0)) = rename_variables ren (dc.getD i (.num 0)) from by simp]
          exact hvars2
      · intro j h1 h2
        by_cases hji : j < i
        · obtain ⟨k2, hk12, hk22, hren, hval⟩ := hA3 j h1 hji
          refine ⟨k2, hk12, by simp; omega, by
            rw [lookup_append_left _ _ _ (by rw [hren]; rfl)]
            exact hren, ?_⟩
          have hpres : (subs_map_upto (R ++ [rename_variables ren (dc.getD i (.num 0))])
              (R ++ [rename_variables ren (dc.getD i (.num 0))]).length).lookup (uname k2)
              = (subs_map_upto R R.length).lookup (uname k2) := by
            rw [smu_lookup_lt _ k2 _ (by simp; omega), smu_lookup_lt R.length k2 R hk22,
              List.getD_append _ _ _ _ hk22, msp_append_agree R _ k2 (by omega)]
          rw [hpres]
          exact hval
        · have hj : j = i := by omega
          subst hj
          refine ⟨R.length, hA1, by simp, ?_, ?_⟩
          · rw [lookup_append_right _ _ _ (hA3b (uname j)
              (fun j2 hj1 hj2 hne => by have := uname_inj hne; omega)),
              lookup_cons_eqv, if_pos rfl]
          · rw [smu_lookup_lt _ R.length _ (by simp),
              show ((R ++ [rename_variables ren (dc.getD j (.num 0))]).getD
                R.length (.num 0)) = rename_variables ren (dc.getD j (.num 0)) from by simp,
              hmspR2, hKEY, hdcval]
      · intro x hcond
        rw [lookup_append_right _ _ _ (hA3b x
            (fun j2 hj1 hj2 => hcond j2 hj1 (by omega))),
          lookup_cons_eqv, if_neg (hcond i hni (by omega))]
        rfl
      · intro p hp
        rcases List.mem_append.mp hp with hp1 | hp2
        · obtain ⟨hb1, hb2, hb3⟩ := hA4 p hp1
          exact ⟨hb1, by simp; omega, by
            rw [List.getD_append _ _ _ _ hb2]
            exact hb3⟩
        · simp only [List.mem_singleton] at hp2
          subst hp2
          exact ⟨hA1, by simp, by simp⟩

/-- The CSE loop preserves the semantic invariant along the middle
slice. -/
theorem cse_loop_inv (dc : List Expr) (n : ℕ) (hWFdc : WFfrom n dc)
    (hndc : n ≤ dc.length) :
    ∀ (ms : List Expr) (i : ℕ) st, CseInv dc n i st → n ≤ i →
      i + ms.length ≤ dc.length →
      (∀ t, t < ms.length → ms.getD t (.num 0) = dc.getD (i + t) (.num 0)) →
      CseInv dc n (i + ms.length) (cse_loop ms i st)
  | [], i, st => by
      intro hInv hni hlen hsl
      simpa using hInv
  | e :: ms, i, st => by
      intro hInv hni hlen hsl
      have he : e = dc.getD i (.num 0) := by
        have h0 := hsl 0 (by simp)
        simpa using h0
      have hilen : i < dc.length := by simp at hlen; omega
      have hstep := cse_step_inv dc n i st hInv hni hilen hndc hWFdc
      have hrec := cse_loop_inv dc n hWFdc hndc ms (i + 1)
        (cse_step st i (dc.getD i (.num 0))) hstep (by omega)
        (by simp at hlen; omega)
        (fun t ht => by
          have h1 := hsl (t + 1) (by simp; omega)
          rw [List.getD_cons_succ] at h1
          rw [h1]
          congr 1
          omega)
      simp only [cse_loop]
      have harith : i + (e :: ms).length = i + 1 + ms.length := by simp; omega
      rw [harith, he]
      exact hrec

/-- The pre-CSE and post-CSE reconstruction facts for a successfully
decomposed system whose variables avoid the internal prefix. -/
theorem cse_main (v_ex dcPre : List Expr)
    (hnames : ∀ x, (∃ e ∈ v_ex, x ∈ varsB e) → uPrefixed x = false)
    (hpre : taylor_decompose_pre v_ex = some dcPre) :
    2 * v_ex.length ≤ dcPre.length
    ∧ 2 * v_ex.length ≤ (taylor_decompose_cse dcPre v_ex.length).length
    ∧ (∀ i, i < v_ex.length →
        subsE (subs_map_upto dcPre (dcPre.length - v_ex.length))
          (dcPre.getD (dcPre.length - v_ex.length + i) (.num 0)) = v_ex.getD i (.num 0))
    ∧ (∀ i, i < v_ex.length →
        subsE (subs_map_upto (taylor_decompose_cse dcPre v_ex.length)
            ((taylor_decompose_cse dcPre v_ex.length).length - v_ex.length))
          ((taylor_decompose_cse dcPre v_ex.length).getD
            ((taylor_decompose_cse dcPre v_ex.length).length - v_ex.length + i) (.num 0))
          = v_ex.getD i (.num 0)) := by
  obtain ⟨U', cs, hdc, hcslen, hUlen, ⟨W, hW⟩, hvlen, hWFpre, hper, hrec⟩ :=
    tdp_main v_ex dcPre hpre
  have hreci := hrec hnames
  have hM : dcPre.length = U'.length + v_ex.length := by rw [hdc]; simp [hcslen]
  have hMn : dcPre.length - v_ex.length = U'.length := by omega
  have htake : dcPre.take (dcPre.length - v_ex.length) = U' := by
    rw [hMn, hdc, List.take_left]
  have hdrop : dcPre.drop (dcPre.length - v_ex.length) = cs := by
    rw [hMn, hdc, List.drop_left]
  have hInv0 : CseInv dcPre v_ex.length v_ex.length (dcPre.take v_ex.length, [], []) := by
    refine ⟨?_, ?_, ?_, ?_, ?_, ?_⟩
    · simp only [List.length_take]
      omega
    · rw [List.take_take]
      simp
    · intro k h1 h2
      simp only [List.length_take] at h2
      exact absurd h1 (by omega)
    · intro j h1 h2
      exact absurd h1 (by omega)
    · intro x hc
      rfl
    · intro p hp
      simp at hp
  have hloop := cse_loop_inv dcPre v_ex.length hWFpre (by omega)
    (U'.drop v_ex.length) v_ex.length (dcPre.take v_ex.length, [], []) hInv0
    (le_refl _) (by simp; omega)
    (fun t ht => by
      simp only [List.length_drop] at ht
      have hgd : dcPre.getD (v_ex.length + t) (.num 0)
          = U'.getD (v_ex.length + t) (.num 0) := by
        rw [hdc, List.getD_append _ _ _ _ (by omega)]
      rw [hgd, List.getD_eq_getElem _ _ (by simp only [List.length_drop]; omega),
        List.getD_eq_getElem _ _ (by omega), List.getElem_drop])
  have harith : v_ex.length + (U'.drop v_ex.length).length = U'.length := by
    simp only [List.length_drop]
    omega
  rw [harith] at hloop
  have hOUT : taylor_decompose_cse dcPre v_ex.length
      = (cse_loop (U'.drop v_ex.length) v_ex.length
          (dcPre.take v_ex.length, [], [])).1
        ++ cs.map (rename_variables
          (cse_loop (U'.drop v_ex.length) v_ex.length
            (dcPre.take v_ex.length, [], [])).2.2) := by
    unfold taylor_decompose_cse
    rw [htake, hdrop]
  obtain ⟨hF1, hF2, hWFF, hFA3, hFA3b, hFA4⟩ := hloop
  have hOlen : (taylor_decompose_cse dcPre v_ex.length).length
      = (cse_loop (U'.drop v_ex.length) v_ex.length
          (dcPre.take v_ex.length, [], [])).1.length + v_ex.length := by
    rw [hOUT]
    simp [hcslen]
  refine ⟨by omega, by omega, ?_, ?_⟩
  · intro i hi
    have hgd : dcPre.getD (dcPre.length - v_ex.length + i) (.num 0)
        = cs.getD i (.num 0) := by
      rw [hMn, hdc, List.getD_append_right _ _ _ _ (by omega)]
      congr 1
      omega
    rw [hgd, hMn]
    exact hreci i hi
  · intro i hi
    have hFInv : CseInv dcPre v_ex.length U'.length
        (cse_loop (U'.drop v_ex.length) v_ex.length
          (dcPre.take v_ex.length, [], [])) :=
      ⟨hF1, hF2, hWFF, hFA3, hFA3b, hFA4⟩
    have hOMn : (taylor_decompose_cse dcPre v_ex.length).length - v_ex.length
        = (cse_loop (U'.drop v_ex.length) v_ex.length
            (dcPre.take v_ex.length, [], [])).1.length := by omega
    have hgd : (taylor_decompose_cse dcPre v_ex.length).getD
        ((cse_loop (U'.drop v_ex.length) v_ex.length
          (dcPre.take v_ex.length, [], [])).1.length + i) (.num 0)
        = rename_variables
            (cse_loop (U'.drop v_ex.length) v_ex.length
              (dcPre.take v_ex.length, [], [])).2.2 (cs.getD i (.num 0)) := by
      rw [hOUT, List.getD_append_right _ _ _ _ (by omega)]
      have hidx : (cse_loop (U'.drop v_ex.length) v_ex.length
          (dcPre.take v_ex.length, [], [])).1.length + i
          - (cse_loop (U'.drop v_ex.length) v_ex.length
              (dcPre.take v_ex.length, [], [])).1.length = i := by omega
      rw [hidx, List.getD_eq_getElem _ _ (by simp; omega),
        List.getElem_map, List.getD_eq_getElem _ _ (by omega)]
    have hmap : subs_map_upto (taylor_decompose_cse dcPre v_ex.length)
        ((cse_loop (U'.drop v_ex.length) v_ex.length
          (dcPre.take v_ex.length, [], [])).1.length)
        = subs_map_upto (cse_loop (U'.drop v_ex.length) v_ex.length
            (dcPre.take v_ex.length, [], [])).1
          (cse_loop (U'.drop v_ex.length) v_ex.length
            (dcPre.take v_ex.length, [], [])).1.length := by
      rw [hOUT]
      exact msp_append_agree _ _ _ (le_refl _)
    rw [hOMn, hgd, hmap]
    have hsem := cse_rename_sem dcPre v_ex.length U'.length _ hFInv
      (cs.getD i (.num 0)) (hper i hi).1 (by omega) (by omega) (by omega)
    rw [hsem, subsE_smu_stable _ dcPre U'.length dcPre.length (by omega) (hper i hi).1]
    exact hreci i hi

/-- C2 (amended): for every non-empty well-formed system none of whose
variable names starts with the internal prefix "u_", the decomposition
produces a list of length M ≥ 2n whose final n entries, after recursively
substituting every u_i (i < M - n) by its expanded definition, are
structurally equal to the original right-hand sides — both before and
after the CSE pass. Without the prefix condition the property fails
(capture of user variables named like internal ones). -/
theorem taylor_decompose_reconstructs (v_ex dcPre dc : List Expr)
    (hnames : ∀ x, (∃ e ∈ v_ex, x ∈ varsB e) → uPrefixed x = false)
    (hpre : taylor_decompose_pre v_ex = some dcPre)
    (hfull : taylor_decompose v_ex = some dc) :
    (2 * v_ex.length ≤ dcPre.length
      ∧ ∀ i, i < v_ex.length →
          subsE (subs_map_upto dcPre (dcPre.length - v_ex.length))
            (dcPre.getD (dcPre.length - v_ex.length + i) (.num 0))
            = v_ex.getD i (.num 0))
    ∧ (2 * v_ex.length ≤ dc.length
      ∧ ∀ i, i < v_ex.length →
          subsE (subs_map_upto dc (dc.length - v_ex.length))
            (dc.getD (dc.length - v_ex.length + i) (.num 0))
            = v_ex.getD i (.num 0)) := by
  obtain ⟨h1, h2, h3, h4⟩ := cse_main v_ex dcPre hnames hpre
  have hdc : dc = taylor_decompose_cse dcPre v_ex.length := by
    unfold taylor_decompose at hfull
    rw [hpre] at hfull
    dsimp only at hfull
    simp only [Option.some.injEq] at hfull
    exact hfull.symm
  subst hdc
  exact ⟨⟨h1, h3⟩, ⟨h2, h4⟩⟩

/-- Witness for C2 on the system x' = sin(x): the decomposition is
[x, sin(u_0), cos(u_0), u_1] and expanding the u-variables into the tail
entry recovers sin(x). -/
theorem taylor_decompose_reconstructs_witness :
    subsE (subs_map_upto [Expr.var "x", sinE (.var "u_0"), cosE (.var "u_0"),
        Expr.var "u_1"]
        ([Expr.var "x", sinE (.var "u_0"), cosE (.var "u_0"), Expr.var "u_1"].length - 1))
      ([Expr.var "x", sinE (.var "u_0"), cosE (.var "u_0"), Expr.var "u_1"].getD
        ([Expr.var "x", sinE (.var "u_0"), cosE (.var "u_0"), Expr.var "u_1"].length - 1 + 0)
        (.num 0))
      = [sinE (Expr.var "x")].getD 0 (.num 0) :=
  (taylor_decompose_reconstructs [sinE (.var "x")]
    [Expr.var "x", sinE (.var "u_0"), cosE (.var "u_0"), Expr.var "u_1"]
    [Expr.var "x", sinE (.var "u_0"), cosE (.var "u_0"), Expr.var "u_1"]
    (by
      intro x hx
      obtain ⟨e, he, hxe⟩ := hx
      simp only [List.mem_singleton] at he
      subst he
      simp only [sinE, varsB, varsL, List.append_nil, List.mem_singleton] at hxe
      subst hxe
      decide)
    (by decide) (by decide)).2.2 0 (by decide)

/-- Counterexample for C2 as stated: the well-formed system
{a' = u_0, u_0' = a} decomposes successfully, but expanding the
u-variables into the first tail entry gives `a` instead of the original
right-hand side `u_0` — the user variable named u_0 is captured by the
internal renaming. -/
theorem taylor_decompose_capture_cex :
    taylor_decompose [Expr.var "u_0", Expr.var "a"]
        = some [Expr.var "a", Expr.var "u_0", Expr.var "u_1", Expr.var "u_0"]
      ∧ subsE (subs_map_upto [Expr.var "a", Expr.var "u_0", Expr.var "u_1",
            Expr.var "u_0"]
            ([Expr.var "a", Expr.var "u_0", Expr.var "u_1", Expr.var "u_0"].length - 2))
          ([Expr.var "a", Expr.var "u_0", Expr.var "u_1", Expr.var "u_0"].getD
            ([Expr.var "a", Expr.var "u_0", Expr.var "u_1", Expr.var "u_0"].length - 2 + 0)
            (.num 0))
          ≠ [Expr.var "u_0", Expr.var "a"].getD 0 (.num 0) := by
  constructor
  · decide
  · decide

/-- sin and cos calls are built from different records. -/
theorem sinE_ne_cosE (a b : Expr) : sinE a ≠ cosE b := by
  intro h
  simp only [sinE, cosE, Expr.func.injEq] at h
  exact absurd h.1 (by decide)

/-- The empty decomposition keeps companions adjacent. -/
theorem adj_nil : SinCosAdj [] := by
  constructor
  · intro k a hk
    simp at hk
  · intro k a hk
    simp at hk

/-- Appending one non-sin non-cos entry preserves companion adjacency. -/
theorem adj_append_single (U : List Expr) (e0 : Expr) (hadj : SinCosAdj U)
    (hns : NotSinCos e0) : SinCosAdj (U ++ [e0]) := by
  obtain ⟨hs, hc⟩ := hadj
  constructor
  · intro k a hk hval
    by_cases hkU : k < U.length
    · rw [List.getD_append _ _ _ _ hkU] at hval
      obtain ⟨hlt, hcos⟩ := hs k a hkU hval
      refine ⟨by simp; omega, ?_⟩
      rw [List.getD_append _ _ _ _ hlt]
      exact hcos
    · have hkl : k = U.length := by simp at hk; omega
      subst hkl
      rw [show (U ++ [e0]).getD U.length (.num 0) = e0 from by simp] at hval
      exact absurd hval (hns.1 a)
  · intro k a hk hval
    by_cases hkU : k < U.length
    · rw [List.getD_append _ _ _ _ hkU] at hval
      obtain ⟨k', hk', hsin⟩ := hc k a hkU hval
      exact ⟨k', hk', by rw [List.getD_append _ _ _ _ (by omega)]; exact hsin⟩
    · have hkl : k = U.length := by simp at hk; omega
      subst hkl
      rw [show (U ++ [e0]).getD U.length (.num 0) = e0 from by simp] at hval
      exact absurd hval (hns.2 a)

/-- Appending a sin/cos companion pair preserves adjacency. -/
theorem adj_append_pair (U : List Expr) (a : Expr) (hadj : SinCosAdj U) :
    SinCosAdj (U ++ [sinE a, cosE a]) := by
  obtain ⟨hs, hc⟩ := hadj
  have hgd0 : (U ++ [sinE a, cosE a]).getD U.length (.num 0) = sinE a := by
    rw [List.getD_append_right _ _ _ _ (le_refl _)]
    simp
  have hgd1 : (U ++ [sinE a, cosE a]).getD (U.length + 1) (.num 0) = cosE a := by
    rw [List.getD_append_right _ _ _ _ (by omega),
      show U.length + 1 - U.length = 1 from by omega]
    rfl
  constructor
  · intro k b hk hval
    by_cases hkU : k < U.length
    · rw [List.getD_append _ _ _ _ hkU] at hval
      obtain ⟨hlt, hcos⟩ := hs k b hkU hval
      exact ⟨by simp; omega, by rw [List.getD_append _ _ _ _ hlt]; exact hcos⟩
    · by_cases hk0 : k = U.length
      · subst hk0
        rw [hgd0] at hval
        simp only [sinE, Expr.func.injEq, List.cons.injEq, and_true] at hval
        refine ⟨by simp, ?_⟩
        rw [hgd1, hval.2]
      · have hk1 : k = U.length + 1 := by simp at hk; omega
        subst hk1
        rw [hgd1] at hval
        exact absurd hval.symm (sinE_ne_cosE b a)
  · intro k b hk hval
    by_cases hkU : k < U.length
    · rw [List.getD_append _ _ _ _ hkU] at hval
      obtain ⟨k', hk', hsin⟩ := hc k b hkU hval
      exact ⟨k', hk', by rw [List.getD_append _ _ _ _ (by omega)]; exact hsin⟩
    · by_cases hk0 : k = U.length
      · subst hk0
        rw [hgd0] at hval
        exact absurd hval (fun h => sinE_ne_cosE a b h)
      · have hk1 : k = U.length + 1 := by simp at hk; omega
        subst hk1
        rw [hgd1] at hval
        simp only [cosE, Expr.func.injEq, List.cons.injEq, and_true] at hval
        exact ⟨U.length, rfl, by rw [hgd0, hval.2]⟩

/-- A list with no sin/cos entries keeps companions adjacent vacuously. -/
theorem adj_of_all_notsincos (U : List Expr) (h : ∀ e ∈ U, NotSinCos e) :
    SinCosAdj U := by
  constructor
  · intro k a hk hval
    exact absurd hval ((h _ (getD_mem_of_lt U k (.num 0) hk)).1 a)
  · intro k a hk hval
    exact absurd hval ((h _ (getD_mem_of_lt U k (.num 0) hk)).2 a)

/-- Appending non-sin non-cos entries preserves adjacency. -/
theorem adj_append_all : ∀ (V : List Expr) (U : List Expr), SinCosAdj U →
    (∀ e ∈ V, NotSinCos e) → SinCosAdj (U ++ V)
  | [], U, hadj, _ => by simpa using hadj
  | e :: V, U, hadj, hns => by
      have h1 : SinCosAdj ((U ++ [e]) ++ V) :=
        adj_append_all V (U ++ [e]) (adj_append_single U e hadj (hns e (by simp)))
          (fun e2 he2 => hns e2 (by simp [he2]))
      simpa using h1

/-- Renaming keeps argument-list length. -/
theorem renameL_length : ∀ (m : List (String × String)) (as : List Expr),
    (renameL m as).length = as.length
  | _, [] => rfl
  | m, e :: es => by simp [renameL, renameL_length m es]

/-- Renaming preserves not being a sin/cos call. -/
theorem rename_notSinCos (m : List (String × String)) (e : Expr)
    (h : NotSinCos e) : NotSinCos (rename_variables m e) := by
  cases e with
  | num q => exact ⟨fun a ha => by simp [rename_variables, sinE] at ha,
      fun a ha => by simp [rename_variables, cosE] at ha⟩
  | var s => exact ⟨fun a ha => by simp [rename_variables, sinE] at ha,
      fun a ha => by simp [rename_variables, cosE] at ha⟩
  | binop t l r => exact ⟨fun a ha => by simp [rename_variables, sinE] at ha,
      fun a ha => by simp [rename_variables, cosE] at ha⟩
  | func d args =>
      constructor
      · intro a ha
        simp only [rename_variables, sinE, Expr.func.injEq] at ha
        obtain ⟨hd, hargs⟩ := ha
        have hlen : args.length = 1 := by
          have := renameL_length m args
          rw [hargs] at this
          simpa using this.symm
        obtain ⟨a0, rfl⟩ : ∃ a0, args = [a0] := by
          cases args with
          | nil => simp at hlen
          | cons x xs =>
              cases xs with
              | nil => exact ⟨x, rfl⟩
              | cons y ys => simp at hlen
        exact h.1 a0 (by rw [hd]; rfl)
      · intro a ha
        simp only [rename_variables, cosE, Expr.func.injEq] at ha
        obtain ⟨hd, hargs⟩ := ha
        have hlen : args.length = 1 := by
          have := renameL_length m args
          rw [hargs] at this
          simpa using this.symm
        obtain ⟨a0, rfl⟩ : ∃ a0, args = [a0] := by
          cases args with
          | nil => simp at hlen
          | cons x xs =>
              cases xs with
              | nil => exact ⟨x, rfl⟩
              | cons y ys => simp at hlen
        exact h.2 a0 (by rw [hd]; rfl)

/-- Renaming a sin call renames its argument. -/
theorem rename_sinE (m : List (String × String)) (a : Expr) :
    rename_variables m (sinE a) = sinE (rename_variables m a) := rfl

/-- Renaming a cos call renames its argument. -/
theorem rename_cosE (m : List (String × String)) (a : Expr) :
    rename_variables m (cosE a) = cosE (rename_variables m a) := rfl

/-- Looking up a key different from a newly appended one is unchanged. -/
theorem lookup_snoc_ne {β : Type} (m : List (String × β)) (kk : String) (w : β)
    (x : String) (hx : x ≠ kk) :
    (m ++ [(kk, w)]).lookup x = m.lookup x := by
  cases hsome : m.lookup x with
  | some v => rw [lookup_append_left _ _ _ (by rw [hsome]; rfl), hsome]
  | none =>
      rw [lookup_append_right _ _ _ hsome, lookup_cons_eqv, if_neg hx]
      rfl

mutual

/-- taylor_decompose_in_place keeps sin/cos companions adjacent: the sin
and cos rules append the companion pair together, and every other rule
appends a non-sin non-cos node. -/
theorem tdip_adj : ∀ (e : Expr) (U U' : List Expr) (rr : ℕ),
    tdip e U = some (U', rr) → SinCosAdj U → SinCosAdj U'
  | .num _, U, U', rr => by
      intro hres hadj
      simp only [tdip, Option.some.injEq, Prod.mk.injEq] at hres
      obtain ⟨hU, _⟩ := hres
      subst hU
      exact hadj
  | .var _, U, U', rr => by
      intro hres hadj
      simp only [tdip, Option.some.injEq, Prod.mk.injEq] at hres
      obtain ⟨hU, _⟩ := hres
      subst hU
      exact hadj
  | .binop t l r0, U, U', rr => by
      intro hres hadj
      unfold tdip at hres
      cases hl : tdip l U with
      | none => rw [hl] at hres; simp at hres
      | some p =>
          obtain ⟨U1, dl⟩ := p
          rw [hl] at hres
          dsimp only at hres
          cases hr : tdip r0 U1 with
          | none => rw [hr] at hres; simp at hres
          | some p2 =>
              obtain ⟨U2, dr⟩ := p2
              rw [hr] at hres
              dsimp only at hres
              simp only [Option.some.injEq, Prod.mk.injEq] at hres
              obtain ⟨hU, _⟩ := hres
              subst hU
              exact adj_append_single U2 _
                (tdip_adj r0 U1 U2 dr hr (tdip_adj l U U1 dl hl hadj))
                ⟨fun a h => by simp [sinE] at h, fun a h => by simp [cosE] at h⟩
  | .func d args, U, U', rr => by
      intro hres hadj
      unfold tdip at hres
      by_cases hd : d = sin_data
      · rw [if_pos hd] at hres
        have hargs1 : ∃ a, args = [a] := by
          cases args with
          | nil => simp at hres
          | cons a rest =>
              cases rest with
              | nil => exact ⟨a, rfl⟩
              | cons b rest2 => simp at hres
        obtain ⟨a, rfl⟩ := hargs1
        dsimp only at hres
        cases ha : tdip a U with
        | none => rw [ha] at hres; simp at hres
        | some p =>
            obtain ⟨U1, da⟩ := p
            rw [ha] at hres
            dsimp only at hres
            simp only [Option.some.injEq, Prod.mk.injEq] at hres
            obtain ⟨hU, _⟩ := hres
            subst hU
            subst hd
            exact adj_append_pair U1 _ (tdip_adj a U U1 da ha hadj)
      · rw [if_neg hd] at hres
        by_cases hdc : d = cos_data
        · rw [if_pos hdc] at hres
          have hargs1 : ∃ a, args = [a] := by
            cases args with
            | nil => simp at hres
            | cons a rest =>
                cases rest with
                | nil => exact ⟨a, rfl⟩
                | cons b rest2 => simp at hres
          obtain ⟨a, rfl⟩ := hargs1
          dsimp only at hres
          cases ha : tdip a U with
          | none => rw [ha] at hres; simp at hres
          | some p =>
              obtain ⟨U1, da⟩ := p
              rw [ha] at hres
              dsimp only at hres
              simp only [Option.some.injEq, Prod.mk.injEq] at hres
              obtain ⟨hU, _⟩ := hres
              subst hU
              subst hdc
              exact adj_append_pair U1 _ (tdip_adj a U U1 da ha hadj)
        · rw [if_neg hdc] at hres
          by_cases htd : d.has_taylor_decompose_f = true
          · rw [if_pos htd] at hres
            cases hargs : tdipArgs args U with
            | none => rw [hargs] at hres; simp at hres
            | some p =>
                obtain ⟨U1, args2⟩ := p
                rw [hargs] at hres
                dsimp only at hres
                simp only [Option.some.injEq, Prod.mk.injEq] at hres
                obtain ⟨hU, _⟩ := hres
                subst hU
                refine adj_append_single U1 _
                  (tdipArgs_adj args U U1 args2 hargs hadj) ⟨?_, ?_⟩
                · intro a h
                  simp only [sinE, Expr.func.injEq] at h
                  exact absurd h.1 hd
                · intro a h
                  simp only [cosE, Expr.func.injEq] at h
                  exact absurd h.1 hdc
          · rw [if_neg htd] at hres
            simp at hres

/-- The default argument loop keeps sin/cos companions adjacent. -/
theorem tdipArgs_adj : ∀ (as : List Expr) (U U' : List Expr) (as2 : List Expr),
    tdipArgs as U = some (U', as2) → SinCosAdj U → SinCosAdj U'
  | [], U, U', as2 => by
      intro hres hadj
      simp only [tdipArgs, Option.some.injEq, Prod.mk.injEq] at hres
      obtain ⟨hU, _⟩ := hres
      subst hU
      exact hadj
  | a :: as, U, U', as2 => by
      intro hres hadj
      unfold tdipArgs at hres
      cases ha : tdip a U with
      | none => rw [ha] at hres; simp at hres
      | some p =>
          obtain ⟨U1, da⟩ := p
          rw [ha] at hres
          dsimp only at hres
          cases has : tdipArgs as U1 with
          | none => rw [has] at hres; simp at hres
          | some p2 =>
              obtain ⟨U2, as2'⟩ := p2
              rw [has] at hres
              dsimp only at hres
              simp only [Option.some.injEq, Prod.mk.injEq] at hres
              obtain ⟨hU, _⟩ := hres
              subst hU
              exact tdipArgs_adj as U1 U2 as2' has (tdip_adj a U U1 da ha hadj)

end

/-- The per-equation loop keeps sin/cos companions adjacent. -/
theorem decompose_eqs_adj : ∀ (es U U' cs : List Expr),
    decompose_eqs es U = some (U', cs) → SinCosAdj U → SinCosAdj U'
  | [], U, U', cs => by
      intro hres hadj
      simp only [decompose_eqs, Option.some.injEq, Prod.mk.injEq] at hres
      obtain ⟨hU, _⟩ := hres
      subst hU
      exact hadj
  | e :: es, U, U', cs => by
      intro hres hadj
      unfold decompose_eqs at hres
      cases ht : tdip e U with
      | none => rw [ht] at hres; simp at hres
      | some p =>
          obtain ⟨U1, r⟩ := p
          rw [ht] at hres
          dsimp only at hres
          cases hds : decompose_eqs es U1 with
          | none => rw [hds] at hres; simp at hres
          | some p2 =>
              obtain ⟨U2, cs'⟩ := p2
              rw [hds] at hres
              dsimp only at hres
              simp only [Option.some.injEq, Prod.mk.injEq] at hres
              obtain ⟨hU, _⟩ := hres
              subst hU
              exact decompose_eqs_adj es U1 U2 cs' hds (tdip_adj e U U1 r ht hadj)

/-- A number or variable entry is not a sin/cos call. -/
theorem numvar_notSinCos (e : Expr)
    (h : (∃ q, e = .num q) ∨ (∃ s, e = .var s)) : NotSinCos e := by
  rcases h with ⟨q, rfl⟩ | ⟨s, rfl⟩
  · exact ⟨fun a ha => by simp [sinE] at ha, fun a ha => by simp [cosE] at ha⟩
  · exact ⟨fun a ha => by simp [sinE] at ha, fun a ha => by simp [cosE] at ha⟩

/-- The pre-CSE decomposition keeps sin/cos companions adjacent, its
seeds are plain variables and its tails are numbers or variables. -/
theorem tdp_adj (v_ex dcPre : List Expr)
    (hres : taylor_decompose_pre v_ex = some dcPre) : SinCosAdj dcPre := by
  obtain ⟨U', cs, hdc, hcslen, hUlen, ⟨W, hW⟩, hvlen, hWFpre, hper, _⟩ :=
    tdp_main v_ex dcPre hres
  have hUadj : SinCosAdj U' := by
    unfold taylor_decompose_pre at hres
    by_cases hemp : v_ex.isEmpty = true
    · rw [if_pos hemp] at hres
      simp at hres
    · rw [if_neg hemp] at hres
      by_cases hlen : (deduce_vars v_ex).length ≠ v_ex.length
      · rw [if_pos hlen] at hres
        simp at hres
      · rw [if_neg hlen] at hres
        dsimp only at hres
        have hn0 : 0 < v_ex.length := by
          cases v_ex with
          | nil => simp at hemp
          | cons a l => simp
        cases hdec : decompose_eqs
            (v_ex.map (rename_variables (mkReplMap 0 (deduce_vars v_ex))))
            ((deduce_vars v_ex).map Expr.var) with
        | none => rw [hdec] at hres; simp at hres
        | some p =>
            obtain ⟨U2, cs2⟩ := p
            rw [hdec] at hres
            dsimp only at hres
            simp only [Option.some.injEq] at hres
            have hseeds : SinCosAdj ((deduce_vars v_ex).map Expr.var) := by
              apply adj_of_all_notsincos
              intro e he
              obtain ⟨v, _, rfl⟩ := List.mem_map.mp he
              exact numvar_notSinCos _ (.inr ⟨v, rfl⟩)
            have h2 := decompose_eqs_adj _ _ U2 cs2 hdec hseeds
            -- dcPre = U2 ++ cs2 and dcPre = U' ++ cs with |cs| = |cs2| = n:
            -- U' and U2 coincide
            have hU2 : U' = U2 := by
              have hlen2 : cs2.length = v_ex.length := by
                obtain ⟨⟨V2, _⟩, _, hlc, _⟩ := decompose_eqs_sound _ _ U2 cs2 hdec
                  (by simp; omega)
                  (by
                    intro e2 he2
                    obtain ⟨e0, he0, rfl⟩ := List.mem_map.mp he2
                    intro x hx
                    rw [varsB_rename] at hx
                    obtain ⟨x0, hx0, rfl⟩ := List.mem_map.mp hx
                    obtain ⟨k, hk, hget, hlook⟩ := mkReplMap_lookup (deduce_vars v_ex) 0 x0
                      ((deduce_vars_mem v_ex x0).mpr ⟨e0, he0, hx0⟩)
                    rw [hlook]
                    exact ⟨k, by simpa using hk, by simp⟩)
                simpa using hlc
              have happ : U' ++ cs = U2 ++ cs2 := by rw [← hdc, ← hres]
              have hlu : U'.length = U2.length := by
                have := congrArg List.length happ
                simp only [List.length_append] at this
                omega
              have := congrArg (List.take U'.length) happ
              rwa [List.take_left, hlu, List.take_left] at this
            rw [hU2]
            exact h2
  rw [hdc]
  apply adj_append_all
  · exact hUadj
  · intro e he
    obtain ⟨i, hi, rfl⟩ : ∃ i, i < cs.length ∧ cs.getD i (.num 0) = e := by
      obtain ⟨i, hi, hgi⟩ := List.mem_iff_getElem.mp he
      exact ⟨i, hi, by rw [List.getD_eq_getElem _ _ hi, hgi]⟩
    exact numvar_notSinCos _ (hper i (by omega)).2

/-- The middle region of an adjacency-respecting decomposition whose tail
region holds no sin/cos entries splits into companion pairs and single
non-sin/cos entries. -/
theorem blocky_slice (dc : List Expr) (n : ℕ) (hadj : SinCosAdj dc)
    (htail : ∀ k, dc.length - n ≤ k → k < dc.length → NotSinCos (dc.getD k (.num 0))) :
    ∀ (len : ℕ) (ms : List Expr) (i : ℕ), ms.length = len → n ≤ i →
      i + len = dc.length - n →
      (∀ t, t < len → ms.getD t (.num 0) = dc.getD (i + t) (.num 0)) →
      (∀ a, dc.getD i (.num 0) ≠ cosE a) →
      Blocky ms := by
  intro len
  induction len using Nat.strong_induction_on with
  | _ len IH =>
      intro ms i hml hni hiend hsl hnc
      cases ms with
      | nil => exact Blocky.nil
      | cons e1 ms' =>
          have hlen1 : ms'.length + 1 = len := by simpa using hml
          have he1 : e1 = dc.getD i (.num 0) := by
            have h0 := hsl 0 (by omega)
            simpa using h0
          have hilt : i < dc.length - n := by omega
          by_cases hsin : ∃ a, e1 = sinE a
          · obtain ⟨a, ha⟩ := hsin
            have hdci : dc.getD i (.num 0) = sinE a := by rw [← he1, ha]
            have hadj1 := hadj.1 i a (by omega) hdci
            have hi1 : i + 1 < dc.length - n := by
              by_contra hcon
              push_neg at hcon
              exact (htail (i + 1) hcon hadj1.1).2 a hadj1.2
            cases ms' with
            | nil =>
                have hl1 : len = 1 := by simpa using hlen1.symm
                exact absurd hi1 (by omega)
            | cons e2 ms'' =>
                have hm2 : ms''.length + 2 = len := by simpa using hml
                have he2 : e2 = dc.getD (i + 1) (.num 0) := by
                  have h1 := hsl 1 (by omega)
                  simpa using h1
                have he2c : e2 = cosE a := by rw [he2, hadj1.2]
                subst ha
                subst he2c
                refine Blocky.pair a ms'' ?_
                refine IH (len - 2) (by omega) ms'' (i + 2) (by omega) (by omega)
                  (by omega) ?_ ?_
                · intro t ht
                  have h2 := hsl (t + 2) (by omega)
                  simp only [List.getD_cons_succ] at h2
                  rw [h2]
                  congr 1
                  omega
                · intro b hb
                  by_cases hlt : i + 2 < dc.length
                  · obtain ⟨k', hk', hsin'⟩ := hadj.2 (i + 2) b hlt hb
                    have hk'i : k' = i + 1 := by omega
                    subst hk'i
                    rw [hadj1.2] at hsin'
                    exact sinE_ne_cosE b a hsin'.symm
                  · rw [List.getD_eq_default _ _ (by omega)] at hb
                    simp [cosE] at hb
          · by_cases hcos : ∃ a, e1 = cosE a
            · obtain ⟨a, ha⟩ := hcos
              exact absurd (he1.symm.trans ha) (hnc a)
            · push_neg at hsin hcos
              refine Blocky.single e1 ms' ⟨hsin, hcos⟩ ?_
              refine IH (len - 1) (by omega) ms' (i + 1) (by omega) (by omega)
                (by omega) ?_ ?_
              · intro t ht
                have h1 := hsl (t + 1) (by omega)
                simp only [List.getD_cons_succ] at h1
                rw [h1]
                congr 1
                omega
              · intro b hb
                by_cases hlt : i + 1 < dc.length
                · obtain ⟨k', hk', hsin'⟩ := hadj.2 (i + 1) b hlt hb
                  have hk'i : k' = i := by omega
                  subst hk'i
                  rw [← he1] at hsin'
                  exact hsin b hsin'
                · rw [List.getD_eq_default _ _ (by omega)] at hb
                  simp [cosE] at hb

/-- A CSE step on a non-sin non-cos entry preserves the adjacency
invariant. -/
theorem cse_adj_step_single (n i : ℕ) st (hInv : CseAdjInv n st) (e : Expr)
    (hNSC : NotSinCos e) : CseAdjInv n (cse_step st i e) := by
  obtain ⟨R, exmap, ren⟩ := st
  obtain ⟨hA1, hadjR, hseeds, hA4, hA4rev⟩ := hInv
  dsimp only at hA1 hadjR hseeds hA4 hA4rev
  unfold cse_step
  dsimp only
  cases hfind : exmap.lookup (rename_variables ren e) with
  | some j => exact ⟨hA1, hadjR, hseeds, hA4, hA4rev⟩
  | none =>
      refine ⟨by simp; omega, ?_, ?_, ?_, ?_⟩
      · exact adj_append_single R _ hadjR (rename_notSinCos ren e hNSC)
      · intro k hk
        rw [List.getD_append _ _ _ _ (by omega)]
        exact hseeds k hk
      · intro p hp
        rcases List.mem_append.mp hp with hp1 | hp2
        · obtain ⟨hb1, hb2, hb3⟩ := hA4 p hp1
          exact ⟨hb1, by simp; omega, by
            rw [List.getD_append _ _ _ _ hb2]
            exact hb3⟩
        · simp only [List.mem_singleton] at hp2
          subst hp2
          exact ⟨hA1, by simp, by simp⟩
      · intro k hk1 hk2
        by_cases hkR : k < R.length
        · rw [List.getD_append _ _ _ _ hkR]
          exact (lookup_append_left _ _ _ (hA4rev k hk1 hkR)) ▸ hA4rev k hk1 hkR
        · have hkl : k = R.length := by
            simp only [List.length_append, List.length_cons, List.length_nil] at hk2
            omega
          subst hkl
          rw [show ((R ++ [rename_variables ren e]).getD R.length (.num 0))
            = rename_variables ren e from by simp]
          rw [lookup_append_right _ _ _ hfind, lookup_cons_eqv, if_pos rfl]
          rfl

/-- A CSE step pair on sin/cos companions preserves the adjacency
invariant: companions are kept together or dropped together. -/
theorem cse_adj_step_pair (n i : ℕ) st (hInv : CseAdjInv n st) (a : Expr)
    (hvars : ∀ x ∈ varsB a, ∃ j, j < i ∧ x = uname j) (hni : n ≤ i) :
    CseAdjInv n (cse_step (cse_step st i (sinE a)) (i + 1) (cosE a)) := by
  obtain ⟨R, exmap, ren⟩ := st
  obtain ⟨hA1, hadjR, hseeds, hA4, hA4rev⟩ := hInv
  dsimp only at hA1 hadjR hseeds hA4 hA4rev
  have hren_eq : ∀ w : String,
      rename_variables (ren ++ [(uname i, w)]) a = rename_variables ren a := by
    intro w
    apply rename_congr
    intro x hx
    obtain ⟨j, hj, rfl⟩ := hvars x hx
    exact lookup_snoc_ne ren (uname i) w (uname j)
      (fun h => by have := uname_inj h; omega)
  unfold cse_step
  dsimp only
  rw [rename_sinE]
  cases hfind1 : exmap.lookup (sinE (rename_variables ren a)) with
  | some k =>
      dsimp only
      rw [rename_cosE, hren_eq]
      obtain ⟨hk1, hk2, hgk⟩ := hA4 _ (lookup_mem exmap _ k hfind1)
      have hadjk := hadjR.1 k (rename_variables ren a) hk2 hgk
      have hsomec := hA4rev (k + 1) (by omega) hadjk.1
      rw [hadjk.2] at hsomec
      cases hfind2 : exmap.lookup (cosE (rename_variables ren a)) with
      | none => rw [hfind2] at hsomec; simp at hsomec
      | some j2 => exact ⟨hA1, hadjR, hseeds, hA4, hA4rev⟩
  | none =>
      dsimp only
      rw [rename_cosE, hren_eq]
      have hfindc : (exmap ++ [(sinE (rename_variables ren a), R.length)]).lookup
          (cosE (rename_variables ren a)) = none := by
        cases hc : exmap.lookup (cosE (rename_variables ren a)) with
        | some c =>
            obtain ⟨hc1, hc2, hgc⟩ := hA4 _ (lookup_mem exmap _ c hc)
            obtain ⟨k', hk', hsin'⟩ := hadjR.2 c (rename_variables ren a) hc2 hgc
            have hk'n : n ≤ k' := by
              by_contra hcon
              push_neg at hcon
              exact (hseeds k' hcon).1 _ hsin'
            have hsome' := hA4rev k' hk'n (by omega)
            rw [hsin', hfind1] at hsome'
            simp at hsome'
        | none =>
            rw [lookup_append_right _ _ _ hc, lookup_cons_eqv,
              if_neg (fun h => sinE_ne_cosE (rename_variables ren a)
                (rename_variables ren a) h.symm)]
            rfl
      rw [hfindc]
      dsimp only
      have hassoc : (R ++ [sinE (rename_variables ren a)]) ++ [cosE (rename_variables ren a)]
          = R ++ [sinE (rename_variables ren a), cosE (rename_variables ren a)] := by
        simp
      refine ⟨by simp; omega, ?_, ?_, ?_, ?_⟩
      · rw [hassoc]
        exact adj_append_pair R _ hadjR
      · intro k hk
        rw [hassoc, List.getD_append _ _ _ _ (by omega)]
        exact hseeds k hk
      · intro p hp
        rcases List.mem_append.mp hp with hp1 | hp2
        · rcases List.mem_append.mp hp1 with hp3 | hp4
          · obtain ⟨hb1, hb2, hb3⟩ := hA4 p hp3
            exact ⟨hb1, by simp; omega, by
              rw [hassoc, List.getD_append _ _ _ _ (by omega)]
              exact hb3⟩
          · simp only [List.mem_singleton] at hp4
            subst hp4
            refine ⟨hA1, by simp, ?_⟩
            rw [hassoc, List.getD_append_right _ _ _ _ (le_refl _)]
            simp
        · simp only [List.mem_singleton] at hp2
          subst hp2
          refine ⟨by simp; omega, by simp, ?_⟩
          rw [hassoc]
          simp only [List.length_append, List.length_cons, List.length_nil]
          rw [List.getD_append_right _ _ _ _ (by omega),
            show R.length + (0 + 1) - R.length = 1 from by omega]
          rfl
      · intro k hk1 hk2
        by_cases hkR : k < R.length
        · rw [hassoc, List.getD_append _ _ _ _ hkR]
          have hs := hA4rev k hk1 hkR
          rw [← lookup_append_left exmap
            [(sinE (rename_variables ren a), R.length)] _ hs] at hs
          rw [← lookup_append_left (exmap ++ [(sinE (rename_variables ren a), R.length)])
            [(cosE (rename_variables ren a), (R ++ [sinE (rename_variables ren a)]).length)]
            _ hs] at hs
          exact hs
        · by_cases hk0 : k = R.length
          · subst hk0
            rw [hassoc, List.getD_append_right _ _ _ _ (le_refl _)]
            have hsl : (exmap ++ [(sinE (rename_variables ren a), R.length)]).lookup
                (sinE (rename_variables ren a)) = some R.length := by
              rw [lookup_append_right _ _ _ hfind1, lookup_cons_eqv, if_pos rfl]
            rw [show ([sinE (rename_variables ren a),
              cosE (rename_variables ren a)].getD (R.length - R.length) (.num 0))
              = sinE (rename_variables ren a) from by simp,
              lookup_append_left _ _ _ (by rw [hsl]; rfl), hsl]
            rfl
          · have hkl : k = R.length + 1 := by
              rw [hassoc] at hk2
              simp only [List.length_append, List.length_cons, List.length_nil] at hk2
              omega
            subst hkl
            rw [hassoc, List.getD_append_right _ _ _ _ (by omega),
              show R.length + 1 - R.length = 1 from by omega]
            rw [show ([sinE (rename_variables ren a),
              cosE (rename_variables ren a)].getD 1 (.num 0))
              = cosE (rename_variables ren a) from rfl]
            rw [lookup_append_right _ _ _ hfindc, lookup_cons_eqv, if_pos rfl]
            rfl

/-- The CSE loop preserves the adjacency invariant along a blocky middle
slice. -/
theorem cse_adj_loop (dc : List Expr) (n : ℕ) (hWFdc : WFfrom n dc) :
    ∀ (ms : List Expr) (i : ℕ) st, Blocky ms → CseAdjInv n st → n ≤ i →
      i + ms.length ≤ dc.length →
      (∀ t, t < ms.length → ms.getD t (.num 0) = dc.getD (i + t) (.num 0)) →
      CseAdjInv n (cse_loop ms i st) := by
  intro ms i st hB
  induction hB generalizing i st with
  | nil =>
      intro hInv _ _ _
      simpa using hInv
  | single e es hNSC hBes IH =>
      intro hInv hni hlen hsl
      simp only [cse_loop]
      refine IH (i + 1) (cse_step st i e)
        (cse_adj_step_single n i st hInv e hNSC) (by omega)
        (by simp at hlen; omega) ?_
      intro t ht
      have h1 := hsl (t + 1) (by simp; omega)
      simp only [List.getD_cons_succ] at h1
      rw [h1]
      congr 1
      omega
  | pair a es hBes IH =>
      intro hInv hni hlen hsl
      simp only [cse_loop]
      have hsin : sinE a = dc.getD i (.num 0) := by
        have h0 := hsl 0 (by simp)
        simpa using h0
      have hvars : ∀ x ∈ varsB a, ∃ j, j < i ∧ x = uname j := by
        have hP := hWFdc i hni (by simp at hlen; omega)
        rw [← hsin] at hP
        intro x hx
        exact hP x (by simpa [sinE, varsB, varsL] using hx)
      refine IH (i + 1 + 1) _
        (cse_adj_step_pair n i st hInv a hvars hni) (by omega)
        (by simp at hlen ⊢; omega) ?_
      intro t ht
      have h2 := hsl (t + 2) (by simp; omega)
      simp only [List.getD_cons_succ] at h2
      rw [h2]
      congr 1
      omega

/-- The full taylor_decompose pipeline keeps sin/cos companions
adjacent. -/
theorem taylor_decompose_adj (v_ex dc : List Expr)
    (hfull : taylor_decompose v_ex = some dc) : SinCosAdj dc := by
  unfold taylor_decompose at hfull
  cases hpre : taylor_decompose_pre v_ex with
  | none => rw [hpre] at hfull; simp at hfull
  | some dcPre =>
      rw [hpre] at hfull
      dsimp only at hfull
      simp only [Option.some.injEq] at hfull
      subst hfull
      obtain ⟨U', cs, hdc, hcslen, hUlen, ⟨W, hW⟩, hvlen, hWFpre, hper, _⟩ :=
        tdp_main v_ex dcPre hpre
      have hadjPre : SinCosAdj dcPre := tdp_adj v_ex dcPre hpre
      have hM : dcPre.length = U'.length + v_ex.length := by rw [hdc]; simp [hcslen]
      have hMn : dcPre.length - v_ex.length = U'.length := by omega
      have hn0 : 0 < v_ex.length := by
        unfold taylor_decompose_pre at hpre
        by_cases hemp : v_ex.isEmpty = true
        · rw [if_pos hemp] at hpre
          simp at hpre
        · cases v_ex with
          | nil => simp at hemp
          | cons a l => simp
      have hseedvar : ∀ k, k < v_ex.length → ∃ s, dcPre.getD k (.num 0) = .var s := by
        intro k hk
        rw [hdc, List.getD_append _ _ _ _ (by omega), hW,
          List.getD_append _ _ _ _ (by rw [List.length_map]; omega),
          List.getD_eq_getElem _ _ (by rw [List.length_map]; omega), List.getElem_map]
        exact ⟨_, rfl⟩
      have hseedNSC : ∀ k, k < v_ex.length → NotSinCos (dcPre.getD k (.num 0)) :=
        fun k hk => numvar_notSinCos _ (.inr (hseedvar k hk))
      have htailNSC : ∀ k, dcPre.length - v_ex.length ≤ k → k < dcPre.length →
          NotSinCos (dcPre.getD k (.num 0)) := by
        intro k h1 h2
        rw [hMn] at h1
        have hki : k - U'.length < v_ex.length := by omega
        have hgd : dcPre.getD k (.num 0) = cs.getD (k - U'.length) (.num 0) := by
          rw [hdc, List.getD_append_right _ _ _ _ (by omega)]
        rw [hgd]
        exact numvar_notSinCos _ (hper _ hki).2
      have hslice : ∀ t, t < (U'.drop v_ex.length).length →
          (U'.drop v_ex.length).getD t (.num 0)
            = dcPre.getD (v_ex.length + t) (.num 0) := by
        intro t ht
        simp only [List.length_drop] at ht
        have hgd : dcPre.getD (v_ex.length + t) (.num 0)
            = U'.getD (v_ex.length + t) (.num 0) := by
          rw [hdc, List.getD_append _ _ _ _ (by omega)]
        rw [hgd, List.getD_eq_getElem _ _ (by simp only [List.length_drop]; omega),
          List.getD_eq_getElem _ _ (by omega), List.getElem_drop]
      have hblocky : Blocky (U'.drop v_ex.length) := by
        refine blocky_slice dcPre v_ex.length hadjPre htailNSC
          (U'.drop v_ex.length).length (U'.drop v_ex.length) v_ex.length rfl
          (le_refl _) (by simp; omega) hslice ?_
        intro b hb
        by_cases hlt : v_ex.length < dcPre.length
        · obtain ⟨k', hk', hsin'⟩ := hadjPre.2 v_ex.length b hlt hb
          have hk'lt : k' < v_ex.length := by omega
          exact (hseedNSC k' hk'lt).1 b hsin'
        · rw [List.getD_eq_default _ _ (by omega)] at hb
          simp [cosE] at hb
      have hInv0 : CseAdjInv v_ex.length (dcPre.take v_ex.length, [], []) := by
        refine ⟨by simp [List.length_take]; omega, ?_, ?_, ?_, ?_⟩
        · apply adj_of_all_notsincos
          intro e he
          obtain ⟨k, hk, hgk⟩ := List.mem_iff_getElem.mp he
          have hkb : k < v_ex.length := by simp [List.length_take] at hk; omega
          have hge : e = dcPre.getD k (.num 0) := by
            rw [← hgk, List.getD_eq_getElem _ _ (by omega)]
            rw [List.getElem_take]
          rw [hge]
          exact hseedNSC k hkb
        · intro k hk
          have hgd : (dcPre.take v_ex.length).getD k (.num 0)
              = dcPre.getD k (.num 0) :=
            take_getD_agree (dcPre.take v_ex.length) dcPre v_ex.length k
              (by rw [List.take_take]; simp) hk
              (by simp [List.length_take]; omega) (by omega)
          rw [hgd]
          exact hseedNSC k hk
        · intro p hp
          simp at hp
        · intro k hk1 hk2
          simp only [List.length_take] at hk2
          exact absurd hk1 (by omega)
      have hloop := cse_adj_loop dcPre v_ex.length hWFpre (U'.drop v_ex.length)
        v_ex.length (dcPre.take v_ex.length, [], []) hblocky hInv0 (le_refl _)
        (by simp; omega)
        (fun t ht => hslice t ht)
      have htake : dcPre.take (dcPre.length - v_ex.length) = U' := by
        rw [hMn, hdc, List.take_left]
      have hdrop : dcPre.drop (dcPre.length - v_ex.length) = cs := by
        rw [hMn, hdc, List.drop_left]
      have hOUT : taylor_decompose_cse dcPre v_ex.length
          = (cse_loop (U'.drop v_ex.length) v_ex.length
              (dcPre.take v_ex.length, [], [])).1
            ++ cs.map (rename_variables
              (cse_loop (U'.drop v_ex.length) v_ex.length
                (dcPre.take v_ex.length, [], [])).2.2) := by
        unfold taylor_decompose_cse
        rw [htake, hdrop]
      rw [hOUT]
      apply adj_append_all
      · exact hloop.2.1
      · intro e he
        obtain ⟨c, hc, rfl⟩ := List.mem_map.mp he
        obtain ⟨ic, hic, hgc⟩ := List.mem_iff_getElem.mp hc
        have hcnv : NotSinCos c := by
          rw [← hgc, ← List.getD_eq_getElem _ (Expr.num 0) hic]
          exact numvar_notSinCos _ (hper ic (by omega)).2
        exact rename_notSinCos _ c hcnv

/-- C3: in every successful decomposition, a sin(v) entry at index k is
immediately followed by its companion cos(v) at k+1, a cos(v) entry at
index k is immediately preceded by sin(v) at k-1, and the emitted Taylor
recurrences address the flat jet exactly at the companion's column: the
sin recurrence reads rows order-j at column idx+1 and the cos recurrence
at column idx-1 (with the second factor at the argument's own column), so
the recurrences always read the correct companion jet. -/
theorem sincos_companions (v_ex dc : List Expr)
    (hfull : taylor_decompose v_ex = some dc) :
    (∀ k a, k < dc.length → dc.getD k (.num 0) = sinE a →
        k + 1 < dc.length ∧ dc.getD (k + 1) (.num 0) = cosE a)
    ∧ (∀ k a, k < dc.length → dc.getD k (.num 0) = cosE a →
        ∃ k', k = k' + 1 ∧ dc.getD k' (.num 0) = sinE a)
    ∧ (∀ idx u_idx n_uvars order : ℕ, ∀ jet : ℕ → ℚ,
        taylor_diff_sin_var idx u_idx n_uvars order jet
          = (∑ j ∈ Finset.Icc 1 order, (j : ℚ) * jetRC n_uvars jet (order - j) (idx + 1)
              * jetRC n_uvars jet j u_idx) / (order : ℚ)
        ∧ taylor_diff_cos_var idx u_idx n_uvars order jet
          = -((∑ j ∈ Finset.Icc 1 order, (j : ℚ) * jetRC n_uvars jet (order - j) (idx - 1)
              * jetRC n_uvars jet j u_idx) / (order : ℚ))) := by
  have hadj := taylor_decompose_adj v_ex dc hfull
  exact ⟨hadj.1, hadj.2, fun idx u_idx n_uvars order jet => ⟨rfl, rfl⟩⟩

/-- Witness for C3 on the system x' = sin(x): in the decomposition
[x, sin(u_0), cos(u_0), u_1] the sin entry at index 1 is followed by its
cosine companion at index 2. -/
theorem sincos_companions_witness :
    1 + 1 < [Expr.var "x", sinE (.var "u_0"), cosE (.var "u_0"),
        Expr.var "u_1"].length
      ∧ [Expr.var "x", sinE (.var "u_0"), cosE (.var "u_0"),
          Expr.var "u_1"].getD (1 + 1) (.num 0) = cosE (.var "u_0") :=
  (sincos_companions [sinE (.var "x")]
    [Expr.var "x", sinE (.var "u_0"), cosE (.var "u_0"), Expr.var "u_1"]
    (by decide)).1 1 (.var "u_0") (by decide) (by decide)

end Heyoka
